import Mathlib

/-!
Verification development for the KODA data format codec.

The development shallowly embeds the TypeScript sources:
  src/encoder.ts   -- canonical binary encoder (magic, version, key dictionary, tagged values)
  src/decoder.ts   -- binary decoder
  src/lexer.ts     -- text lexer producing a token list
  src/parser.ts    -- token-array parser (class Parser) and single-pass parser (class Reader)
  the stringifier  -- value-to-text serializer (needsQuote, escapeDouble, stringifyValue)

Modelling conventions, chosen once and used throughout:
  - JavaScript strings are modelled as lists of natural numbers.  On the binary
    side these are Unicode scalar values (the data model requires object keys and
    string payloads to be valid UTF-8 text); on the text side they are UTF-16
    code units as read by charCodeAt.
  - A JavaScript number is modelled canonically: a double that is an integer in
    the safe range [-(2^53-1), 2^53-1] is KValue.int, any other double is
    KValue.float carrying its 64-bit IEEE-754 pattern.  The predicate
    bitsToSafeInt decides which patterns denote safe integers, so the two
    constructors never overlap on well-formed values.  +0 and -0 are conflated,
    matching both JavaScript loose equality and the encoder, which emits the
    Integer tag for both.
  - JavaScript objects are association lists in insertion order; obj[key] = v is
    update-or-append (objInsert).  Exotic host behaviour (the __proto__ property,
    numeric-key reordering of Object.keys) is outside the model.
  - Recursion that the source bounds by a depth check is given the depth budget
    as structural fuel: a call at depth d holds fuel maxDepth + 1 - d, and the
    fuel-zero case is exactly the source check depth > maxDepth.  Loops bounded
    only by input consumption carry an explicit fuel supplied by the wrapper as
    a function of the input length; exhaustion is a distinguished error that the
    wrappers never reach on the supplied amounts, and no theorem below depends
    on exhaustion being impossible.
  - Binary decode errors carry the read offset, mirroring KodaDecodeError.
    The one exception is deliberate and mirrors the source: decodeUtf8 calls
    TextDecoder with fatal errors and does not catch, so an ill-formed UTF-8
    sequence surfaces as a host TypeError without any offset; this is the
    DecErr.typeError constructor.
-/

set_option maxHeartbeats 1000000
set_option maxRecDepth 4000

namespace Koda

/-! ## Byte-level helpers -/

/-- Big-endian bytes of a 32-bit value, as written by DataView.setUint32. -/
def u32be (n : Nat) : List Nat :=
  [n / 2 ^ 24 % 256, n / 2 ^ 16 % 256, n / 2 ^ 8 % 256, n % 256]

/-- Big-endian bytes of an unsigned 64-bit value. -/
def u64be (n : Nat) : List Nat :=
  [n / 2 ^ 56 % 256, n / 2 ^ 48 % 256, n / 2 ^ 40 % 256, n / 2 ^ 32 % 256,
   n / 2 ^ 24 % 256, n / 2 ^ 16 % 256, n / 2 ^ 8 % 256, n % 256]

/-- Big-endian two's-complement bytes of a signed 64-bit value, as written by
DataView.setBigInt64. -/
def i64be (i : Int) : List Nat :=
  u64be ((i % (2 ^ 64 : Int)).toNat)

/-- Big-endian interpretation of a byte list. -/
def beToNat (l : List Nat) : Nat :=
  l.foldl (fun acc b => acc * 256 + b) 0

/-- Signed interpretation of an unsigned 64-bit value (DataView.getBigInt64). -/
def i64ofNat (u : Nat) : Int :=
  if u < 2 ^ 63 then (u : Int) else (u : Int) - 2 ^ 64

/-! ## UTF-8 -/

/-- UTF-8 bytes of one Unicode scalar value (TextEncoder on well-formed text). -/
def utf8Char (c : Nat) : List Nat :=
  if c < 0x80 then [c]
  else if c < 0x800 then [0xC0 + c / 64, 0x80 + c % 64]
  else if c < 0x10000 then [0xE0 + c / 4096, 0x80 + c / 64 % 64, 0x80 + c % 64]
  else [0xF0 + c / 262144, 0x80 + c / 4096 % 64, 0x80 + c / 64 % 64, 0x80 + c % 64]

/-- UTF-8 bytes of a string of Unicode scalar values. -/
def utf8Encode (s : List Nat) : List Nat :=
  (s.map utf8Char).flatten

/-- A Unicode scalar value: in range and not a surrogate. -/
def ValidScalar (c : Nat) : Prop :=
  c < 0x110000 ∧ ¬(0xD800 ≤ c ∧ c ≤ 0xDFFF)

/-- All characters of the string are Unicode scalar values. -/
def ValidStr (s : List Nat) : Prop :=
  ∀ c ∈ s, ValidScalar c

instance (c : Nat) : Decidable (ValidScalar c) := by unfold ValidScalar; infer_instance

instance (s : List Nat) : Decidable (ValidStr s) := by unfold ValidStr; infer_instance

/-- Scalar and remaining bytes of a two-byte UTF-8 sequence with lead byte b;
the lead-byte range 0xC2..0xDF already excludes overlong forms. -/
def utf8Cont1 (b : Nat) : List Nat → Option (Nat × List Nat)
  | b2 :: rest2 =>
    if 0x80 ≤ b2 ∧ b2 < 0xC0 then some ((b - 0xC0) * 64 + (b2 - 0x80), rest2) else none
  | _ => none

/-- Scalar and remaining bytes of a three-byte UTF-8 sequence: rejects overlong
forms and surrogates. -/
def utf8Cont2 (b : Nat) : List Nat → Option (Nat × List Nat)
  | b2 :: b3 :: rest3 =>
    if 0x80 ≤ b2 ∧ b2 < 0xC0 ∧ 0x80 ≤ b3 ∧ b3 < 0xC0 then
      let c := (b - 0xE0) * 4096 + (b2 - 0x80) * 64 + (b3 - 0x80)
      if 0x800 ≤ c ∧ ¬(0xD800 ≤ c ∧ c ≤ 0xDFFF) then some (c, rest3) else none
    else none
  | _ => none

/-- Scalar and remaining bytes of a four-byte UTF-8 sequence: rejects overlong
forms and values beyond U+10FFFF. -/
def utf8Cont3 (b : Nat) : List Nat → Option (Nat × List Nat)
  | b2 :: b3 :: b4 :: rest4 =>
    if 0x80 ≤ b2 ∧ b2 < 0xC0 ∧ 0x80 ≤ b3 ∧ b3 < 0xC0 ∧ 0x80 ≤ b4 ∧ b4 < 0xC0 then
      let c := (b - 0xF0) * 262144 + (b2 - 0x80) * 4096 + (b3 - 0x80) * 64 + (b4 - 0x80)
      if 0x10000 ≤ c ∧ c < 0x110000 then some (c, rest4) else none
    else none
  | _ => none

/-- Strict UTF-8 decoding (TextDecoder with fatal errors): rejects continuation
bytes in lead position, overlong forms, surrogates, values beyond U+10FFFF and
truncated sequences.  Fuel-indexed; the wrapper supplies the list length, which
suffices because every step consumes at least one byte. -/
def utf8DecodeF : Nat → List Nat → Option (List Nat)
  | _, [] => some []
  | 0, _ :: _ => none
  | fuel + 1, b :: rest =>
    if b < 0x80 then (utf8DecodeF fuel rest).map (b :: ·)
    else if b < 0xC2 then none
    else if b < 0xE0 then
      (utf8Cont1 b rest).bind (fun p => (utf8DecodeF fuel p.2).map (p.1 :: ·))
    else if b < 0xF0 then
      (utf8Cont2 b rest).bind (fun p => (utf8DecodeF fuel p.2).map (p.1 :: ·))
    else if b < 0xF5 then
      (utf8Cont3 b rest).bind (fun p => (utf8DecodeF fuel p.2).map (p.1 :: ·))
    else none

/-- Strict UTF-8 decoding of a byte list. -/
def utf8Decode (l : List Nat) : Option (List Nat) :=
  utf8DecodeF l.length l

/-! ## IEEE-754 binary64 bit patterns

The encoder distinguishes numbers that are safe integers (emitted with the
Integer tag) from all other doubles (emitted with the Float tag as a raw bit
pattern).  bitsToSafeInt decides that predicate directly on bit patterns. -/

/-- The value of the bit pattern when it is an integer in the safe range
[-(2^53-1), 2^53-1]; none for non-integers, out-of-range integers, infinities
and NaNs.  Both zero patterns map to 0, as Number.isInteger(-0) holds and
BigInt(-0) = 0. -/
def bitsToSafeInt (b : Nat) : Option Int :=
  let s := b / 2 ^ 63 % 2
  let e := b / 2 ^ 52 % 2 ^ 11
  let m := b % 2 ^ 52
  if e = 2047 then none
  else
    let m2 := if e = 0 then m else 2 ^ 52 + m
    let e2 := max e 1
    if m2 = 0 then some 0
    else if 1075 ≤ e2 then
      let v : Nat := m2 * 2 ^ (e2 - 1075)
      if v ≤ 2 ^ 53 - 1 then some (if s = 1 then -(v : Int) else (v : Int)) else none
    else
      let k := 1075 - e2
      if m2 % 2 ^ k = 0 then
        let v : Nat := m2 / 2 ^ k
        if v ≤ 2 ^ 53 - 1 then some (if s = 1 then -(v : Int) else (v : Int)) else none
      else none

/-- Bit pattern of the double nearest to an integer with 2^53 ≤ |i| < 2^63
(round to nearest, ties to even).  Models the rounding performed by
Number(bigint) when the decoder reads an int64 outside the safe range. -/
def roundIntBits (i : Int) : Nat :=
  let n := i.natAbs
  let k := n.log2 - 52
  let q := n / 2 ^ k
  let r := n % 2 ^ k
  let q2 := if 2 ^ k < 2 * r ∨ (2 * r = 2 ^ k ∧ q % 2 = 1) then q + 1 else q
  let m := if q2 = 2 ^ 53 then 2 ^ 52 else q2
  let k2 := if q2 = 2 ^ 53 then k + 1 else k
  let s : Nat := if i < 0 then 1 else 0
  s * 2 ^ 63 + (k2 + 1075) * 2 ^ 52 + (m - 2 ^ 52)

/-- The number produced by Number(bigint) for a decoded int64: exact inside the
safe range, rounded to the nearest double outside it. -/
def numOfI64 (i : Int) : Option Int × Nat :=
  if i.natAbs ≤ 2 ^ 53 - 1 then (some i, 0) else (none, roundIntBits i)

/-! ## Byte-sequence ordering

The encoder comparator (src/encoder.ts lines 58-65 and 155-162) compares the
UTF-8 encodings byte by byte and, when one is a prefix of the other, by length.
That is exactly lexicographic ordering on byte lists. -/

def bytesCmp : List Nat → List Nat → Ordering
  | [], [] => .eq
  | [], _ :: _ => .lt
  | _ :: _, [] => .gt
  | a :: as, b :: bs => if a < b then .lt else if b < a then .gt else bytesCmp as bs

/-- The non-strict order derived from the encoder comparator on keys. -/
def keyLeB (a b : List Nat) : Bool :=
  bytesCmp (utf8Encode a) (utf8Encode b) ≠ .gt

/-- Entry order used when the encoder sorts the entries of one object. -/
def entLeB (a b : List Nat × α) : Bool :=
  keyLeB a.1 b.1

/-! ## Insertion sort

Array.prototype.sort with a strict total comparator yields the unique sorted
permutation; insertion sort computes the same list. -/

def insertLe (le : α → α → Bool) (x : α) : List α → List α
  | [] => [x]
  | y :: ys => if le x y then x :: y :: ys else y :: insertLe le x ys

def sortLe (le : α → α → Bool) : List α → List α
  | [] => []
  | x :: xs => insertLe le x (sortLe le xs)

/-! ## The value model (binary side)

KodaValue from the sources, in the canonical number representation described in
the header comment. -/

inductive KValue where
  | null
  | bool (b : Bool)
  | int (i : Int)
  | float (b : Nat)
  | str (s : List Nat)
  | arr (l : List KValue)
  | obj (l : List (List Nat × KValue))
deriving Repr

/-- Update-or-append on an association list: the behaviour of obj[key] = v on a
plain JavaScript object. -/
def objInsert (l : List (List Nat × KValue)) (k : List Nat) (v : KValue) :
    List (List Nat × KValue) :=
  match l with
  | [] => [(k, v)]
  | (k0, v0) :: rest =>
    if k0 = k then (k0, v) :: rest else (k0, v0) :: objInsert rest k v

/-- Well-formed values: strings hold Unicode scalar values, integers are in the
safe range, float patterns are 64-bit and not safe-integer patterns (those are
represented by KValue.int), and object keys are unique. -/
inductive WfK : KValue → Prop where
  | null : WfK .null
  | bool (b : Bool) : WfK (.bool b)
  | int (i : Int) : i.natAbs ≤ 2 ^ 53 - 1 → WfK (.int i)
  | float (b : Nat) : b < 2 ^ 64 → bitsToSafeInt b = none → WfK (.float b)
  | str (s : List Nat) : ValidStr s → WfK (.str s)
  | arr (l : List KValue) : (∀ v ∈ l, WfK v) → WfK (.arr l)
  | obj (l : List (List Nat × KValue)) :
      (∀ kv ∈ l, WfK kv.2) → (∀ kv ∈ l, ValidStr kv.1) →
      (l.map Prod.fst).Nodup → WfK (.obj l)

/-- Size limits required for a faithful binary round trip: string and key
payloads within maxStringLength bytes of UTF-8, and all u32-encoded counts
below 2^32. -/
inductive FitsK (maxStr : Nat) : KValue → Prop where
  | null : FitsK maxStr .null
  | bool (b : Bool) : FitsK maxStr (.bool b)
  | int (i : Int) : FitsK maxStr (.int i)
  | float (b : Nat) : FitsK maxStr (.float b)
  | str (s : List Nat) : (utf8Encode s).length ≤ maxStr → FitsK maxStr (.str s)
  | arr (l : List KValue) : l.length < 2 ^ 32 → (∀ v ∈ l, FitsK maxStr v) →
      FitsK maxStr (.arr l)
  | obj (l : List (List Nat × KValue)) : l.length < 2 ^ 32 →
      (∀ kv ∈ l, (utf8Encode kv.1).length ≤ maxStr) →
      (∀ kv ∈ l, FitsK maxStr kv.2) → FitsK maxStr (.obj l)

mutual

/-- Nesting depth of a value: root at 0, each nested array or object scope
adds 1; the depth of a value is the depth of its deepest node. -/
def vdepthK : KValue → Nat
  | .null | .bool _ | .int _ | .float _ | .str _ => 0
  | .arr l => vdepthKList l
  | .obj l => vdepthKEnts l

def vdepthKList : List KValue → Nat
  | [] => 0
  | v :: r => max (1 + vdepthK v) (vdepthKList r)

def vdepthKEnts : List (List Nat × KValue) → Nat
  | [] => 0
  | (_, v) :: r => max (1 + vdepthK v) (vdepthKEnts r)

end

mutual

/-- Canonical form: every object entry list recursively sorted by the encoder
key order.  Two values are structurally equal (same key sets, element orders
and numeric patterns, up to object entry order) exactly when their canonical
forms are equal. -/
def canonK : KValue → KValue
  | .null => .null
  | .bool b => .bool b
  | .int i => .int i
  | .float b => .float b
  | .str s => .str s
  | .arr l => .arr (canonKList l)
  | .obj l => .obj (sortLe entLeB (canonKEnts l))

def canonKList : List KValue → List KValue
  | [] => []
  | v :: r => canonK v :: canonKList r

def canonKEnts : List (List Nat × KValue) → List (List Nat × KValue)
  | [] => []
  | (k, v) :: r => (k, canonK v) :: canonKEnts r

end

/-- Structural equality of values in the sense of the specification. -/
def StructEqK (a b : KValue) : Prop :=
  canonK a = canonK b

/-- Set-like insertion, as performed by Set.prototype.add. -/
def setAdd (s : List (List Nat)) (k : List Nat) : List (List Nat) :=
  if k ∈ s then s else s ++ [k]

mutual

/-- collectKeys from src/encoder.ts: walk the tree, adding every object key to
the set in traversal order. -/
def collectKeys : KValue → List (List Nat) → List (List Nat)
  | .null, s | .bool _, s | .int _, s | .float _, s | .str _, s => s
  | .arr l, s => collectKeysList l s
  | .obj l, s => collectKeysEnts l s

def collectKeysList : List KValue → List (List Nat) → List (List Nat)
  | [], s => s
  | v :: r, s => collectKeysList r (collectKeys v s)

def collectKeysEnts : List (List Nat × KValue) → List (List Nat) → List (List Nat)
  | [], s => s
  | (k, v) :: r, s => collectKeysEnts r (collectKeys v (setAdd s k))

end

/-! ## Binary encoder (src/encoder.ts) -/

inductive EncErr where
  | depthExceeded
  | keyNotInDict
deriving Repr, DecidableEq

structure EncodeOptions where
  maxDepth : Nat := 256
deriving Repr

def MAGIC : List Nat := [0x4B, 0x4F, 0x44, 0x41]

def VERSION : Nat := 1

/-- Position of a key in the dictionary (the keyToIndex map). -/
def idxOf (k : List Nat) : List (List Nat) → Option Nat
  | [] => none
  | x :: xs => if x = k then some 0 else (idxOf k xs).map (· + 1)

/-- Concatenation of the encodings of a list of items, left to right, stopping
at the first error. -/
def encCat (f : α → Except EncErr (List Nat)) : List α → Except EncErr (List Nat)
  | [] => .ok []
  | x :: xs => do
    let b ← f x
    let r ← encCat f xs
    .ok (b ++ r)

/-- encodeValue from src/encoder.ts.  The fuel is the remaining depth budget
maxDepth + 1 - depth; fuel zero is exactly the source check depth > maxDepth. -/
def encodeValueF (dict : List (List Nat)) : Nat → KValue → Except EncErr (List Nat)
  | 0, _ => .error .depthExceeded
  | _ + 1, .null => .ok [0x01]
  | _ + 1, .bool false => .ok [0x02]
  | _ + 1, .bool true => .ok [0x03]
  | _ + 1, .int i => .ok (0x04 :: i64be i)
  | _ + 1, .float b => .ok (0x05 :: u64be b)
  | _ + 1, .str s => .ok (0x06 :: u32be (utf8Encode s).length ++ utf8Encode s)
  | fuel + 1, .arr l => do
    let body ← encCat (encodeValueF dict fuel) l
    .ok (0x10 :: u32be l.length ++ body)
  | fuel + 1, .obj l => do
    let sorted := sortLe entLeB l
    let body ← encCat (fun kv => do
      match idxOf kv.1 dict with
      | none => .error .keyNotInDict
      | some i =>
        let b ← encodeValueF dict fuel kv.2
        .ok (u32be i ++ b)) sorted
    .ok (0x11 :: u32be sorted.length ++ body)

/-- The dictionary: all keys of the tree, deduplicated, sorted by UTF-8 byte
order. -/
def dictOf (v : KValue) : List (List Nat) :=
  sortLe keyLeB (collectKeys v [])

/-- encode from src/encoder.ts: magic, version byte, dictionary, root value. -/
def encode (v : KValue) (opts : EncodeOptions := {}) : Except EncErr (List Nat) := do
  let dict := dictOf v
  let body ← encodeValueF dict (opts.maxDepth + 1) v
  .ok (MAGIC ++ [VERSION] ++ u32be dict.length ++
    (dict.map (fun k => u32be (utf8Encode k).length ++ utf8Encode k)).flatten ++ body)

/-! ## Binary decoder (src/decoder.ts) -/

inductive DMsg where
  | truncated
  | invalidMagic
  | unsupportedVersion (v : Nat)
  | dictTooLarge
  | keyTooLong
  | stringTooLong
  | invalidKeyIndex
  | unknownTag (t : Nat)
  | binaryNotSupported
  | trailingBytes
  | depthExceeded
  | fuelOut
deriving Repr, DecidableEq

/-- A decode failure: either a KodaDecodeError with its byte offset, or the
uncaught TypeError thrown by TextDecoder on ill-formed UTF-8, which carries no
offset. -/
inductive DecErr where
  | err (m : DMsg) (off : Nat)
  | typeError
deriving Repr, DecidableEq

structure DecodeOptions where
  maxDepth : Nat := 256
  maxDictionarySize : Nat := 65536
  maxStringLength : Nat := 1000000
deriving Repr

/-- Decoder state: the bytes not yet consumed and the read offset. -/
structure DState where
  rem : List Nat
  off : Nat
deriving Repr

/-- Appending unread bytes to a state (for the trailing-bytes analysis). -/
def stExt (st : DState) (extra : List Nat) : DState :=
  ⟨st.rem ++ extra, st.off⟩

/-- ensure(n) followed by reading n bytes. -/
def dtake (n : Nat) (st : DState) : Except DecErr (List Nat × DState) :=
  if st.rem.length < n then .error (.err .truncated st.off)
  else .ok (st.rem.take n, ⟨st.rem.drop n, st.off + n⟩)

def readU8 (st : DState) : Except DecErr (Nat × DState) := do
  let (b, st) ← dtake 1 st
  .ok (beToNat b, st)

def readU32 (st : DState) : Except DecErr (Nat × DState) := do
  let (b, st) ← dtake 4 st
  .ok (beToNat b, st)

def readI64 (st : DState) : Except DecErr (Int × DState) := do
  let (b, st) ← dtake 8 st
  .ok (i64ofNat (beToNat b), st)

/-- Read count items with the given item reader. -/
def decCat (dec : DState → Except DecErr (α × DState)) :
    Nat → DState → Except DecErr (List α × DState)
  | 0, st => .ok ([], st)
  | n + 1, st => do
    let (v, st) ← dec st
    let (vs, st) ← decCat dec n st
    .ok (v :: vs, st)

/-- Read count object entries, building the object with obj[key] = value. -/
def decEnts (dec : DState → Except DecErr (KValue × DState))
    (dict : List (List Nat)) (maxOff : Unit) :
    Nat → List (List Nat × KValue) → DState →
    Except DecErr (List (List Nat × KValue) × DState)
  | 0, acc, st => .ok (acc, st)
  | n + 1, acc, st => do
    let (keyIdx, st) ← readU32 st
    if h : keyIdx < dict.length then
      let key := dict.get ⟨keyIdx, h⟩
      let (v, st) ← dec st
      decEnts dec dict maxOff n (objInsert acc key v) st
    else .error (.err .invalidKeyIndex st.off)

/-- decodeValue from src/decoder.ts.  Fuel is the depth budget as in the
encoder; fuel zero is the source check depth > maxDepth.  The switch on the tag
byte is written as a chain of equality tests. -/
def decodeValueF (dict : List (List Nat)) (maxStr : Nat) :
    Nat → DState → Except DecErr (KValue × DState)
  | 0, st => .error (.err .depthExceeded st.off)
  | fuel + 1, st => do
    let (tag, st) ← readU8 st
    if tag = 0x01 then .ok (.null, st)
    else if tag = 0x02 then .ok (.bool false, st)
    else if tag = 0x03 then .ok (.bool true, st)
    else if tag = 0x04 then do
      let (i, st) ← readI64 st
      match numOfI64 i with
      | (some n, _) => .ok (.int n, st)
      | (none, b) => .ok (.float b, st)
    else if tag = 0x05 then do
      let (bytes, st) ← dtake 8 st
      let b := beToNat bytes
      match bitsToSafeInt b with
      | some n => .ok (.int n, st)
      | none => .ok (.float b, st)
    else if tag = 0x06 then do
      let (len, st) ← readU32 st
      if len > maxStr then .error (.err .stringTooLong st.off)
      else do
        let (bytes, st) ← dtake len st
        match utf8Decode bytes with
        | none => .error .typeError
        | some s => .ok (.str s, st)
    else if tag = 0x07 then .error (.err .binaryNotSupported st.off)
    else if tag = 0x10 then do
      let (count, st) ← readU32 st
      let (vs, st) ← decCat (decodeValueF dict maxStr fuel) count st
      .ok (.arr vs, st)
    else if tag = 0x11 then do
      let (count, st) ← readU32 st
      let (ents, st) ← decEnts (decodeValueF dict maxStr fuel) dict () count [] st
      .ok (.obj ents, st)
    else .error (.err (.unknownTag tag) st.off)

/-- Read the dict_len dictionary entries. -/
def readDict (maxStr : Nat) : Nat → DState → Except DecErr (List (List Nat) × DState)
  | 0, st => .ok ([], st)
  | n + 1, st => do
    let (keyLen, st) ← readU32 st
    if keyLen > maxStr then .error (.err .keyTooLong st.off)
    else do
      let (bytes, st) ← dtake keyLen st
      match utf8Decode bytes with
      | none => .error .typeError
      | some key => do
        let (keys, st) ← readDict maxStr n st
        .ok (key :: keys, st)

/-- Header, dictionary and root value of decode from src/decoder.ts, returning
the state after the root value. -/
def decodeBody (buffer : List Nat) (opts : DecodeOptions := {}) :
    Except DecErr (KValue × DState) :=
  match buffer with
  | m0 :: m1 :: m2 :: m3 :: ver :: rest =>
    if ¬([m0, m1, m2, m3] = MAGIC) then .error (.err .invalidMagic 0)
    else if ver ≠ VERSION then .error (.err (.unsupportedVersion ver) 5)
    else do
      let st : DState := ⟨rest, 5⟩
      let (dictLen, st) ← readU32 st
      if dictLen > opts.maxDictionarySize then .error (.err .dictTooLarge st.off)
      else do
        let (dict, st) ← readDict opts.maxStringLength dictLen st
        decodeValueF dict opts.maxStringLength (opts.maxDepth + 1) st
  | _ => .error (.err .truncated 0)

/-- decode from src/decoder.ts: header, dictionary, root value, trailing-byte
check. -/
def decode (buffer : List Nat) (opts : DecodeOptions := {}) : Except DecErr KValue := do
  let (v, st) ← decodeBody buffer opts
  if st.rem ≠ [] then .error (.err .trailingBytes st.off)
  else .ok v

/-! ## Text format: values and tokens

The text side works on JavaScript strings, modeled as lists of UTF-16 code
units.  A parsed value (src/ast.ts KodaValue) is null, a boolean, a number or a
string, or an array or object of values.  Numbers are split as the lexer does:
integer literals, which the source checks against the safe-integer range and
which are therefore exact, are kept as integers; float literals are kept as
their source spelling (the list of characters handed to parseFloat), since no
claim proved here depends on the numeric value of a float literal.  Source
positions are modeled by their character offset; line and column are dropped,
as no claim mentions them. -/

inductive TValue where
  | null
  | bool (b : Bool)
  | int (i : Int)
  | float (raw : List Nat)
  | str (s : List Nat)
  | arr (l : List TValue)
  | obj (l : List (List Nat × TValue))
deriving Repr

/-- Tokens of the text format (TokenKind plus the token value). -/
inductive Tok where
  | lbrace
  | rbrace
  | lbracket
  | rbracket
  | colon
  | comma
  | str (s : List Nat)
  | ident (s : List Nat)
  | int (n : Int)
  | float (raw : List Nat)
  | tTrue
  | tFalse
  | tNull
  | eof
deriving Repr, DecidableEq

/-- The distinct KodaParseError messages of lexer.ts, parser.ts and the Reader
of parseFast, one constructor per message string.  fuelExhausted is the
modeling artifact for the fueled scanning loops; it cannot occur for the fuel
the entry points pass, and no theorem relies on it. -/
inductive TMsg where
  | inputTooLong
  | unclosedComment
  | unclosedString
  | incompleteUEscape
  | invalidUEscape
  | invalidEscape (c : Nat)
  | controlChar
  | leadingZero
  | expectedDigitsAfterDot
  | invalidNumber
  | invalidExponent
  | intOutOfRange
  | unexpectedChar
  | expectedEofTok (got : Tok)
  | duplicateKey (k : List Nat)
  | depthExceeded
  | unexpectedToken (got : Tok)
  | expectedKey
  | unexpectedCharacterR
  | expectedEndOfInput
  | unexpectedTokenR
  | expectedKeyR
  | fuelExhausted
deriving Repr, DecidableEq

/-- A text-side failure: message and character offset of the reported
position. -/
structure TErr where
  msg : TMsg
  off : Nat
deriving Repr, DecidableEq

/-! ## Character classes -/

def isWs (c : Nat) : Bool := c = 32 ∨ c = 9 ∨ c = 13 ∨ c = 10

def isDigit (c : Nat) : Bool := 48 ≤ c ∧ c ≤ 57

/-- The regular expression \w (letters, digits, underscore). -/
def isWordChar (c : Nat) : Bool :=
  (65 ≤ c ∧ c ≤ 90) ∨ (97 ≤ c ∧ c ≤ 122) ∨ (48 ≤ c ∧ c ≤ 57) ∨ c = 95

/-- Continuation characters of identifiers: \w, dash or underscore. -/
def isIdentChar (c : Nat) : Bool := isWordChar c ∨ c = 45

/-- First characters of identifiers at the token level: a-z, A-Z or
underscore. -/
def isAlphaU (c : Nat) : Bool := (65 ≤ c ∧ c ≤ 90) ∨ (97 ≤ c ∧ c ≤ 122) ∨ c = 95

def isHex (c : Nat) : Bool :=
  (48 ≤ c ∧ c ≤ 57) ∨ (97 ≤ c ∧ c ≤ 102) ∨ (65 ≤ c ∧ c ≤ 70)

def hexVal (c : Nat) : Nat :=
  if 48 ≤ c ∧ c ≤ 57 then c - 48
  else if 97 ≤ c ∧ c ≤ 102 then c - 87
  else c - 55

/-- Value of a list of decimal digit characters. -/
def natOfDigits (ds : List Nat) : Nat :=
  ds.foldl (fun a c => a * 10 + (c - 48)) 0

/-! ## Lexer (src/lexer.ts) -/

/-- Rest of the input after a line comment body: everything up to (and not
including) the next newline. -/
def dropLine (input : List Nat) : List Nat :=
  input.dropWhile (fun c => decide (c ≠ 10))

def lineLen (input : List Nat) : Nat :=
  (input.takeWhile (fun c => decide (c ≠ 10))).length

/-- The multi-line-comment loop of skipWhitespaceAndComments, entered after
consuming the opening slash-star, with the current nesting depth.  The fuel
only makes the loop structural; remaining length plus one is always enough. -/
def skipBlock : Nat → Nat → List Nat → Nat → Except TErr (List Nat × Nat)
  | 0, _, _, off => .error ⟨.fuelExhausted, off⟩
  | _ + 1, _, [], off => .error ⟨.unclosedComment, off⟩
  | fuel + 1, depth, 42 :: 47 :: rest2, off =>
    if depth = 1 then .ok (rest2, off + 2) else skipBlock fuel (depth - 1) rest2 (off + 2)
  | fuel + 1, depth, 47 :: 42 :: rest2, off => skipBlock fuel (depth + 1) rest2 (off + 2)
  | fuel + 1, depth, _ :: rest, off => skipBlock fuel depth rest (off + 1)

/-- skipWhitespaceAndComments.  The fuel only bounds the number of loop
iterations; every iteration consumes input, so remaining length plus one is
always enough. -/
def skipWsF : Nat → List Nat → Nat → Except TErr (List Nat × Nat)
  | 0, _, off => .error ⟨.fuelExhausted, off⟩
  | fuel + 1, input, off =>
    match input with
    | [] => .ok ([], off)
    | c :: rest =>
      if isWs c then skipWsF fuel rest (off + 1)
      else if c = 47 then
        match rest with
        | 47 :: rest2 => skipWsF fuel (dropLine rest2) (off + 2 + lineLen rest2)
        | 42 :: rest2 => do
          let (r, o) ← skipBlock (rest2.length + 1) 1 rest2 (off + 2)
          skipWsF fuel r o
        | _ => .ok (c :: rest, off)
      else .ok (c :: rest, off)

/-- readQuotedString from src/lexer.ts, after the opening quote: input after
the quote, offset after the quote, accumulated value.  Returns the string
value, the rest of the input and the offset after the closing quote.  The fuel
only makes the loop structural; at least one character is consumed per tick,
so remaining length plus one is always enough. -/
def lexStr (q : Nat) : Nat → List Nat → Nat → List Nat →
    Except TErr (List Nat × List Nat × Nat)
  | 0, _, off, _ => .error ⟨.fuelExhausted, off⟩
  | _ + 1, [], off, _ => .error ⟨.unclosedString, off⟩
  | fuel + 1, c :: rest, off, acc =>
    if c = q then .ok (acc, rest, off + 1)
    else if c = 92 then
      match rest with
      | [] => .error ⟨.unclosedString, off + 1⟩
      | next :: rest2 =>
        if next = q then lexStr q fuel rest2 (off + 2) (acc ++ [q])
        else if next = 92 then lexStr q fuel rest2 (off + 2) (acc ++ [92])
        else if next = 47 then lexStr q fuel rest2 (off + 2) (acc ++ [47])
        else if next = 98 then lexStr q fuel rest2 (off + 2) (acc ++ [8])
        else if next = 102 then lexStr q fuel rest2 (off + 2) (acc ++ [12])
        else if next = 110 then lexStr q fuel rest2 (off + 2) (acc ++ [10])
        else if next = 114 then lexStr q fuel rest2 (off + 2) (acc ++ [13])
        else if next = 116 then lexStr q fuel rest2 (off + 2) (acc ++ [9])
        else if next = 117 then
          match rest2 with
          | [] => .error ⟨.incompleteUEscape, off + 2⟩
          | h1 :: r1 =>
            if ¬ isHex h1 then .error ⟨.invalidUEscape, off + 3⟩
            else match r1 with
            | [] => .error ⟨.incompleteUEscape, off + 3⟩
            | h2 :: r2 =>
              if ¬ isHex h2 then .error ⟨.invalidUEscape, off + 4⟩
              else match r2 with
              | [] => .error ⟨.incompleteUEscape, off + 4⟩
              | h3 :: r3 =>
                if ¬ isHex h3 then .error ⟨.invalidUEscape, off + 5⟩
                else match r3 with
                | [] => .error ⟨.incompleteUEscape, off + 5⟩
                | h4 :: r4 =>
                  if ¬ isHex h4 then .error ⟨.invalidUEscape, off + 6⟩
                  else lexStr q fuel r4 (off + 6)
                    (acc ++ [hexVal h1 * 4096 + hexVal h2 * 256 +
                      hexVal h3 * 16 + hexVal h4])
        else .error ⟨.invalidEscape next, off + 2⟩
    else if c ≤ 31 then .error ⟨.controlChar, off + 1⟩
    else lexStr q fuel rest (off + 1) (acc ++ [c])

/-- End of readNumber: after all digits are consumed, either a float token
made of the spelling, or the range-checked integer. -/
def finishNum (neg : Bool) (ip fr : List Nat) (isF : Bool) (rest : List Nat)
    (off : Nat) : Except TErr (Tok × List Nat × Nat) :=
  if isF then .ok (.float ((if neg then [45] else []) ++ ip ++ fr), rest, off)
  else if 2 ^ 53 - 1 < natOfDigits ip then .error ⟨.intOutOfRange, off⟩
  else .ok (.int (if neg then -(natOfDigits ip : Int) else (natOfDigits ip : Int)),
    rest, off)

/-- Fraction and exponent part of readNumber, entered with the sign and the
integer-part digits already consumed. -/
def contNum (neg : Bool) (ip : List Nat) (input : List Nat) (off : Nat) :
    Except TErr (Tok × List Nat × Nat) :=
  let frp : Bool × List Nat × List Nat × Nat :=
    match input with
    | 46 :: r =>
      (true, 46 :: r.takeWhile isDigit, r.dropWhile isDigit,
        off + 1 + (r.takeWhile isDigit).length)
    | _ => (false, [], input, off)
  match frp with
  | (isF1, fr, in2, off2) =>
    match in2 with
    | e :: r3 =>
      if e = 101 ∨ e = 69 then
        let sgp : List Nat × List Nat × Nat :=
          match r3 with
          | 43 :: r4 => ([43], r4, off2 + 2)
          | 45 :: r4 => ([45], r4, off2 + 2)
          | _ => ([], r3, off2 + 1)
        match sgp with
        | (sg, in4, off4) =>
          match in4 with
          | d :: _ =>
            if isDigit d then
              .ok (.float ((if neg then [45] else []) ++ ip ++ fr ++ [e] ++ sg ++
                  in4.takeWhile isDigit),
                in4.dropWhile isDigit, off4 + (in4.takeWhile isDigit).length)
            else .error ⟨.invalidExponent, off4⟩
          | [] => .error ⟨.invalidExponent, off4⟩
      else finishNum neg ip fr isF1 in2 off2
    | [] => finishNum neg ip fr isF1 [] off2

/-- readNumber from src/lexer.ts, on input whose first character is a minus
sign or a digit. -/
def numTok (input : List Nat) (off : Nat) : Except TErr (Tok × List Nat × Nat) :=
  let mp : Bool × List Nat × Nat :=
    match input with
    | 45 :: r => (true, r, off + 1)
    | _ => (false, input, off)
  match mp with
  | (neg, in1, off1) =>
    match in1 with
    | 48 :: r1 =>
      match r1 with
      | c :: _ =>
        if c = 46 ∨ c = 101 ∨ c = 69 then contNum neg [48] r1 (off1 + 1)
        else if 49 ≤ c ∧ c ≤ 57 then .error ⟨.leadingZero, off1 + 1⟩
        else .ok (.int 0, r1, off1 + 1)
      | [] => .ok (.int 0, [], off1 + 1)
    | c :: r1 =>
      if 49 ≤ c ∧ c ≤ 57 then
        contNum neg (in1.takeWhile isDigit) (in1.dropWhile isDigit)
          (off1 + (in1.takeWhile isDigit).length)
      else if c = 46 then
        match r1 with
        | d :: _ =>
          if isDigit d then
            .ok (.float ((if neg then [45] else []) ++ 46 :: r1.takeWhile isDigit),
              r1.dropWhile isDigit, off1 + 1 + (r1.takeWhile isDigit).length)
          else .error ⟨.expectedDigitsAfterDot, off1 + 1⟩
        | [] => .error ⟨.expectedDigitsAfterDot, off1 + 1⟩
      else .error ⟨.invalidNumber, off1⟩
    | [] => .error ⟨.invalidNumber, off1⟩

/-- readIdentifierOrKeyword, on input whose first character is a letter or
underscore. -/
def identTok (c : Nat) (rest : List Nat) (off : Nat) : Tok × List Nat × Nat :=
  let raw := c :: rest.takeWhile isIdentChar
  let rem := rest.dropWhile isIdentChar
  let off2 := off + raw.length
  if raw = [116, 114, 117, 101] then (.tTrue, rem, off2)
  else if raw = [102, 97, 108, 115, 101] then (.tFalse, rem, off2)
  else if raw = [110, 117, 108, 108] then (.tNull, rem, off2)
  else (.ident raw, rem, off2)

/-- The token-producing loop of tokenize.  A token together with the offset of
its start position, as emitted (for single-character tokens the source takes
the position after the character).  The fuel bounds the loop count; one token
is consumed per iteration. -/
def tokensF : Nat → List Nat → Nat → Except TErr (List (Tok × Nat))
  | 0, _, off => .error ⟨.fuelExhausted, off⟩
  | fuel + 1, input, off => do
    let (rem, off2) ← skipWsF (input.length + 1) input off
    match rem with
    | [] => .ok [(.eof, off2)]
    | c :: rest =>
      if c = 123 then do
        let ts ← tokensF fuel rest (off2 + 1)
        .ok ((.lbrace, off2 + 1) :: ts)
      else if c = 125 then do
        let ts ← tokensF fuel rest (off2 + 1)
        .ok ((.rbrace, off2 + 1) :: ts)
      else if c = 91 then do
        let ts ← tokensF fuel rest (off2 + 1)
        .ok ((.lbracket, off2 + 1) :: ts)
      else if c = 93 then do
        let ts ← tokensF fuel rest (off2 + 1)
        .ok ((.rbracket, off2 + 1) :: ts)
      else if c = 58 then do
        let ts ← tokensF fuel rest (off2 + 1)
        .ok ((.colon, off2 + 1) :: ts)
      else if c = 44 then do
        let ts ← tokensF fuel rest (off2 + 1)
        .ok ((.comma, off2 + 1) :: ts)
      else if c = 34 ∨ c = 39 then do
        let (s, rem2, off3) ← lexStr c (rest.length + 1) rest (off2 + 1) []
        let ts ← tokensF fuel rem2 off3
        .ok ((.str s, off2) :: ts)
      else if c = 45 ∨ isDigit c then do
        let (t, rem2, off3) ← numTok (c :: rest) off2
        let ts ← tokensF fuel rem2 off3
        .ok ((t, off2) :: ts)
      else if isAlphaU c then
        match identTok c rest off2 with
        | (t, rem2, off3) => do
          let ts ← tokensF fuel rem2 off3
          .ok ((t, off2) :: ts)
      else .error ⟨.unexpectedChar, off2⟩

/-- tokenize from src/lexer.ts. -/
def tokenize (input : List Nat) (maxLen : Nat := 1000000) :
    Except TErr (List (Tok × Nat)) :=
  if input.length > maxLen then .error ⟨.inputTooLong, 0⟩
  else tokensF (input.length + 1) input 0

/-! ## Parser (src/parser.ts)

The Parser class walks the token array with an index that never moves past the
last token; the model keeps the suffix of the token list, never empty for
lexer output since the lexer always appends Eof.  The source recursion is
depth-checked against maxDepth exactly as written (depth > maxDepth); the
separate fuel argument only makes the mutual recursion structural, decreases
on every call, and is started large enough by the entry points that it cannot
run out (every parseValue consumes at least one token before recursing). -/

structure ParseOptions where
  maxDepth : Nat := 256
  maxInputLength : Nat := 1000000
deriving Repr

/-- The current token (tokens[index] with the final token repeated). -/
def curT : List (Tok × Nat) → Tok × Nat
  | [] => (.eof, 0)
  | t :: _ => t

/-- advance: move on unless already at the last token. -/
def advT : List (Tok × Nat) → List (Tok × Nat)
  | [] => []
  | [t] => [t]
  | _ :: t :: rest => t :: rest

mutual

/-- Parser.parseValue at depth. -/
def parseValueP (md : Nat) : Nat → Nat → List (Tok × Nat) →
    Except TErr (TValue × List (Tok × Nat))
  | 0, _, ts => .error ⟨.fuelExhausted, (curT ts).2⟩
  | fuel + 1, depth, ts =>
    if depth > md then .error ⟨.depthExceeded, (curT ts).2⟩
    else
      match (curT ts).1 with
      | .lbrace => parseObjP md fuel depth (advT ts) []
      | .lbracket => parseArrP md fuel depth (advT ts) []
      | .str s => .ok (.str s, advT ts)
      | .ident s => .ok (.str s, advT ts)
      | .int n => .ok (.int n, advT ts)
      | .float raw => .ok (.float raw, advT ts)
      | .tTrue => .ok (.bool true, advT ts)
      | .tFalse => .ok (.bool false, advT ts)
      | .tNull => .ok (.null, advT ts)
      | t => .error ⟨.unexpectedToken t, (curT ts).2⟩
termination_by structural fuel _ _ => fuel

/-- The entry loop of Parser.parseObject, after the opening brace. -/
def parseObjP (md : Nat) : Nat → Nat → List (Tok × Nat) →
    List (List Nat × TValue) → Except TErr (TValue × List (Tok × Nat))
  | 0, _, ts, _ => .error ⟨.fuelExhausted, (curT ts).2⟩
  | fuel + 1, depth, ts, obj =>
    match (curT ts).1 with
    | .rbrace => .ok (.obj obj, advT ts)
    | .ident key => parseObjEntryP md fuel depth key (curT ts).2 (advT ts) obj
    | .str key => parseObjEntryP md fuel depth key (curT ts).2 (advT ts) obj
    | _ => .error ⟨.expectedKey, (curT ts).2⟩
termination_by structural fuel _ _ _ => fuel

/-- One key-value entry of Parser.parseObject, after the key token. -/
def parseObjEntryP (md : Nat) : Nat → Nat → List Nat → Nat → List (Tok × Nat) →
    List (List Nat × TValue) → Except TErr (TValue × List (Tok × Nat))
  | 0, _, _, _, ts, _ => .error ⟨.fuelExhausted, (curT ts).2⟩
  | fuel + 1, depth, key, kOff, ts, obj => do
    let ts2 := if (curT ts).1 = .colon then advT ts else ts
    let (v, ts3) ← parseValueP md fuel (depth + 1) ts2
    if key ∈ obj.map Prod.fst then .error ⟨.duplicateKey key, kOff⟩
    else
      let ts4 := if (curT ts3).1 = .comma then advT ts3 else ts3
      parseObjP md fuel depth ts4 (obj ++ [(key, v)])
termination_by structural fuel _ _ _ _ _ => fuel

/-- The element loop of Parser.parseArray, after the opening bracket. -/
def parseArrP (md : Nat) : Nat → Nat → List (Tok × Nat) → List TValue →
    Except TErr (TValue × List (Tok × Nat))
  | 0, _, ts, _ => .error ⟨.fuelExhausted, (curT ts).2⟩
  | fuel + 1, depth, ts, arr =>
    match (curT ts).1 with
    | .rbracket => .ok (.arr arr, advT ts)
    | _ => do
      let (v, ts2) ← parseValueP md fuel (depth + 1) ts
      let ts3 := if (curT ts2).1 = .comma then advT ts2 else ts2
      parseArrP md fuel depth ts3 (arr ++ [v])
termination_by structural fuel _ _ _ => fuel

end

/-- Parser.parseRootObject: the implicit root object, whose values are parsed
at depth 1.  No comma handling, exactly as in the source. -/
def parseRootP (md : Nat) : Nat → List (Tok × Nat) → List (List Nat × TValue) →
    Except TErr (TValue × List (Tok × Nat))
  | 0, ts, _ => .error ⟨.fuelExhausted, (curT ts).2⟩
  | fuel + 1, ts, obj =>
    match (curT ts).1 with
    | .ident key => do
      let kOff := (curT ts).2
      let ts1 := advT ts
      let ts2 := if (curT ts1).1 = .colon then advT ts1 else ts1
      let (v, ts3) ← parseValueP md fuel 1 ts2
      if key ∈ obj.map Prod.fst then .error ⟨.duplicateKey key, kOff⟩
      else parseRootP md fuel ts3 (obj ++ [(key, v)])
    | .str key => do
      let kOff := (curT ts).2
      let ts1 := advT ts
      let ts2 := if (curT ts1).1 = .colon then advT ts1 else ts1
      let (v, ts3) ← parseValueP md fuel 1 ts2
      if key ∈ obj.map Prod.fst then .error ⟨.duplicateKey key, kOff⟩
      else parseRootP md fuel ts3 (obj ++ [(key, v)])
    | _ => .ok (.obj obj, ts)

/-- Fuel that the parsing entry points hand to the token walkers; each
parseValue consumes a token before recursing, so this cannot run out. -/
def pfuel (ts : List (Tok × Nat)) : Nat := 2 * ts.length + 4

/-- Parser.parseDocument: an implicit root object when the input starts with a
possible key followed by more than Eof, otherwise a single value. -/
def parseDocumentP (md : Nat) (ts : List (Tok × Nat)) :
    Except TErr (TValue × List (Tok × Nat)) :=
  let canBeKey :=
    match (curT ts).1 with
    | .ident _ => true
    | .str _ => true
    | _ => false
  let hasMore :=
    match ts with
    | _ :: t1 :: _ => decide (t1.1 ≠ .eof)
    | _ => false
  if canBeKey && hasMore then parseRootP md (pfuel ts) ts []
  else parseValueP md (pfuel ts) 0 ts

/-- parse from src/parser.ts: tokenize, parse the document, expect Eof. -/
def parse (input : List Nat) (opts : ParseOptions := {}) : Except TErr TValue := do
  let toks ← tokenize input opts.maxInputLength
  let (v, ts) ← parseDocumentP opts.maxDepth toks
  match (curT ts).1 with
  | .eof => .ok v
  | t => .error ⟨.expectedEofTok t, (curT ts).2⟩

/-! ## Single-pass parser (parseFast and its Reader)

The Reader keeps the unread input, the source read position, and the current,
already-read token.  Its string, number and comment scanners differ from the
lexer in the ways visible in the source: readQuoted keeps unknown escapes as
the escaped character instead of failing, the multi-line comment loop also
stops early when fewer than two characters remain, readNumber has no separate
exponent or fraction checks but relies on parseFloat or parseInt of the
consumed slice being NaN, and the Invalid-u-escape message covers truncated
escapes too.  parseFloat of the consumed slice is NaN exactly when no digit
was consumed before the exponent part, and parseInt exactly when no digit was
consumed at all. -/

def skipBlockR : Nat → Nat → List Nat → Nat → Except TErr (List Nat × Nat)
  | 0, _, _, off => .error ⟨.fuelExhausted, off⟩
  | _ + 1, 0, input, off => .ok (input, off)
  | fuel + 1, d + 1, 42 :: 47 :: rest, off => skipBlockR fuel d rest (off + 2)
  | fuel + 1, d + 1, 47 :: 42 :: rest, off => skipBlockR fuel (d + 2) rest (off + 2)
  | fuel + 1, d + 1, x :: y :: rest, off => skipBlockR fuel (d + 1) (y :: rest) (off + 1)
  | _ + 1, _ + 1, input, off => .error ⟨.unclosedComment, off⟩

/-- Reader.skipWs. -/
def skipWsR : Nat → List Nat → Nat → Except TErr (List Nat × Nat)
  | 0, _, off => .error ⟨.fuelExhausted, off⟩
  | fuel + 1, input, off =>
    match input with
    | [] => .ok ([], off)
    | c :: rest =>
      if isWs c then skipWsR fuel rest (off + 1)
      else if c = 47 then
        match rest with
        | 47 :: rest2 => skipWsR fuel (dropLine rest2) (off + 2 + lineLen rest2)
        | 42 :: rest2 => do
          let (r, o) ← skipBlockR (rest2.length + 1) 1 rest2 (off + 2)
          skipWsR fuel r o
        | _ => .ok (c :: rest, off)
      else .ok (c :: rest, off)

/-- Reader.readQuoted, after the opening quote.  Unknown escapes are kept as
the escaped character (the source pushes String.fromCharCode(next)). -/
def lexStrR (q : Nat) : List Nat → Nat → List Nat →
    Except TErr (List Nat × List Nat × Nat)
  | [], off, _ => .error ⟨.unclosedString, off⟩
  | c :: rest, off, acc =>
    if c = q then .ok (acc, rest, off + 1)
    else if c = 92 then
      match rest with
      | [] => .error ⟨.unclosedString, off + 1⟩
      | next :: rest2 =>
        if next = q then lexStrR q rest2 (off + 2) (acc ++ [q])
        else if next = 92 then lexStrR q rest2 (off + 2) (acc ++ [92])
        else if next = 47 then lexStrR q rest2 (off + 2) (acc ++ [47])
        else if next = 98 then lexStrR q rest2 (off + 2) (acc ++ [8])
        else if next = 102 then lexStrR q rest2 (off + 2) (acc ++ [12])
        else if next = 110 then lexStrR q rest2 (off + 2) (acc ++ [10])
        else if next = 114 then lexStrR q rest2 (off + 2) (acc ++ [13])
        else if next = 116 then lexStrR q rest2 (off + 2) (acc ++ [9])
        else if next = 117 then
          match rest2 with
          | [] => .error ⟨.invalidUEscape, off + 2⟩
          | h1 :: r1 =>
            if ¬ isHex h1 then .error ⟨.invalidUEscape, off + 3⟩
            else match r1 with
            | [] => .error ⟨.invalidUEscape, off + 3⟩
            | h2 :: r2 =>
              if ¬ isHex h2 then .error ⟨.invalidUEscape, off + 4⟩
              else match r2 with
              | [] => .error ⟨.invalidUEscape, off + 4⟩
              | h3 :: r3 =>
                if ¬ isHex h3 then .error ⟨.invalidUEscape, off + 5⟩
                else match r3 with
                | [] => .error ⟨.invalidUEscape, off + 5⟩
                | h4 :: r4 =>
                  if ¬ isHex h4 then .error ⟨.invalidUEscape, off + 6⟩
                  else lexStrR q r4 (off + 6)
                    (acc ++ [hexVal h1 * 4096 + hexVal h2 * 256 +
                      hexVal h3 * 16 + hexVal h4])
        else lexStrR q rest2 (off + 2) (acc ++ [next])
    else if c ≤ 31 then .error ⟨.controlChar, off + 1⟩
    else lexStrR q rest (off + 1) (acc ++ [c])

/-- Reader.readNumber on input whose first character is a minus sign or a
digit. -/
def numTokR (input : List Nat) (off : Nat) : Except TErr (Tok × List Nat × Nat) :=
  let mp : Bool × List Nat × Nat :=
    match input with
    | 45 :: r => (true, r, off + 1)
    | _ => (false, input, off)
  match mp with
  | (neg, in1, off1) =>
    let ipp : List Nat × List Nat × Nat ⊕ TErr :=
      match in1 with
      | 48 :: r1 =>
        match r1 with
        | n :: _ =>
          if 49 ≤ n ∧ n ≤ 57 then .inr ⟨.leadingZero, off1 + 1⟩
          else .inl ([48], r1, off1 + 1)
        | [] => .inl ([48], [], off1 + 1)
      | _ => .inl (in1.takeWhile isDigit, in1.dropWhile isDigit,
          off1 + (in1.takeWhile isDigit).length)
    match ipp with
    | .inr e => .error e
    | .inl (ip, in2, off2) =>
      let frp : Bool × List Nat × List Nat × Nat :=
        match in2 with
        | 46 :: r =>
          (true, 46 :: r.takeWhile isDigit, r.dropWhile isDigit,
            off2 + 1 + (r.takeWhile isDigit).length)
        | _ => (false, [], in2, off2)
      match frp with
      | (isF1, fr, in3, off3) =>
        let exp : Bool × List Nat × List Nat × Nat :=
          match in3 with
          | e :: r3 =>
            if e = 101 ∨ e = 69 then
              match r3 with
              | 43 :: r4 =>
                (true, e :: 43 :: r4.takeWhile isDigit, r4.dropWhile isDigit,
                  off3 + 2 + (r4.takeWhile isDigit).length)
              | 45 :: r4 =>
                (true, e :: 45 :: r4.takeWhile isDigit, r4.dropWhile isDigit,
                  off3 + 2 + (r4.takeWhile isDigit).length)
              | _ =>
                (true, e :: r3.takeWhile isDigit, r3.dropWhile isDigit,
                  off3 + 1 + (r3.takeWhile isDigit).length)
            else (isF1, [], in3, off3)
          | [] => (isF1, [], in3, off3)
        match exp with
        | (isF, ex, in4, off4) =>
          let frDigits := match fr with
            | _ :: ds => ds
            | [] => []
          if isF then
            if ip = [] ∧ frDigits = [] then .error ⟨.invalidNumber, off4⟩
            else .ok (.float ((if neg then [45] else []) ++ ip ++ fr ++ ex), in4, off4)
          else
            if ip = [] then .error ⟨.invalidNumber, off4⟩
            else if 2 ^ 53 - 1 < natOfDigits ip then .error ⟨.intOutOfRange, off4⟩
            else .ok (.int (if neg then -(natOfDigits ip : Int) else (natOfDigits ip : Int)),
              in4, off4)

/-- Reader.readToken: skip whitespace and comments, then read one token. -/
def readTokenR (rem : List Nat) (pos : Nat) : Except TErr (Tok × List Nat × Nat) := do
  let (rem1, pos1) ← skipWsR (rem.length + 1) rem pos
  match rem1 with
  | [] => .ok (.eof, [], pos1)
  | c :: rest =>
    if c = 123 then .ok (.lbrace, rest, pos1 + 1)
    else if c = 125 then .ok (.rbrace, rest, pos1 + 1)
    else if c = 91 then .ok (.lbracket, rest, pos1 + 1)
    else if c = 93 then .ok (.rbracket, rest, pos1 + 1)
    else if c = 58 then .ok (.colon, rest, pos1 + 1)
    else if c = 44 then .ok (.comma, rest, pos1 + 1)
    else if c = 34 ∨ c = 39 then do
      let (s, rem2, pos2) ← lexStrR c rest (pos1 + 1) []
      .ok (.str s, rem2, pos2)
    else if c = 45 ∨ isDigit c then numTokR (c :: rest) pos1
    else if isAlphaU c then
      match identTok c rest pos1 with
      | (t, rem2, pos2) => .ok (t, rem2, pos2)
    else .error ⟨.unexpectedCharacterR, pos1⟩

mutual

/-- Reader.parseValue at depth. -/
def parseValueR (md : Nat) : Nat → Nat → Tok → List Nat → Nat →
    Except TErr (TValue × Tok × List Nat × Nat)
  | 0, _, _, _, pos => .error ⟨.fuelExhausted, pos⟩
  | fuel + 1, depth, cur, rem, pos =>
    if depth > md then .error ⟨.depthExceeded, pos⟩
    else
      match cur with
      | .lbrace => do
        let (t2, rem2, pos2) ← readTokenR rem pos
        parseObjR md fuel depth t2 rem2 pos2 []
      | .lbracket => do
        let (t2, rem2, pos2) ← readTokenR rem pos
        parseArrR md fuel depth t2 rem2 pos2 []
      | .str s => do
        let (t2, rem2, pos2) ← readTokenR rem pos
        .ok (.str s, t2, rem2, pos2)
      | .ident s => do
        let (t2, rem2, pos2) ← readTokenR rem pos
        .ok (.str s, t2, rem2, pos2)
      | .int n => do
        let (t2, rem2, pos2) ← readTokenR rem pos
        .ok (.int n, t2, rem2, pos2)
      | .float raw => do
        let (t2, rem2, pos2) ← readTokenR rem pos
        .ok (.float raw, t2, rem2, pos2)
      | .tTrue => do
        let (t2, rem2, pos2) ← readTokenR rem pos
        .ok (.bool true, t2, rem2, pos2)
      | .tFalse => do
        let (t2, rem2, pos2) ← readTokenR rem pos
        .ok (.bool false, t2, rem2, pos2)
      | .tNull => do
        let (t2, rem2, pos2) ← readTokenR rem pos
        .ok (.null, t2, rem2, pos2)
      | _ => .error ⟨.unexpectedTokenR, pos⟩
termination_by structural fuel _ _ _ _ => fuel

/-- The entry loop of Reader.parseObject, after the opening brace. -/
def parseObjR (md : Nat) : Nat → Nat → Tok → List Nat → Nat →
    List (List Nat × TValue) → Except TErr (TValue × Tok × List Nat × Nat)
  | 0, _, _, _, pos, _ => .error ⟨.fuelExhausted, pos⟩
  | fuel + 1, depth, cur, rem, pos, obj =>
    match cur with
    | .rbrace => do
      let (t2, rem2, pos2) ← readTokenR rem pos
      .ok (.obj obj, t2, rem2, pos2)
    | .ident key => parseObjEntryR md fuel depth key rem pos obj
    | .str key => parseObjEntryR md fuel depth key rem pos obj
    | _ => .error ⟨.expectedKeyR, pos⟩
termination_by structural fuel _ _ _ _ _ => fuel

/-- One key-value entry of Reader.parseObject, from the key token. -/
def parseObjEntryR (md : Nat) : Nat → Nat → List Nat → List Nat → Nat →
    List (List Nat × TValue) → Except TErr (TValue × Tok × List Nat × Nat)
  | 0, _, _, _, pos, _ => .error ⟨.fuelExhausted, pos⟩
  | fuel + 1, depth, key, rem, pos, obj => do
    let (t2, rem2, pos2) ← readTokenR rem pos
    let (t3, rem3, pos3) ←
      if t2 = .colon then readTokenR rem2 pos2 else pure (t2, rem2, pos2)
    let (v, t4, rem4, pos4) ← parseValueR md fuel (depth + 1) t3 rem3 pos3
    if key ∈ obj.map Prod.fst then .error ⟨.duplicateKey key, pos4⟩
    else do
      let (t5, rem5, pos5) ←
        if t4 = .comma then readTokenR rem4 pos4 else pure (t4, rem4, pos4)
      parseObjR md fuel depth t5 rem5 pos5 (obj ++ [(key, v)])
termination_by structural fuel _ _ _ _ _ => fuel

/-- The element loop of Reader.parseArray, after the opening bracket. -/
def parseArrR (md : Nat) : Nat → Nat → Tok → List Nat → Nat → List TValue →
    Except TErr (TValue × Tok × List Nat × Nat)
  | 0, _, _, _, pos, _ => .error ⟨.fuelExhausted, pos⟩
  | fuel + 1, depth, cur, rem, pos, arr =>
    match cur with
    | .rbracket => do
      let (t2, rem2, pos2) ← readTokenR rem pos
      .ok (.arr arr, t2, rem2, pos2)
    | _ => do
      let (v, t2, rem2, pos2) ← parseValueR md fuel (depth + 1) cur rem pos
      let (t3, rem3, pos3) ←
        if t2 = .comma then readTokenR rem2 pos2 else pure (t2, rem2, pos2)
      parseArrR md fuel depth t3 rem3 pos3 (arr ++ [v])
termination_by structural fuel _ _ _ _ _ => fuel

end

/-- Reader.parseRootObject, values parsed at depth 1; no comma handling. -/
def parseRootR (md : Nat) : Nat → Tok → List Nat → Nat →
    List (List Nat × TValue) → Except TErr (TValue × Tok × List Nat × Nat)
  | 0, _, _, pos, _ => .error ⟨.fuelExhausted, pos⟩
  | fuel + 1, cur, rem, pos, obj =>
    match cur with
    | .ident key => do
      let (t2, rem2, pos2) ← readTokenR rem pos
      let (t3, rem3, pos3) ←
        if t2 = .colon then readTokenR rem2 pos2 else pure (t2, rem2, pos2)
      let (v, t4, rem4, pos4) ← parseValueR md fuel 1 t3 rem3 pos3
      if key ∈ obj.map Prod.fst then .error ⟨.duplicateKey key, pos4⟩
      else parseRootR md fuel t4 rem4 pos4 (obj ++ [(key, v)])
    | .str key => do
      let (t2, rem2, pos2) ← readTokenR rem pos
      let (t3, rem3, pos3) ←
        if t2 = .colon then readTokenR rem2 pos2 else pure (t2, rem2, pos2)
      let (v, t4, rem4, pos4) ← parseValueR md fuel 1 t3 rem3 pos3
      if key ∈ obj.map Prod.fst then .error ⟨.duplicateKey key, pos4⟩
      else parseRootR md fuel t4 rem4 pos4 (obj ++ [(key, v)])
    | _ => .ok (.obj obj, cur, rem, pos)

/-- Fuel passed by parseFast; like pfuel, it cannot run out. -/
def rfuel (input : List Nat) : Nat := 2 * input.length + 8

/-- Reader.parseDocument: look one token ahead (with full state restore, as in
the source) to decide between the implicit root object and a single value. -/
def parseDocumentR (md : Nat) (input : List Nat) :
    Except TErr (TValue × Tok × List Nat × Nat) := do
  let (t0, rem0, pos0) ← readTokenR input 0
  let canBeKey :=
    match t0 with
    | .ident _ => true
    | .str _ => true
    | _ => false
  if canBeKey then do
    let (t1, _, _) ← readTokenR rem0 pos0
    if t1 ≠ .eof then parseRootR md (rfuel input) t0 rem0 pos0 []
    else parseValueR md (rfuel input) 0 t0 rem0 pos0
  else parseValueR md (rfuel input) 0 t0 rem0 pos0

/-- parseFast from src/parser.ts (the Reader-based single-pass parser). -/
def parseFast (input : List Nat) (opts : ParseOptions := {}) : Except TErr TValue :=
  if input.length > opts.maxInputLength then .error ⟨.inputTooLong, 0⟩
  else do
    let (v, tEnd, _, posEnd) ← parseDocumentR opts.maxDepth input
    if tEnd = .eof then .ok v
    else .error ⟨.expectedEndOfInput, posEnd⟩

/-! ## Stringifier (the koda text writer)

Only the default options (no indent) are modeled: the separator is a single
space and the final trim is the identity because such output never starts or
ends with whitespace.  Floats are not stringified (the double formatting of
JSON.stringify is outside the model), so the stringifier is Option-valued and
returns none on values containing a non-integer number.  The lower-casing in
needsQuote only matters for strings whose characters already passed the ASCII
identifier checks, so ASCII lower-casing is exact. -/

def toLowerCh (c : Nat) : Nat := if 65 ≤ c ∧ c ≤ 90 then c + 32 else c

/-- needsQuote from the stringifier. -/
def needsQuote (s : List Nat) : Bool :=
  match s with
  | [] => true
  | first :: rest =>
    if ¬ (isWordChar first ∨ first = 95) then true
    else if rest.any (fun c => ¬ isIdentChar c) then true
    else
      let lower := s.map toLowerCh
      lower = [116, 114, 117, 101] ∨ lower = [102, 97, 108, 115, 101] ∨
        lower = [110, 117, 108, 108]

/-- escapeDouble: escape backslash, double quote and the five control
characters. -/
def escapeDouble (s : List Nat) : List Nat :=
  (s.map (fun c =>
    if c = 92 then [92, 92]
    else if c = 34 then [92, 34]
    else if c = 8 then [92, 98]
    else if c = 12 then [92, 102]
    else if c = 10 then [92, 110]
    else if c = 13 then [92, 114]
    else if c = 9 then [92, 116]
    else [c])).flatten

def quoteKey (k : List Nat) : List Nat :=
  if needsQuote k then [34] ++ escapeDouble k ++ [34] else k

def quoteValueString (s : List Nat) : List Nat :=
  if needsQuote s then [34] ++ escapeDouble s ++ [34] else s

/-- String(n) for a safe integer. -/
def intChars (i : Int) : List Nat :=
  (if i < 0 then [45] else []) ++ (Nat.toDigits 10 i.natAbs).map (fun ch => ch.toNat)

mutual

/-- stringifyValue with the default options (single-line output). -/
def stringifyValue : TValue → Option (List Nat)
  | .null => some [110, 117, 108, 108]
  | .bool true => some [116, 114, 117, 101]
  | .bool false => some [102, 97, 108, 115, 101]
  | .int i => some (intChars i)
  | .float _ => none
  | .str s => some (quoteValueString s)
  | .arr [] => some [91, 93]
  | .arr (v :: r) => do
    let parts ← stringifyList (v :: r)
    some ([91, 32] ++ (parts.intersperse [32]).flatten ++ [32, 93])
  | .obj [] => some [123, 125]
  | .obj (kv :: r) => do
    let parts ← stringifyEnts (kv :: r)
    some ([123, 32] ++ (parts.intersperse [32]).flatten ++ [32, 125])

def stringifyList : List TValue → Option (List (List Nat))
  | [] => some []
  | v :: r => do
    let b ← stringifyValue v
    let rest ← stringifyList r
    some (b :: rest)

def stringifyEnts : List (List Nat × TValue) → Option (List (List Nat))
  | [] => some []
  | (k, v) :: r => do
    let b ← stringifyValue v
    let rest ← stringifyEnts r
    some ((quoteKey k ++ [58, 32] ++ b) :: rest)

end

/-- stringify with default options. -/
def stringify (v : TValue) : Option (List Nat) := stringifyValue v

/-! ## Text-side measures and predicates -/

mutual

/-- Nesting depth of a text value: scalars are 0, each array or object level
around a member adds one. -/
def tdepthT : TValue → Nat
  | .null | .bool _ | .int _ | .float _ | .str _ => 0
  | .arr l => tdepthTList l
  | .obj l => tdepthTEnts l

def tdepthTList : List TValue → Nat
  | [] => 0
  | v :: r => max (1 + tdepthT v) (tdepthTList r)

def tdepthTEnts : List (List Nat × TValue) → Nat
  | [] => 0
  | (_, v) :: r => max (1 + tdepthT v) (tdepthTEnts r)

end

mutual

/-- Every object in the tree, root or nested, has pairwise distinct keys. -/
def nodupKeysT : TValue → Bool
  | .null | .bool _ | .int _ | .float _ | .str _ => true
  | .arr l => nodupKeysTList l
  | .obj l => decide ((l.map Prod.fst).Nodup) && nodupKeysTEnts l

def nodupKeysTList : List TValue → Bool
  | [] => true
  | v :: r => nodupKeysT v && nodupKeysTList r

def nodupKeysTEnts : List (List Nat × TValue) → Bool
  | [] => true
  | (_, v) :: r => nodupKeysT v && nodupKeysTEnts r

end

/-- A character inside a quoted string that the string scanner passes through:
not the active quote, not a backslash, not a control character. -/
def strCharOk (q c : Nat) : Bool := ¬ (c = q ∨ c = 92 ∨ c ≤ 31)

/-- The input after a backslash-u does not start with four hex digits. -/
def noHex4 : List Nat → Bool
  | h1 :: h2 :: h3 :: h4 :: _ => ¬ (isHex h1 && isHex h2 && isHex h3 && isHex h4)
  | _ => true

/-! ## Keys of a value -/

mutual

/-- Every object key occurring anywhere in the tree, in traversal order,
duplicates included. -/
def keysOfK : KValue → List (List Nat)
  | .null | .bool _ | .int _ | .float _ | .str _ => []
  | .arr l => keysOfKList l
  | .obj l => keysOfKEnts l

def keysOfKList : List KValue → List (List Nat)
  | [] => []
  | v :: r => keysOfK v ++ keysOfKList r

def keysOfKEnts : List (List Nat × KValue) → List (List Nat)
  | [] => []
  | (k, v) :: r => k :: (keysOfK v ++ keysOfKEnts r)

end

/-! ## Induction principle for values -/

/-- Structural induction over values, giving the hypothesis for every member of
an array or object. -/
theorem kvalueInd {motive : KValue → Prop}
    (hnull : motive .null)
    (hbool : ∀ b, motive (.bool b))
    (hint : ∀ i, motive (.int i))
    (hfloat : ∀ b, motive (.float b))
    (hstr : ∀ s, motive (.str s))
    (harr : ∀ l, (∀ v ∈ l, motive v) → motive (.arr l))
    (hobj : ∀ l, (∀ kv ∈ l, motive kv.2) → motive (.obj l)) :
    ∀ v, motive v
  | .null => hnull
  | .bool b => hbool b
  | .int i => hint i
  | .float b => hfloat b
  | .str s => hstr s
  | .arr l => harr l (fun v hv =>
      have : sizeOf v < sizeOf (KValue.arr l) := by
        have := List.sizeOf_lt_of_mem hv
        simp only [KValue.arr.sizeOf_spec]
        omega
      kvalueInd hnull hbool hint hfloat hstr harr hobj v)
  | .obj l => hobj l (fun kv hkv =>
      have h1 : sizeOf kv.2 < 1 + sizeOf l := by
        have h2 := List.sizeOf_lt_of_mem hkv
        have h3 : sizeOf kv.2 < sizeOf kv := by
          obtain ⟨a, b⟩ := kv
          simp only [Prod.mk.sizeOf_spec]
          omega
        omega
      kvalueInd hnull hbool hint hfloat hstr harr hobj kv.2)
termination_by v => sizeOf v

/-! ## Ordering lemmas -/

theorem bytesCmp_eq_iff : ∀ a b : List Nat, bytesCmp a b = .eq ↔ a = b := by
  intro a
  induction a with
  | nil => intro b; cases b <;> simp [bytesCmp]
  | cons x xs ih =>
    intro b
    cases b with
    | nil => simp [bytesCmp]
    | cons y ys =>
      simp only [bytesCmp]
      split_ifs with h1 h2
      · simp; omega
      · simp; omega
      · have hxy : x = y := by omega
        simp [hxy, ih ys]

theorem bytesCmp_swap : ∀ a b : List Nat, bytesCmp b a = (bytesCmp a b).swap := by
  intro a
  induction a with
  | nil => intro b; cases b <;> simp [bytesCmp, Ordering.swap]
  | cons x xs ih =>
    intro b
    cases b with
    | nil => simp [bytesCmp, Ordering.swap]
    | cons y ys =>
      simp only [bytesCmp]
      split_ifs with h1 h2 h3 <;> simp [Ordering.swap] <;> try omega
      exact ih ys

theorem bytesLe_trans : ∀ a b c : List Nat,
    bytesCmp a b ≠ .gt → bytesCmp b c ≠ .gt → bytesCmp a c ≠ .gt := by
  intro a
  induction a with
  | nil =>
    intro b c _ _
    cases c <;> simp [bytesCmp]
  | cons x xs ih =>
    intro b c h1 h2
    cases b with
    | nil => simp [bytesCmp] at h1
    | cons y ys =>
      cases c with
      | nil => simp [bytesCmp] at h2
      | cons z zs =>
        have hc1 : bytesCmp (x :: xs) (y :: ys) =
            if x < y then .lt else if y < x then .gt else bytesCmp xs ys := rfl
        have hc2 : bytesCmp (y :: ys) (z :: zs) =
            if y < z then .lt else if z < y then .gt else bytesCmp ys zs := rfl
        have hc3 : bytesCmp (x :: xs) (z :: zs) =
            if x < z then .lt else if z < x then .gt else bytesCmp xs zs := rfl
        rw [hc1] at h1
        rw [hc2] at h2
        rw [hc3]
        rcases Nat.lt_trichotomy x y with hxy | hxy | hxy <;>
          rcases Nat.lt_trichotomy y z with hyz | hyz | hyz <;>
          first
          | (rw [if_pos (show x < z by omega)]; simp)
          | (rw [if_neg (show ¬y < z by omega), if_pos (show z < y by omega)] at h2
             simp at h2)
          | (rw [if_neg (show ¬x < y by omega), if_pos (show y < x by omega)] at h1
             simp at h1)
          | (rw [if_neg (show ¬x < y by omega), if_neg (show ¬y < x by omega)] at h1
             rw [if_neg (show ¬y < z by omega), if_neg (show ¬z < y by omega)] at h2
             rw [if_neg (show ¬x < z by omega), if_neg (show ¬z < x by omega)]
             exact ih ys zs h1 h2)

theorem keyLeB_total (a b : List Nat) : keyLeB a b = true ∨ keyLeB b a = true := by
  simp only [keyLeB, ne_eq, decide_eq_true_eq]
  by_cases h : bytesCmp (utf8Encode a) (utf8Encode b) = .gt
  · right
    rw [bytesCmp_swap, h]
    simp [Ordering.swap]
  · left
    exact h

theorem keyLeB_trans (a b c : List Nat) :
    keyLeB a b = true → keyLeB b c = true → keyLeB a c = true := by
  simp only [keyLeB, decide_eq_true_eq]
  exact bytesLe_trans _ _ _

theorem keyLeB_antisymm_bytes (a b : List Nat) :
    keyLeB a b = true → keyLeB b a = true → utf8Encode a = utf8Encode b := by
  simp only [keyLeB, decide_eq_true_eq]
  intro h1 h2
  rw [bytesCmp_swap] at h2
  rw [← bytesCmp_eq_iff]
  cases h : bytesCmp (utf8Encode a) (utf8Encode b) <;> simp [h, Ordering.swap] at h1 h2 ⊢

theorem entLeB_total (a b : List Nat × α) : entLeB a b = true ∨ entLeB b a = true :=
  keyLeB_total a.1 b.1

theorem entLeB_trans (a b c : List Nat × α) :
    entLeB a b = true → entLeB b c = true → entLeB a c = true :=
  keyLeB_trans a.1 b.1 c.1

/-! ## Insertion sort lemmas -/

section SortLemmas

variable {α : Type _} (le : α → α → Bool)

theorem insertLe_perm (x : α) : ∀ l, List.Perm (insertLe le x l) (x :: l) := by
  intro l
  induction l with
  | nil => simp [insertLe]
  | cons y ys ih =>
    simp only [insertLe]
    split_ifs with h
    · exact List.Perm.refl _
    · exact ((ih.cons y).trans (List.Perm.swap x y ys))

theorem sortLe_perm : ∀ l, List.Perm (sortLe le l) l := by
  intro l
  induction l with
  | nil => simp [sortLe]
  | cons x xs ih => exact (insertLe_perm le x (sortLe le xs)).trans (ih.cons x)

theorem mem_insertLe (x : α) (l : List α) (a : α) :
    a ∈ insertLe le x l ↔ a = x ∨ a ∈ l := by
  rw [(insertLe_perm le x l).mem_iff]
  simp

theorem mem_sortLe (l : List α) (a : α) : a ∈ sortLe le l ↔ a ∈ l :=
  (sortLe_perm le l).mem_iff

theorem pairwise_insertLe
    (htot : ∀ a b : α, le a b = true ∨ le b a = true)
    (htrans : ∀ a b c : α, le a b = true → le b c = true → le a c = true)
    (x : α) :
    ∀ l, List.Pairwise (fun a b => le a b = true) l →
      List.Pairwise (fun a b => le a b = true) (insertLe le x l) := by
  intro l
  induction l with
  | nil => simp [insertLe]
  | cons y ys ih =>
    intro hp
    rw [List.pairwise_cons] at hp
    obtain ⟨hy, hys⟩ := hp
    simp only [insertLe]
    split_ifs with h
    · rw [List.pairwise_cons]
      refine ⟨?_, List.pairwise_cons.mpr ⟨hy, hys⟩⟩
      intro a ha
      simp only [List.mem_cons] at ha
      rcases ha with rfl | ha
      · exact h
      · exact htrans x y a h (hy a ha)
    · have hyx : le y x = true := by
        rcases htot x y with h1 | h1
        · exact absurd h1 h
        · exact h1
      rw [List.pairwise_cons]
      refine ⟨?_, ih hys⟩
      intro a ha
      rw [mem_insertLe] at ha
      rcases ha with rfl | ha
      · exact hyx
      · exact hy a ha

theorem pairwise_sortLe
    (htot : ∀ a b : α, le a b = true ∨ le b a = true)
    (htrans : ∀ a b c : α, le a b = true → le b c = true → le a c = true) :
    ∀ l, List.Pairwise (fun a b => le a b = true) (sortLe le l) := by
  intro l
  induction l with
  | nil => simp [sortLe]
  | cons x xs ih => exact pairwise_insertLe le htot htrans x _ ih

theorem sortLe_of_pairwise :
    ∀ l, List.Pairwise (fun a b => le a b = true) l → sortLe le l = l := by
  intro l
  induction l with
  | nil => simp [sortLe]
  | cons x xs ih =>
    intro hp
    rw [List.pairwise_cons] at hp
    obtain ⟨hx, hxs⟩ := hp
    simp only [sortLe, ih hxs]
    cases xs with
    | nil => simp [insertLe]
    | cons y ys =>
      simp only [insertLe]
      rw [if_pos (hx y (by simp))]

theorem sortLe_idem
    (htot : ∀ a b : α, le a b = true ∨ le b a = true)
    (htrans : ∀ a b c : α, le a b = true → le b c = true → le a c = true)
    (l : List α) : sortLe le (sortLe le l) = sortLe le l :=
  sortLe_of_pairwise le (sortLe le l) (pairwise_sortLe le htot htrans l)

/-- Two sorted lists that are permutations of each other and whose elements the
order separates are equal. -/
theorem sorted_perm_unique :
    ∀ l1 l2 : List α, List.Perm l1 l2 →
      List.Pairwise (fun a b => le a b = true) l1 →
      List.Pairwise (fun a b => le a b = true) l2 →
      (∀ a ∈ l1, ∀ b ∈ l1, le a b = true → le b a = true → a = b) →
      l1 = l2 := by
  intro l1
  induction l1 with
  | nil => intro l2 hp _ _ _; simpa using hp.symm.eq_nil
  | cons x xs ih =>
    intro l2 hp hp1 hp2 hsep
    cases l2 with
    | nil => simpa using hp.eq_nil
    | cons y ys =>
      have hxy : x = y := by
        have hx2 : x ∈ y :: ys := hp.mem_iff.mp (by simp)
        have hy1 : y ∈ x :: xs := hp.symm.mem_iff.mp (by simp)
        simp only [List.mem_cons] at hx2 hy1
        rcases hx2 with rfl | hx2
        · rfl
        rcases hy1 with rfl | hy1
        · rfl
        have h1 : le x y = true := (List.pairwise_cons.mp hp1).1 y hy1
        have h2 : le y x = true := (List.pairwise_cons.mp hp2).1 x hx2
        exact hsep x (by simp) y (by simp [hy1]) h1 h2
      subst hxy
      have htail : List.Perm xs ys := hp.cons_inv
      have := ih ys htail (List.pairwise_cons.mp hp1).2 (List.pairwise_cons.mp hp2).2
        (fun a ha b hb => hsep a (by simp [ha]) b (by simp [hb]))
      rw [this]

end SortLemmas

/-! ## UTF-8 round trip -/

theorem utf8DecodeF_char (c : Nat) (hc : ValidScalar c) (l : List Nat) (fuel : Nat) :
    utf8DecodeF (fuel + 1) (utf8Char c ++ l) = (utf8DecodeF fuel l).map (c :: ·) := by
  obtain ⟨hlt, hsur⟩ := hc
  by_cases h1 : c < 0x80
  · simp only [utf8Char, if_pos h1, List.cons_append, List.nil_append]
    rw [utf8DecodeF, if_pos h1]
  · by_cases h2 : c < 0x800
    · simp only [utf8Char, if_neg h1, if_pos h2, List.cons_append, List.nil_append]
      rw [utf8DecodeF, if_neg (by omega), if_neg (by omega), if_pos (by omega)]
      rw [utf8Cont1, if_pos (by constructor <;> omega)]
      have he : (0xC0 + c / 64 - 0xC0) * 64 + (0x80 + c % 64 - 0x80) = c := by omega
      have he2 : c / 64 * 64 + c % 64 = c := by omega
      simp only [he, he2]
      simp
    · by_cases h3 : c < 0x10000
      · simp only [utf8Char, if_neg h1, if_neg h2, if_pos h3, List.cons_append,
          List.nil_append]
        rw [utf8DecodeF, if_neg (by omega), if_neg (by omega), if_neg (by omega),
          if_pos (by omega)]
        rw [utf8Cont2, if_pos (by refine ⟨by omega, by omega, by omega, by omega⟩)]
        have he : (0xE0 + c / 4096 - 0xE0) * 4096 + (0x80 + c / 64 % 64 - 0x80) * 64 +
            (0x80 + c % 64 - 0x80) = c := by omega
        simp only [he]
        rw [if_pos (by exact ⟨by omega, by omega⟩)]
        simp
      · simp only [utf8Char, if_neg h1, if_neg h2, if_neg h3, List.cons_append,
          List.nil_append]
        rw [utf8DecodeF, if_neg (by omega), if_neg (by omega), if_neg (by omega),
          if_neg (by omega), if_pos (by omega)]
        rw [utf8Cont3,
          if_pos (by refine ⟨by omega, by omega, by omega, by omega, by omega, by omega⟩)]
        have he : (0xF0 + c / 262144 - 0xF0) * 262144 + (0x80 + c / 4096 % 64 - 0x80) * 4096 +
            (0x80 + c / 64 % 64 - 0x80) * 64 + (0x80 + c % 64 - 0x80) = c := by omega
        simp only [he]
        rw [if_pos (by exact ⟨by omega, by omega⟩)]
        simp

theorem utf8DecodeF_nil (fuel : Nat) : utf8DecodeF fuel [] = some [] := by
  cases fuel <;> rfl

theorem utf8DecodeF_append (s : List Nat) (hs : ValidStr s) :
    ∀ (l : List Nat) (fuel : Nat),
      utf8DecodeF (s.length + fuel) (utf8Encode s ++ l) =
        (utf8DecodeF fuel l).map (s ++ ·) := by
  induction s with
  | nil =>
    intro l fuel
    simp only [utf8Encode, List.map_nil, List.flatten_nil, List.nil_append,
      List.length_nil, Nat.zero_add]
    cases utf8DecodeF fuel l <;> simp
  | cons c s ih =>
    intro l fuel
    have hc : ValidScalar c := hs c (by simp)
    have hs2 : ValidStr s := fun x hx => hs x (by simp [hx])
    have hlen : (c :: s).length + fuel = (s.length + fuel) + 1 := by
      simp [List.length_cons]; omega
    have henc : utf8Encode (c :: s) ++ l = utf8Char c ++ (utf8Encode s ++ l) := by
      simp [utf8Encode, List.append_assoc]
    rw [hlen, henc, utf8DecodeF_char c hc _ (s.length + fuel), ih hs2 l fuel]
    cases utf8DecodeF fuel l <;> simp

theorem utf8Encode_length_ge (s : List Nat) : s.length ≤ (utf8Encode s).length := by
  induction s with
  | nil => simp [utf8Encode]
  | cons c s ih =>
    have h1 : (utf8Char c).length ≥ 1 := by
      simp only [utf8Char]
      split_ifs <;> simp
    have h2 : utf8Encode (c :: s) = utf8Char c ++ utf8Encode s := by
      simp [utf8Encode]
    rw [h2, List.length_append, List.length_cons]
    omega

theorem utf8Decode_encode (s : List Nat) (hs : ValidStr s) :
    utf8Decode (utf8Encode s) = some s := by
  have hge := utf8Encode_length_ge s
  obtain ⟨d, hd⟩ : ∃ d, (utf8Encode s).length = s.length + d := ⟨_, (Nat.add_sub_cancel' hge).symm⟩
  rw [utf8Decode, hd]
  have := utf8DecodeF_append s hs [] d
  rw [List.append_nil] at this
  rw [this, utf8DecodeF_nil]
  simp

theorem utf8Encode_inj {a b : List Nat} (ha : ValidStr a) (hb : ValidStr b)
    (h : utf8Encode a = utf8Encode b) : a = b := by
  have h1 := utf8Decode_encode a ha
  have h2 := utf8Decode_encode b hb
  rw [h] at h1
  rw [h1] at h2
  exact Option.some_inj.mp h2

theorem mem_setAdd (s : List (List Nat)) (k x : List Nat) :
    x ∈ setAdd s k ↔ x ∈ s ∨ x = k := by
  simp only [setAdd]
  split_ifs with h
  · constructor
    · exact fun hx => Or.inl hx
    · rintro (hx | rfl)
      · exact hx
      · exact h
  · simp

theorem nodup_setAdd (s : List (List Nat)) (k : List Nat) (h : s.Nodup) :
    (setAdd s k).Nodup := by
  simp only [setAdd]
  split_ifs with hk
  · exact h
  · simp [List.nodup_append, h, hk]

theorem mem_collectKeys (v : KValue) :
    ∀ s x, x ∈ collectKeys v s ↔ x ∈ s ∨ x ∈ keysOfK v := by
  induction v using kvalueInd with
  | hnull => intro s x; simp [collectKeys, keysOfK]
  | hbool b => intro s x; simp [collectKeys, keysOfK]
  | hint i => intro s x; simp [collectKeys, keysOfK]
  | hfloat b => intro s x; simp [collectKeys, keysOfK]
  | hstr s0 => intro s x; simp [collectKeys, keysOfK]
  | harr l hl =>
    intro s x
    rw [show collectKeys (.arr l) s = collectKeysList l s from rfl,
      show keysOfK (.arr l) = keysOfKList l from rfl]
    induction l generalizing s with
    | nil => simp [collectKeysList, keysOfKList]
    | cons v r ihr =>
      rw [show collectKeysList (v :: r) s = collectKeysList r (collectKeys v s) from rfl,
        show keysOfKList (v :: r) = keysOfK v ++ keysOfKList r from rfl]
      rw [ihr (fun u hu => hl u (by simp [hu])) (collectKeys v s)]
      rw [hl v (by simp) s x]
      simp only [List.mem_append]
      tauto
  | hobj l hl =>
    intro s x
    rw [show collectKeys (.obj l) s = collectKeysEnts l s from rfl,
      show keysOfK (.obj l) = keysOfKEnts l from rfl]
    induction l generalizing s with
    | nil => simp [collectKeysEnts, keysOfKEnts]
    | cons kv r ihr =>
      obtain ⟨k, v⟩ := kv
      rw [show collectKeysEnts ((k, v) :: r) s =
        collectKeysEnts r (collectKeys v (setAdd s k)) from rfl,
        show keysOfKEnts ((k, v) :: r) = k :: (keysOfK v ++ keysOfKEnts r) from rfl]
      rw [ihr (fun u hu => hl u (by simp [hu])) (collectKeys v (setAdd s k))]
      rw [hl (k, v) (by simp) (setAdd s k) x]
      rw [mem_setAdd]
      simp only [List.mem_cons, List.mem_append]
      tauto

theorem nodup_collectKeys (v : KValue) :
    ∀ s, s.Nodup → (collectKeys v s).Nodup := by
  induction v using kvalueInd with
  | hnull => intro s h; simpa [collectKeys] using h
  | hbool b => intro s h; simpa [collectKeys] using h
  | hint i => intro s h; simpa [collectKeys] using h
  | hfloat b => intro s h; simpa [collectKeys] using h
  | hstr s0 => intro s h; simpa [collectKeys] using h
  | harr l hl =>
    intro s h
    rw [show collectKeys (.arr l) s = collectKeysList l s from rfl]
    induction l generalizing s with
    | nil => simpa [collectKeysList] using h
    | cons v r ihr =>
      rw [show collectKeysList (v :: r) s = collectKeysList r (collectKeys v s) from rfl]
      exact ihr (fun u hu => hl u (by simp [hu])) _ (hl v (by simp) s h)
  | hobj l hl =>
    intro s h
    rw [show collectKeys (.obj l) s = collectKeysEnts l s from rfl]
    induction l generalizing s with
    | nil => simpa [collectKeysEnts] using h
    | cons kv r ihr =>
      obtain ⟨k, v⟩ := kv
      rw [show collectKeysEnts ((k, v) :: r) s =
        collectKeysEnts r (collectKeys v (setAdd s k)) from rfl]
      exact ihr (fun u hu => hl u (by simp [hu])) _
        (hl (k, v) (by simp) _ (nodup_setAdd s k h))

theorem keysOfKEnts_mem_char (l : List (List Nat × KValue)) (x : List Nat) :
    x ∈ keysOfKEnts l ↔ ∃ kv ∈ l, x = kv.1 ∨ x ∈ keysOfK kv.2 := by
  induction l with
  | nil => simp [keysOfKEnts]
  | cons kv r ih =>
    obtain ⟨k, v⟩ := kv
    rw [show keysOfKEnts ((k, v) :: r) = k :: (keysOfK v ++ keysOfKEnts r) from rfl]
    simp only [List.mem_cons, List.mem_append, ih]
    constructor
    · rintro (h | hv | ⟨kv, hkv, hx⟩)
      · exact ⟨(k, v), by simp, Or.inl h⟩
      · exact ⟨(k, v), by simp, Or.inr hv⟩
      · exact ⟨kv, by simp [hkv], hx⟩
    · rintro ⟨kv, hkv, hx⟩
      rcases hkv with rfl | hkv
      · rcases hx with h | hx
        · exact Or.inl h
        · exact Or.inr (Or.inl hx)
      · exact Or.inr (Or.inr ⟨kv, hkv, hx⟩)

theorem keysOfKList_forall (P : List Nat → Prop) (l : List KValue)
    (h : ∀ v ∈ l, ∀ k ∈ keysOfK v, P k) : ∀ k ∈ keysOfKList l, P k := by
  induction l with
  | nil => simp [keysOfKList]
  | cons v r ih =>
    rw [show keysOfKList (v :: r) = keysOfK v ++ keysOfKList r from rfl]
    intro k hk
    rw [List.mem_append] at hk
    rcases hk with hk | hk
    · exact h v (by simp) k hk
    · exact ih (fun u hu => h u (by simp [hu])) k hk

theorem keysOfKEnts_forall (P : List Nat → Prop) (l : List (List Nat × KValue))
    (hkeys : ∀ kv ∈ l, P kv.1)
    (h : ∀ kv ∈ l, ∀ k ∈ keysOfK kv.2, P k) : ∀ k ∈ keysOfKEnts l, P k := by
  intro k hk
  rw [keysOfKEnts_mem_char] at hk
  obtain ⟨kv, hkv, hx⟩ := hk
  rcases hx with rfl | hx
  · exact hkeys kv hkv
  · exact h kv hkv k hx

theorem keysOfK_valid (v : KValue) (hw : WfK v) : ∀ k ∈ keysOfK v, ValidStr k := by
  induction v using kvalueInd with
  | hnull => simp [keysOfK]
  | hbool b => simp [keysOfK]
  | hint i => simp [keysOfK]
  | hfloat b => simp [keysOfK]
  | hstr s => simp [keysOfK]
  | harr l hl =>
    cases hw with
    | arr _ hwl =>
      rw [show keysOfK (.arr l) = keysOfKList l from rfl]
      exact keysOfKList_forall _ l (fun u hu => hl u hu (hwl u hu))
  | hobj l hl =>
    cases hw with
    | obj _ hwl hkeys _ =>
      rw [show keysOfK (.obj l) = keysOfKEnts l from rfl]
      exact keysOfKEnts_forall _ l hkeys (fun kv hkv => hl kv hkv (hwl kv hkv))

theorem keysOfK_fits (maxStr : Nat) (v : KValue) (hf : FitsK maxStr v) :
    ∀ k ∈ keysOfK v, (utf8Encode k).length ≤ maxStr := by
  induction v using kvalueInd with
  | hnull => simp [keysOfK]
  | hbool b => simp [keysOfK]
  | hint i => simp [keysOfK]
  | hfloat b => simp [keysOfK]
  | hstr s => simp [keysOfK]
  | harr l hl =>
    cases hf with
    | arr _ _ hfl =>
      rw [show keysOfK (.arr l) = keysOfKList l from rfl]
      exact keysOfKList_forall _ l (fun u hu => hl u hu (hfl u hu))
  | hobj l hl =>
    cases hf with
    | obj _ _ hkeys hfl =>
      rw [show keysOfK (.obj l) = keysOfKEnts l from rfl]
      exact keysOfKEnts_forall _ l hkeys (fun kv hkv => hl kv hkv (hfl kv hkv))

/-- Sorting entries commutes with mapping a function over the values, since the
order inspects keys only. -/
theorem sortLe_ents_map (g : KValue → KValue) :
    ∀ l : List (List Nat × KValue),
      sortLe entLeB (l.map (fun kv => (kv.1, g kv.2))) =
        (sortLe entLeB l).map (fun kv => (kv.1, g kv.2)) := by
  have hins : ∀ (k : List Nat) (v : KValue) (l : List (List Nat × KValue)),
      insertLe entLeB (k, g v) (l.map (fun kv => (kv.1, g kv.2))) =
        (insertLe entLeB (k, v) l).map (fun kv => (kv.1, g kv.2)) := by
    intro k v l
    induction l with
    | nil => simp [insertLe]
    | cons y ys ih =>
      simp only [List.map_cons, insertLe]
      have : entLeB ((k, v) : List Nat × KValue) y = entLeB (k, g v) (y.1, g y.2) := rfl
      rw [← this]
      split_ifs <;> simp [ih]
  intro l
  induction l with
  | nil => simp [sortLe]
  | cons x xs ih =>
    simp only [List.map_cons, sortLe, ih]
    exact hins x.1 x.2 (sortLe entLeB xs)

/-! ## Canonical form lemmas -/

theorem canonKList_eq_map (l : List KValue) : canonKList l = l.map canonK := by
  induction l with
  | nil => rfl
  | cons v r ih => rw [show canonKList (v :: r) = canonK v :: canonKList r from rfl, ih]; rfl

theorem canonKEnts_eq_map (l : List (List Nat × KValue)) :
    canonKEnts l = l.map (fun kv => (kv.1, canonK kv.2)) := by
  induction l with
  | nil => rfl
  | cons kv r ih =>
    obtain ⟨k, v⟩ := kv
    rw [show canonKEnts ((k, v) :: r) = (k, canonK v) :: canonKEnts r from rfl, ih]
    rfl

theorem keysOfKEnts_perm_mem (l1 l2 : List (List Nat × KValue)) (hp : List.Perm l1 l2)
    (x : List Nat) : x ∈ keysOfKEnts l1 ↔ x ∈ keysOfKEnts l2 := by
  rw [keysOfKEnts_mem_char, keysOfKEnts_mem_char]
  constructor
  · rintro ⟨kv, hkv, hx⟩
    exact ⟨kv, hp.mem_iff.mp hkv, hx⟩
  · rintro ⟨kv, hkv, hx⟩
    exact ⟨kv, hp.symm.mem_iff.mp hkv, hx⟩

theorem keysOfK_canon (v : KValue) : ∀ x, x ∈ keysOfK (canonK v) ↔ x ∈ keysOfK v := by
  induction v using kvalueInd with
  | hnull => intro x; rfl
  | hbool b => intro x; rfl
  | hint i => intro x; rfl
  | hfloat b => intro x; rfl
  | hstr s => intro x; rfl
  | harr l hl =>
    intro x
    rw [show canonK (.arr l) = .arr (canonKList l) from rfl]
    rw [show keysOfK (.arr (canonKList l)) = keysOfKList (canonKList l) from rfl,
      show keysOfK (.arr l) = keysOfKList l from rfl]
    induction l with
    | nil => rfl
    | cons v r ihr =>
      rw [canonKList_eq_map, List.map_cons]
      rw [show keysOfKList (canonK v :: List.map canonK r) =
        keysOfK (canonK v) ++ keysOfKList (List.map canonK r) from rfl,
        show keysOfKList (v :: r) = keysOfK v ++ keysOfKList r from rfl]
      rw [← canonKList_eq_map]
      simp only [List.mem_append]
      rw [hl v (by simp), ihr (fun u hu => hl u (by simp [hu]))]
  | hobj l hl =>
    intro x
    rw [show canonK (.obj l) = .obj (sortLe entLeB (canonKEnts l)) from rfl]
    rw [show keysOfK (.obj (sortLe entLeB (canonKEnts l))) =
      keysOfKEnts (sortLe entLeB (canonKEnts l)) from rfl,
      show keysOfK (.obj l) = keysOfKEnts l from rfl]
    rw [keysOfKEnts_perm_mem _ _ (sortLe_perm entLeB (canonKEnts l)) x]
    induction l with
    | nil => rfl
    | cons kv r ihr =>
      obtain ⟨k, v⟩ := kv
      rw [show canonKEnts ((k, v) :: r) = (k, canonK v) :: canonKEnts r from rfl]
      rw [show keysOfKEnts ((k, canonK v) :: canonKEnts r) =
        k :: (keysOfK (canonK v) ++ keysOfKEnts (canonKEnts r)) from rfl,
        show keysOfKEnts ((k, v) :: r) = k :: (keysOfK v ++ keysOfKEnts r) from rfl]
      simp only [List.mem_cons, List.mem_append]
      rw [hl (k, v) (by simp), ihr (fun u hu => hl u (by simp [hu]))]

/-! ## Dictionary determinism -/

theorem mem_dictOf (v : KValue) (x : List Nat) :
    x ∈ dictOf v ↔ x ∈ keysOfK v := by
  rw [dictOf, mem_sortLe, mem_collectKeys]
  simp

theorem nodup_dictOf (v : KValue) : (dictOf v).Nodup := by
  rw [dictOf]
  exact (sortLe_perm keyLeB _).nodup_iff.mpr (nodup_collectKeys v [] (by simp))

theorem dictOf_canonEq (v1 v2 : KValue) (h1 : WfK v1) (h2 : WfK v2)
    (h : canonK v1 = canonK v2) : dictOf v1 = dictOf v2 := by
  have hperm : List.Perm (dictOf v1) (dictOf v2) := by
    apply List.perm_of_nodup_nodup_toFinset_eq (nodup_dictOf v1) (nodup_dictOf v2)
    apply Finset.ext
    intro x
    simp only [List.mem_toFinset]
    rw [mem_dictOf, mem_dictOf, ← keysOfK_canon v1, ← keysOfK_canon v2, h]
  have hpair1 : List.Pairwise (fun a b => keyLeB a b = true) (dictOf v1) :=
    pairwise_sortLe keyLeB keyLeB_total keyLeB_trans _
  have hpair2 : List.Pairwise (fun a b => keyLeB a b = true) (dictOf v2) :=
    pairwise_sortLe keyLeB keyLeB_total keyLeB_trans _
  apply sorted_perm_unique keyLeB _ _ hperm hpair1 hpair2
  intro a ha b hb hab hba
  have hva : ValidStr a := keysOfK_valid v1 h1 a ((mem_dictOf v1 a).mp ha)
  have hvb : ValidStr b := keysOfK_valid v1 h1 b ((mem_dictOf v1 b).mp hb)
  exact utf8Encode_inj hva hvb (keyLeB_antisymm_bytes a b hab hba)

/-! ## Encoding depends only on the canonical form -/

theorem encCat_map_eq (f : α → Except EncErr (List Nat)) (g : α → α) (l : List α)
    (h : ∀ x ∈ l, f (g x) = f x) : encCat f (l.map g) = encCat f l := by
  induction l with
  | nil => rfl
  | cons x r ih =>
    rw [List.map_cons]
    rw [show encCat f (g x :: List.map g r) = do
      { let b ← f (g x); let rest ← encCat f (List.map g r); .ok (b ++ rest) } from rfl]
    rw [show encCat f (x :: r) = do
      { let b ← f x; let rest ← encCat f r; .ok (b ++ rest) } from rfl]
    rw [h x (by simp), ih (fun u hu => h u (by simp [hu]))]

theorem encodeValueF_canon (dict : List (List Nat)) :
    ∀ fuel v, encodeValueF dict fuel (canonK v) = encodeValueF dict fuel v := by
  intro fuel
  induction fuel with
  | zero => intro v; rfl
  | succ n ih =>
    intro v
    cases v with
    | null => rfl
    | bool b => cases b <;> rfl
    | int i => rfl
    | float b => rfl
    | str s => rfl
    | arr l =>
      rw [show canonK (.arr l) = .arr (canonKList l) from rfl]
      rw [show encodeValueF dict (n + 1) (.arr (canonKList l)) = do
        { let body ← encCat (encodeValueF dict n) (canonKList l)
          .ok (0x10 :: u32be (canonKList l).length ++ body) } from rfl]
      rw [show encodeValueF dict (n + 1) (.arr l) = do
        { let body ← encCat (encodeValueF dict n) l
          .ok (0x10 :: u32be l.length ++ body) } from rfl]
      rw [canonKList_eq_map]
      rw [encCat_map_eq _ _ _ (fun x _ => ih x)]
      rw [List.length_map]
    | obj l =>
      rw [show canonK (.obj l) = .obj (sortLe entLeB (canonKEnts l)) from rfl]
      have hL : sortLe entLeB (sortLe entLeB (canonKEnts l)) = sortLe entLeB (canonKEnts l) :=
        sortLe_idem entLeB entLeB_total entLeB_trans _
      have hM : sortLe entLeB (canonKEnts l) = canonKEnts (sortLe entLeB l) := by
        rw [canonKEnts_eq_map, canonKEnts_eq_map]
        exact sortLe_ents_map canonK l
      rw [show encodeValueF dict (n + 1) (.obj (sortLe entLeB (canonKEnts l))) = do
        { let body ← encCat (fun kv => do
            match idxOf kv.1 dict with
            | none => .error .keyNotInDict
            | some i => do
              let b ← encodeValueF dict n kv.2
              .ok (u32be i ++ b)) (sortLe entLeB (sortLe entLeB (canonKEnts l)))
          .ok (0x11 :: u32be (sortLe entLeB (sortLe entLeB (canonKEnts l))).length ++ body) }
        from rfl]
      rw [show encodeValueF dict (n + 1) (.obj l) = do
        { let body ← encCat (fun kv => do
            match idxOf kv.1 dict with
            | none => .error .keyNotInDict
            | some i => do
              let b ← encodeValueF dict n kv.2
              .ok (u32be i ++ b)) (sortLe entLeB l)
          .ok (0x11 :: u32be (sortLe entLeB l).length ++ body) } from rfl]
      rw [hL, hM, canonKEnts_eq_map]
      rw [encCat_map_eq _ _ _ (fun kv _ => by
        show (do
          match idxOf kv.1 dict with
          | none => Except.error EncErr.keyNotInDict
          | some i => do
            let b ← encodeValueF dict n (canonK kv.2)
            Except.ok (u32be i ++ b)) = (do
          match idxOf kv.1 dict with
          | none => Except.error EncErr.keyNotInDict
          | some i => do
            let b ← encodeValueF dict n kv.2
            Except.ok (u32be i ++ b))
        rw [ih kv.2])]
      rw [List.length_map]

/-! ## C1: canonical byte-identical encoding -/

theorem encode_canonEq (v1 v2 : KValue) (opts : EncodeOptions)
    (h1 : WfK v1) (h2 : WfK v2) (h : canonK v1 = canonK v2) :
    encode v1 opts = encode v2 opts := by
  have hd : dictOf v1 = dictOf v2 := dictOf_canonEq v1 v2 h1 h2 h
  rw [encode, encode, hd]
  have hb : encodeValueF (dictOf v2) (opts.maxDepth + 1) v1 =
      encodeValueF (dictOf v2) (opts.maxDepth + 1) v2 := by
    rw [← encodeValueF_canon (dictOf v2) (opts.maxDepth + 1) v1, h,
      encodeValueF_canon]
  rw [hb]

/-- C1: for any two Values that are structurally equal (same key sets, same
element orders, identical numeric bit patterns), encode produces byte-for-byte
identical output regardless of the in-memory insertion order of object keys. -/
theorem C1_encode_canonical (v1 v2 : KValue) (opts : EncodeOptions)
    (h1 : WfK v1) (h2 : WfK v2) (h : StructEqK v1 v2) :
    encode v1 opts = encode v2 opts :=
  encode_canonEq v1 v2 opts h1 h2 h

/-- Witness for C1: the objects written b-then-a and a-then-b are structurally
equal and encode identically. -/
theorem C1_encode_canonical_witness :
    WfK (.obj [([98], .int 1), ([97], .int 2)]) ∧
    WfK (.obj [([97], .int 2), ([98], .int 1)]) ∧
    StructEqK (.obj [([98], .int 1), ([97], .int 2)]) (.obj [([97], .int 2), ([98], .int 1)]) ∧
    encode (.obj [([98], .int 1), ([97], .int 2)]) {} =
      encode (.obj [([97], .int 2), ([98], .int 1)]) {} := by
  have h1 : WfK (KValue.obj [([98], .int 1), ([97], .int 2)]) := by
    refine WfK.obj _ ?_ ?_ ?_
    · intro kv hkv
      simp only [List.mem_cons, List.not_mem_nil, or_false] at hkv
      rcases hkv with rfl | rfl <;> exact WfK.int _ (by norm_num)
    · intro kv hkv
      simp only [List.mem_cons, List.not_mem_nil, or_false] at hkv
      rcases hkv with rfl | rfl <;> decide
    · decide
  have h2 : WfK (KValue.obj [([97], .int 2), ([98], .int 1)]) := by
    refine WfK.obj _ ?_ ?_ ?_
    · intro kv hkv
      simp only [List.mem_cons, List.not_mem_nil, or_false] at hkv
      rcases hkv with rfl | rfl <;> exact WfK.int _ (by norm_num)
    · intro kv hkv
      simp only [List.mem_cons, List.not_mem_nil, or_false] at hkv
      rcases hkv with rfl | rfl <;> decide
    · decide
  have h : StructEqK (.obj [([98], .int 1), ([97], .int 2)])
      (.obj [([97], .int 2), ([98], .int 1)]) := by
    show canonK _ = canonK _
    simp [canonK, canonKEnts, sortLe, insertLe, entLeB, keyLeB, utf8Encode, utf8Char,
      bytesCmp]
  exact ⟨h1, h2, h, C1_encode_canonical _ _ {} h1 h2 h⟩

/-! ## Byte round-trip helper lemmas -/

theorem beToNat_u32be (n : Nat) (h : n < 2 ^ 32) : beToNat (u32be n) = n := by
  simp only [u32be, beToNat, List.foldl]
  omega

theorem beToNat_u64be (n : Nat) (h : n < 2 ^ 64) : beToNat (u64be n) = n := by
  simp only [u64be, beToNat, List.foldl]
  omega

theorem u32be_length (n : Nat) : (u32be n).length = 4 := rfl

theorem u64be_length (n : Nat) : (u64be n).length = 8 := rfl

theorem i64_roundtrip (i : Int) (h1 : -(2 ^ 63) ≤ i) (h2 : i < 2 ^ 63) :
    i64ofNat (beToNat (i64be i)) = i := by
  have hm : (0 : Int) ≤ i % (2 ^ 64 : Int) := Int.emod_nonneg i (by norm_num)
  have hm2 : i % (2 ^ 64 : Int) < 2 ^ 64 := Int.emod_lt_of_pos i (by norm_num)
  have ht : ((i % (2 ^ 64 : Int)).toNat : Int) = i % (2 ^ 64 : Int) := Int.toNat_of_nonneg hm
  have hlt : (i % (2 ^ 64 : Int)).toNat < 2 ^ 64 := by omega
  rw [i64be, beToNat_u64be _ hlt, i64ofNat]
  split_ifs with hc
  · omega
  · omega

theorem dtake_exact (l rest : List Nat) (off n : Nat) (h : l.length = n) :
    dtake n ⟨l ++ rest, off⟩ = .ok (l, ⟨rest, off + n⟩) := by
  rw [dtake]
  rw [if_neg (by simp [List.length_append]; omega)]
  subst h
  rw [List.take_left, List.drop_left]

theorem readU8_exact (b : Nat) (rest : List Nat) (off : Nat) (h : b < 256) :
    readU8 ⟨b :: rest, off⟩ = .ok (b, ⟨rest, off + 1⟩) := by
  rw [readU8, show (b :: rest : List Nat) = [b] ++ rest from rfl,
    dtake_exact [b] rest off 1 rfl]
  show Except.ok (beToNat [b], _) = _
  simp [beToNat]

theorem readU32_exact (n : Nat) (rest : List Nat) (off : Nat) (h : n < 2 ^ 32) :
    readU32 ⟨u32be n ++ rest, off⟩ = .ok (n, ⟨rest, off + 4⟩) := by
  rw [readU32, dtake_exact (u32be n) rest off 4 (u32be_length n)]
  show Except.ok (beToNat (u32be n), _) = _
  rw [beToNat_u32be n h]

theorem readI64_exact (i : Int) (rest : List Nat) (off : Nat)
    (h1 : -(2 ^ 63) ≤ i) (h2 : i < 2 ^ 63) :
    readI64 ⟨i64be i ++ rest, off⟩ = .ok (i, ⟨rest, off + 8⟩) := by
  rw [readI64, i64be, dtake_exact (u64be _) rest off 8 (u64be_length _)]
  show Except.ok (i64ofNat (beToNat (u64be _)), _) = _
  rw [show u64be ((i % (2 ^ 64 : Int)).toNat) = i64be i from rfl, i64_roundtrip i h1 h2]

theorem idxOf_spec (k : List Nat) :
    ∀ dict : List (List Nat), k ∈ dict →
      ∃ (i : Nat) (h : i < dict.length), idxOf k dict = some i ∧ dict.get ⟨i, h⟩ = k := by
  intro dict
  induction dict with
  | nil => simp
  | cons x xs ih =>
    intro hk
    by_cases hx : x = k
    · exact ⟨0, by simp, by simp [idxOf, hx], hx⟩
    · have hk2 : k ∈ xs := by
        rcases List.mem_cons.mp hk with h | h
        · exact absurd h.symm hx
        · exact h
      obtain ⟨i, hi, heq, hget⟩ := ih hk2
      exact ⟨i + 1, by simp; omega, by simp [idxOf, hx, heq], by simpa using hget⟩

theorem idxOf_lt (k : List Nat) (dict : List (List Nat)) (i : Nat)
    (h : idxOf k dict = some i) : i < dict.length := by
  induction dict generalizing i with
  | nil => simp [idxOf] at h
  | cons x xs ih =>
    rw [idxOf] at h
    split_ifs at h with hx
    · simp only [Option.some_inj] at h
      simp [← h]
    · simp only [Option.map_eq_some'] at h
      obtain ⟨j, hj, rfl⟩ := h
      have := ih j hj
      simp only [List.length_cons]
      omega

theorem objInsert_fresh (l : List (List Nat × KValue)) (k : List Nat) (v : KValue)
    (h : k ∉ l.map Prod.fst) : objInsert l k v = l ++ [(k, v)] := by
  induction l with
  | nil => rfl
  | cons kv r ih =>
    obtain ⟨k0, v0⟩ := kv
    simp only [List.map_cons, List.mem_cons] at h
    push_neg at h
    rw [objInsert, if_neg (fun hc => h.1 hc.symm)]
    rw [ih h.2]
    rfl

theorem encCat_cons_ok (f : α → Except EncErr (List Nat)) (x : α) (r : List α)
    (out : List Nat) :
    encCat f (x :: r) = .ok out ↔
      ∃ b rest, f x = .ok b ∧ encCat f r = .ok rest ∧ out = b ++ rest := by
  rw [show encCat f (x :: r) = do
    { let b ← f x; let rest ← encCat f r; Except.ok (b ++ rest) } from rfl]
  constructor
  · intro h
    cases hx : f x with
    | error e => rw [hx] at h; simp [Bind.bind, Except.bind] at h
    | ok b =>
      rw [hx] at h
      cases hr : encCat f r with
      | error e => rw [hr] at h; simp [Bind.bind, Except.bind] at h
      | ok rest =>
        rw [hr] at h
        simp [Bind.bind, Except.bind, Pure.pure, Except.pure] at h
        exact ⟨b, rest, rfl, rfl, h.symm⟩
  · rintro ⟨b, rest, hx, hr, rfl⟩
    rw [hx, hr]
    rfl

/-! ## Decoder unfolding lemmas -/

theorem decodeValueF_succ (dict : List (List Nat)) (maxStr n : Nat) (st : DState) :
    decodeValueF dict maxStr (n + 1) st = (do
      let (tag, st) ← readU8 st
      if tag = 0x01 then .ok (.null, st)
      else if tag = 0x02 then .ok (.bool false, st)
      else if tag = 0x03 then .ok (.bool true, st)
      else if tag = 0x04 then do
        let (i, st) ← readI64 st
        match numOfI64 i with
        | (some n2, _) => .ok (.int n2, st)
        | (none, b) => .ok (.float b, st)
      else if tag = 0x05 then do
        let (bytes, st) ← dtake 8 st
        let b := beToNat bytes
        match bitsToSafeInt b with
        | some n2 => .ok (.int n2, st)
        | none => .ok (.float b, st)
      else if tag = 0x06 then do
        let (len, st) ← readU32 st
        if len > maxStr then .error (.err .stringTooLong st.off)
        else do
          let (bytes, st) ← dtake len st
          match utf8Decode bytes with
          | none => .error .typeError
          | some s => .ok (.str s, st)
      else if tag = 0x07 then .error (.err .binaryNotSupported st.off)
      else if tag = 0x10 then do
        let (count, st) ← readU32 st
        let (vs, st) ← decCat (decodeValueF dict maxStr n) count st
        .ok (.arr vs, st)
      else if tag = 0x11 then do
        let (count, st) ← readU32 st
        let (ents, st) ← decEnts (decodeValueF dict maxStr n) dict () count [] st
        .ok (.obj ents, st)
      else .error (.err (.unknownTag tag) st.off)) := rfl

theorem decCat_succ (dec : DState → Except DecErr (KValue × DState)) (n : Nat) (st : DState) :
    decCat dec (n + 1) st = (do
      let (v, st) ← dec st
      let (vs, st) ← decCat dec n st
      .ok (v :: vs, st)) := rfl

theorem decEnts_succ (dec : DState → Except DecErr (KValue × DState))
    (dict : List (List Nat)) (n : Nat) (acc : List (List Nat × KValue)) (st : DState) :
    decEnts dec dict () (n + 1) acc st = (do
      let (keyIdx, st) ← readU32 st
      if h : keyIdx < dict.length then
        let key := dict.get ⟨keyIdx, h⟩
        let (v, st) ← dec st
        decEnts dec dict () n (objInsert acc key v) st
      else .error (.err .invalidKeyIndex st.off)) := rfl

theorem idxOf_get (k : List Nat) :
    ∀ (dict : List (List Nat)) (i : Nat), idxOf k dict = some i →
      ∀ h : i < dict.length, dict.get ⟨i, h⟩ = k := by
  intro dict
  induction dict with
  | nil => intro i h; simp [idxOf] at h
  | cons x xs ih =>
    intro i h hlt
    rw [idxOf] at h
    split_ifs at h with hx
    · simp only [Option.some_inj] at h
      subst h
      simpa using hx
    · simp only [Option.map_eq_some'] at h
      obtain ⟨j, hj, rfl⟩ := h
      simpa using ih j hj (by simpa using Nat.lt_of_succ_lt_succ hlt)

/-! ## Encode-decode simulation -/

theorem decCat_walk (dec : DState → Except DecErr (KValue × DState))
    (f : KValue → Except EncErr (List Nat)) :
    ∀ (elems : List KValue) (body rest : List Nat) (off : Nat),
      encCat f elems = .ok body →
      (∀ v ∈ elems, ∀ b r o, f v = .ok b →
        dec ⟨b ++ r, o⟩ = .ok (canonK v, ⟨r, o + b.length⟩)) →
      decCat dec elems.length ⟨body ++ rest, off⟩ =
        .ok (elems.map canonK, ⟨rest, off + body.length⟩) := by
  intro elems
  induction elems with
  | nil =>
    intro body rest off he _
    have : body = [] := by
      rw [show encCat f [] = Except.ok [] from rfl] at he
      exact (Except.ok.injEq _ _).mp he.symm
    subst this
    simp [decCat]
  | cons v r ih =>
    intro body rest off he hdec
    obtain ⟨b, rest0, hv, hr, rfl⟩ := (encCat_cons_ok f v r body).mp he
    rw [List.length_cons, decCat_succ]
    have h1 : (b ++ rest0) ++ rest = b ++ (rest0 ++ rest) := List.append_assoc b rest0 rest
    rw [h1, hdec v (by simp) b (rest0 ++ rest) off hv]
    show (do
      let (vs, st) ← decCat dec r.length ⟨rest0 ++ rest, off + b.length⟩
      Except.ok (canonK v :: vs, st)) = _
    rw [ih rest0 rest (off + b.length) hr (fun u hu => hdec u (by simp [hu]))]
    show Except.ok (canonK v :: r.map canonK, (⟨rest, off + b.length + rest0.length⟩ : DState)) = _
    rw [show ((v :: r).map canonK : List KValue) = canonK v :: r.map canonK from rfl]
    rw [show ((b ++ rest0).length : Nat) = b.length + rest0.length from List.length_append b rest0]
    rw [Nat.add_assoc]

theorem decEnts_walk (dict : List (List Nat)) (hdl : dict.length < 2 ^ 32)
    (dec : DState → Except DecErr (KValue × DState))
    (f : KValue → Except EncErr (List Nat)) :
    ∀ (ents : List (List Nat × KValue)) (body rest : List Nat)
      (acc : List (List Nat × KValue)) (off : Nat),
      encCat (fun kv => do
        match idxOf kv.1 dict with
        | none => Except.error EncErr.keyNotInDict
        | some i => do
          let b ← f kv.2
          Except.ok (u32be i ++ b)) ents = .ok body →
      (∀ kv ∈ ents, ∀ b r o, f kv.2 = .ok b →
        dec ⟨b ++ r, o⟩ = .ok (canonK kv.2, ⟨r, o + b.length⟩)) →
      (∀ kv ∈ ents, kv.1 ∉ acc.map Prod.fst) →
      ((ents.map Prod.fst).Nodup) →
      decEnts dec dict () ents.length acc ⟨body ++ rest, off⟩ =
        .ok (acc ++ ents.map (fun kv => (kv.1, canonK kv.2)), ⟨rest, off + body.length⟩) := by
  intro ents
  induction ents with
  | nil =>
    intro body rest acc off he _ _ _
    have : body = [] := by
      rw [show encCat _ ([] : List (List Nat × KValue)) = Except.ok [] from rfl] at he
      exact (Except.ok.injEq _ _).mp he.symm
    subst this
    simp [decEnts]
  | cons kv r ih =>
    intro body rest acc off he hdec hfresh hnodup
    obtain ⟨b0, rest0, hkv, hr, rfl⟩ := (encCat_cons_ok _ kv r body).mp he
    cases hidx : idxOf kv.1 dict with
    | none =>
      rw [show (do
        match idxOf kv.1 dict with
        | none => Except.error EncErr.keyNotInDict
        | some i => do
          let b ← f kv.2
          Except.ok (u32be i ++ b)) = (match idxOf kv.1 dict with
        | none => Except.error EncErr.keyNotInDict
        | some i => do
          let b ← f kv.2
          Except.ok (u32be i ++ b) : Except EncErr (List Nat)) from rfl, hidx] at hkv
      simp at hkv
    | some i =>
      rw [show (do
        match idxOf kv.1 dict with
        | none => Except.error EncErr.keyNotInDict
        | some i => do
          let b ← f kv.2
          Except.ok (u32be i ++ b)) = (match idxOf kv.1 dict with
        | none => Except.error EncErr.keyNotInDict
        | some i => do
          let b ← f kv.2
          Except.ok (u32be i ++ b) : Except EncErr (List Nat)) from rfl, hidx] at hkv
      cases hv : f kv.2 with
      | error e => rw [hv] at hkv; simp [Bind.bind, Except.bind] at hkv
      | ok vb =>
        rw [hv] at hkv
        have hb0 : b0 = u32be i ++ vb := by
          simpa [Bind.bind, Except.bind, Pure.pure, Except.pure] using hkv.symm
        subst hb0
        have hilt : i < dict.length := idxOf_lt kv.1 dict i hidx
        rw [List.length_cons, decEnts_succ]
        have h1 : ((u32be i ++ vb) ++ rest0) ++ rest = u32be i ++ (vb ++ (rest0 ++ rest)) := by
          simp [List.append_assoc]
        rw [h1, readU32_exact i _ off (by omega)]
        show (if h : i < dict.length then do
          let (v, st) ← dec ⟨vb ++ (rest0 ++ rest), off + 4⟩
          decEnts dec dict () r.length (objInsert acc (dict.get ⟨i, h⟩) v) st
        else Except.error (.err .invalidKeyIndex (⟨vb ++ (rest0 ++ rest), off + 4⟩ : DState).off)) = _
        rw [dif_pos hilt, idxOf_get kv.1 dict i hidx hilt]
        rw [hdec kv (by simp) vb (rest0 ++ rest) (off + 4) hv]
        show decEnts dec dict () r.length (objInsert acc kv.1 (canonK kv.2))
          ⟨rest0 ++ rest, off + 4 + vb.length⟩ = _
        rw [objInsert_fresh acc kv.1 (canonK kv.2) (hfresh kv (by simp))]
        have hnodup2 : (r.map Prod.fst).Nodup := (List.nodup_cons.mp (by simpa using hnodup)).2
        have hknotr : kv.1 ∉ r.map Prod.fst := (List.nodup_cons.mp (by simpa using hnodup)).1
        rw [ih rest0 rest (acc ++ [(kv.1, canonK kv.2)]) (off + 4 + vb.length) hr
          (fun u hu => hdec u (by simp [hu]))
          (fun u hu => by
            simp only [List.map_append, List.mem_append, List.map_cons, List.map_nil,
              List.mem_cons, List.not_mem_nil, or_false]
            push_neg
            refine ⟨hfresh u (by simp [hu]), ?_⟩
            intro hc
            exact hknotr (by rw [← hc]; exact List.mem_map_of_mem Prod.fst hu))
          hnodup2]
        rw [show (acc ++ [(kv.1, canonK kv.2)]) ++ r.map (fun kv => (kv.1, canonK kv.2)) =
          acc ++ ((kv :: r).map (fun kv => (kv.1, canonK kv.2))) by simp]
        rw [show (((u32be i ++ vb) ++ rest0).length : Nat) = 4 + vb.length + rest0.length by
          simp [List.length_append, u32be_length]
          omega]
        rw [show off + 4 + vb.length + rest0.length = off + (4 + vb.length + rest0.length) by omega]

theorem ok_bind {ε α β : Type} (x : α) (f : α → Except ε β) :
    (Except.ok x : Except ε α) >>= f = f x := rfl

theorem err_bind {ε α β : Type} (e : ε) (f : α → Except ε β) :
    (Except.error e : Except ε α) >>= f = Except.error e := rfl

theorem enc_dec_sim (dict : List (List Nat)) (maxStr : Nat)
    (hms : maxStr < 2 ^ 32) (hdl : dict.length < 2 ^ 32) :
    ∀ (fuel : Nat) (v : KValue) (out : List Nat), WfK v → FitsK maxStr v →
      encodeValueF dict fuel v = .ok out →
      ∀ (rest : List Nat) (off : Nat),
        decodeValueF dict maxStr fuel ⟨out ++ rest, off⟩ =
          .ok (canonK v, ⟨rest, off + out.length⟩) := by
  intro fuel
  induction fuel with
  | zero =>
    intro v out _ _ henc
    exact absurd henc (by rw [show encodeValueF dict 0 v =
      Except.error EncErr.depthExceeded from rfl]; simp)
  | succ n ih =>
    intro v out hw hf henc rest off
    cases v with
    | null =>
      rw [show encodeValueF dict (n + 1) KValue.null = Except.ok [0x01] from rfl] at henc
      have hout : out = [0x01] := ((Except.ok.injEq _ _).mp henc).symm
      subst hout
      rw [decodeValueF_succ, show ([0x01] ++ rest : List Nat) = 0x01 :: rest from rfl,
        readU8_exact 0x01 rest off (by norm_num)]
      rfl
    | bool b =>
      cases b with
      | false =>
        rw [show encodeValueF dict (n + 1) (KValue.bool false) =
          Except.ok [0x02] from rfl] at henc
        have hout : out = [0x02] := ((Except.ok.injEq _ _).mp henc).symm
        subst hout
        rw [decodeValueF_succ, show ([0x02] ++ rest : List Nat) = 0x02 :: rest from rfl,
          readU8_exact 0x02 rest off (by norm_num)]
        rfl
      | true =>
        rw [show encodeValueF dict (n + 1) (KValue.bool true) =
          Except.ok [0x03] from rfl] at henc
        have hout : out = [0x03] := ((Except.ok.injEq _ _).mp henc).symm
        subst hout
        rw [decodeValueF_succ, show ([0x03] ++ rest : List Nat) = 0x03 :: rest from rfl,
          readU8_exact 0x03 rest off (by norm_num)]
        rfl
    | int i =>
      cases hw with
      | int _ hrange =>
        rw [show encodeValueF dict (n + 1) (KValue.int i) =
          Except.ok (0x04 :: i64be i) from rfl] at henc
        have hout : out = 0x04 :: i64be i := ((Except.ok.injEq _ _).mp henc).symm
        subst hout
        rw [decodeValueF_succ,
          show ((0x04 :: i64be i) ++ rest : List Nat) = 0x04 :: (i64be i ++ rest) from rfl,
          readU8_exact 0x04 (i64be i ++ rest) off (by norm_num)]
        show (do
          let (i2, st) ← readI64 ⟨i64be i ++ rest, off + 1⟩
          match numOfI64 i2 with
          | (some n2, _) => Except.ok (KValue.int n2, st)
          | (none, b) => Except.ok (.float b, st)) = _
        rw [readI64_exact i rest (off + 1) (by omega) (by omega)]
        show (match numOfI64 i with
          | (some n2, _) => Except.ok (KValue.int n2, (⟨rest, off + 1 + 8⟩ : DState))
          | (none, b) => Except.ok (.float b, (⟨rest, off + 1 + 8⟩ : DState))) = _
        rw [numOfI64, if_pos hrange]
        show Except.ok (KValue.int i, (⟨rest, off + 1 + 8⟩ : DState)) = _
        rw [show ((0x04 :: i64be i).length : Nat) = 9 by simp [i64be, u64be_length]]
        rfl
    | float b =>
      cases hw with
      | float _ hlt hnone =>
        rw [show encodeValueF dict (n + 1) (KValue.float b) =
          Except.ok (0x05 :: u64be b) from rfl] at henc
        have hout : out = 0x05 :: u64be b := ((Except.ok.injEq _ _).mp henc).symm
        subst hout
        rw [decodeValueF_succ,
          show ((0x05 :: u64be b) ++ rest : List Nat) = 0x05 :: (u64be b ++ rest) from rfl,
          readU8_exact 0x05 (u64be b ++ rest) off (by norm_num)]
        show (do
          let (bytes, st) ← dtake 8 ⟨u64be b ++ rest, off + 1⟩
          let b2 := beToNat bytes
          match bitsToSafeInt b2 with
          | some n2 => Except.ok (KValue.int n2, st)
          | none => Except.ok (.float b2, st)) = _
        rw [dtake_exact (u64be b) rest (off + 1) 8 (u64be_length b)]
        show (match bitsToSafeInt (beToNat (u64be b)) with
          | some n2 => Except.ok (KValue.int n2, (⟨rest, off + 1 + 8⟩ : DState))
          | none => Except.ok (.float (beToNat (u64be b)), (⟨rest, off + 1 + 8⟩ : DState))) = _
        rw [beToNat_u64be b hlt, hnone]
        show Except.ok (KValue.float b, (⟨rest, off + 1 + 8⟩ : DState)) = _
        rw [show ((0x05 :: u64be b).length : Nat) = 9 by simp [u64be_length]]
        rfl
    | str s0 =>
      cases hw with
      | str _ hvalid =>
        cases hf with
        | str _ hfit =>
          rw [show encodeValueF dict (n + 1) (KValue.str s0) =
            Except.ok (0x06 :: u32be (utf8Encode s0).length ++ utf8Encode s0) from rfl] at henc
          have hout : out = 0x06 :: u32be (utf8Encode s0).length ++ utf8Encode s0 :=
            ((Except.ok.injEq _ _).mp henc).symm
          subst hout
          rw [decodeValueF_succ,
            show ((0x06 :: u32be (utf8Encode s0).length ++ utf8Encode s0) ++ rest : List Nat) =
              0x06 :: (u32be (utf8Encode s0).length ++ (utf8Encode s0 ++ rest)) by
                simp [List.append_assoc],
            readU8_exact 0x06 _ off (by norm_num), ok_bind]
          simp only []
          rw [readU32_exact (utf8Encode s0).length _ (off + 1) (by omega), ok_bind]
          simp only []
          rw [if_neg (show ¬(utf8Encode s0).length > maxStr by omega)]
          rw [dtake_exact (utf8Encode s0) rest (off + 1 + 4) (utf8Encode s0).length rfl,
            ok_bind]
          simp only []
          rw [utf8Decode_encode s0 hvalid]
          show Except.ok (KValue.str s0,
            (⟨rest, off + 1 + 4 + (utf8Encode s0).length⟩ : DState)) = _
          rw [show ((0x06 :: u32be (utf8Encode s0).length ++ utf8Encode s0).length : Nat) =
            5 + (utf8Encode s0).length by
              simp [u32be_length]
              omega]
          rw [show off + 1 + 4 + (utf8Encode s0).length =
            off + (5 + (utf8Encode s0).length) by omega]
          rfl
    | arr l =>
      cases hw with
      | arr _ hwl =>
        cases hf with
        | arr _ hlen hfl =>
          rw [show encodeValueF dict (n + 1) (KValue.arr l) = (do
            let body ← encCat (encodeValueF dict n) l
            Except.ok (0x10 :: u32be l.length ++ body)) from rfl] at henc
          cases hb : encCat (encodeValueF dict n) l with
          | error e => rw [hb] at henc; simp [Bind.bind, Except.bind] at henc
          | ok body =>
            rw [hb] at henc
            have hout : out = 0x10 :: u32be l.length ++ body := by
              simpa [Bind.bind, Except.bind, Pure.pure, Except.pure] using henc.symm
            subst hout
            rw [decodeValueF_succ,
              show ((0x10 :: u32be l.length ++ body) ++ rest : List Nat) =
                0x10 :: (u32be l.length ++ (body ++ rest)) by simp [List.append_assoc],
              readU8_exact 0x10 _ off (by norm_num)]
            show (do
              let (count, st) ← readU32 ⟨u32be l.length ++ (body ++ rest), off + 1⟩
              let (vs, st) ← decCat (decodeValueF dict maxStr n) count st
              Except.ok (KValue.arr vs, st)) = _
            rw [readU32_exact l.length _ (off + 1) hlen]
            show (do
              let (vs, st) ← decCat (decodeValueF dict maxStr n) l.length
                (⟨body ++ rest, off + 1 + 4⟩ : DState)
              Except.ok (KValue.arr vs, st)) = _
            rw [decCat_walk (decodeValueF dict maxStr n) (encodeValueF dict n) l body rest
              (off + 1 + 4) hb
              (fun u hu b r o hfu => ih u b (hwl u hu) (hfl u hu) hfu r o)]
            show Except.ok (KValue.arr (l.map canonK),
              (⟨rest, off + 1 + 4 + body.length⟩ : DState)) = _
            rw [show canonK (KValue.arr l) = KValue.arr (canonKList l) from rfl,
              canonKList_eq_map]
            rw [show ((0x10 :: u32be l.length ++ body).length : Nat) = 5 + body.length by
              simp [u32be_length]
              omega]
            rw [show off + 1 + 4 + body.length = off + (5 + body.length) by omega]
    | obj l =>
      cases hw with
      | obj _ hwl hkv hnodup =>
        cases hf with
        | obj _ hlen hkfit hfl =>
          rw [show encodeValueF dict (n + 1) (KValue.obj l) = (do
            let body ← encCat (fun kv => do
              match idxOf kv.1 dict with
              | none => Except.error EncErr.keyNotInDict
              | some i => do
                let b ← encodeValueF dict n kv.2
                Except.ok (u32be i ++ b)) (sortLe entLeB l)
            Except.ok (0x11 :: u32be (sortLe entLeB l).length ++ body)) from rfl] at henc
          cases hb : encCat (fun kv => do
            match idxOf kv.1 dict with
            | none => Except.error EncErr.keyNotInDict
            | some i => do
              let b ← encodeValueF dict n kv.2
              Except.ok (u32be i ++ b)) (sortLe entLeB l) with
          | error e => rw [hb] at henc; simp [Bind.bind, Except.bind] at henc
          | ok body =>
            rw [hb] at henc
            have hout : out = 0x11 :: u32be (sortLe entLeB l).length ++ body := by
              simpa [Bind.bind, Except.bind, Pure.pure, Except.pure] using henc.symm
            subst hout
            have hslen : (sortLe entLeB l).length = l.length :=
              (sortLe_perm entLeB l).length_eq
            rw [decodeValueF_succ,
              show ((0x11 :: u32be (sortLe entLeB l).length ++ body) ++ rest : List Nat) =
                0x11 :: (u32be (sortLe entLeB l).length ++ (body ++ rest)) by
                  simp [List.append_assoc],
              readU8_exact 0x11 _ off (by norm_num)]
            show (do
              let (count, st) ← readU32 ⟨u32be (sortLe entLeB l).length ++ (body ++ rest),
                off + 1⟩
              let (ents, st) ← decEnts (decodeValueF dict maxStr n) dict () count [] st
              Except.ok (KValue.obj ents, st)) = _
            rw [readU32_exact (sortLe entLeB l).length _ (off + 1) (by rw [hslen]; exact hlen)]
            show (do
              let (ents, st) ← decEnts (decodeValueF dict maxStr n) dict ()
                (sortLe entLeB l).length [] (⟨body ++ rest, off + 1 + 4⟩ : DState)
              Except.ok (KValue.obj ents, st)) = _
            rw [decEnts_walk dict hdl (decodeValueF dict maxStr n) (encodeValueF dict n)
              (sortLe entLeB l) body rest [] (off + 1 + 4) hb
              (fun u hu b r o hfu =>
                ih u.2 b (hwl u ((mem_sortLe entLeB l u).mp hu))
                  (hfl u ((mem_sortLe entLeB l u).mp hu)) hfu r o)
              (fun u _ => by simp)
              (((sortLe_perm entLeB l).map Prod.fst).nodup_iff.mpr hnodup)]
            show Except.ok (KValue.obj ([] ++ (sortLe entLeB l).map
                (fun kv => (kv.1, canonK kv.2))),
              (⟨rest, off + 1 + 4 + body.length⟩ : DState)) = _
            rw [show canonK (KValue.obj l) = KValue.obj (sortLe entLeB (canonKEnts l))
              from rfl]
            rw [show sortLe entLeB (canonKEnts l) = canonKEnts (sortLe entLeB l) by
              rw [canonKEnts_eq_map, canonKEnts_eq_map]; exact sortLe_ents_map canonK l]
            rw [canonKEnts_eq_map, List.nil_append]
            rw [show ((0x11 :: u32be (sortLe entLeB l).length ++ body).length : Nat) =
              5 + body.length by
                simp [u32be_length]
                omega]
            rw [show off + 1 + 4 + body.length = off + (5 + body.length) by omega]

/-! ## Canon idempotence -/

theorem canonK_idem (v : KValue) : canonK (canonK v) = canonK v := by
  induction v using kvalueInd with
  | hnull => rfl
  | hbool b => rfl
  | hint i => rfl
  | hfloat b => rfl
  | hstr s => rfl
  | harr l hl =>
    rw [show canonK (KValue.arr l) = .arr (canonKList l) from rfl,
      show canonK (KValue.arr (canonKList l)) = .arr (canonKList (canonKList l)) from rfl]
    rw [canonKList_eq_map, canonKList_eq_map, List.map_map]
    congr 1
    apply List.map_congr_left
    intro u hu
    exact hl u hu
  | hobj l hl =>
    rw [show canonK (KValue.obj l) = .obj (sortLe entLeB (canonKEnts l)) from rfl,
      show canonK (KValue.obj (sortLe entLeB (canonKEnts l))) =
        .obj (sortLe entLeB (canonKEnts (sortLe entLeB (canonKEnts l)))) from rfl]
    have h1 : canonKEnts (sortLe entLeB (canonKEnts l)) =
        sortLe entLeB (canonKEnts (canonKEnts l)) := by
      rw [canonKEnts_eq_map, canonKEnts_eq_map, canonKEnts_eq_map]
      exact (sortLe_ents_map canonK (l.map (fun kv => (kv.1, canonK kv.2)))).symm
    have h2 : canonKEnts (canonKEnts l) = canonKEnts l := by
      rw [canonKEnts_eq_map, canonKEnts_eq_map, List.map_map]
      apply List.map_congr_left
      intro kv hkv
      simp only [Function.comp_apply]
      rw [hl kv hkv]
    rw [h1, h2, sortLe_idem entLeB entLeB_total entLeB_trans]

/-! ## Key subset lemmas -/

theorem keysOfKList_sub (l : List KValue) (u : KValue) (hu : u ∈ l) :
    ∀ k ∈ keysOfK u, k ∈ keysOfKList l := by
  induction l with
  | nil => simp at hu
  | cons v r ih =>
    intro k hk
    rw [show keysOfKList (v :: r) = keysOfK v ++ keysOfKList r from rfl, List.mem_append]
    rcases List.mem_cons.mp hu with rfl | hu2
    · exact Or.inl hk
    · exact Or.inr (ih hu2 k hk)

theorem keysOfKEnts_sub_val (l : List (List Nat × KValue)) (kv : List Nat × KValue)
    (hkv : kv ∈ l) : ∀ k ∈ keysOfK kv.2, k ∈ keysOfKEnts l := by
  intro k hk
  rw [keysOfKEnts_mem_char]
  exact ⟨kv, hkv, Or.inr hk⟩

theorem keysOfKEnts_sub_key (l : List (List Nat × KValue)) (kv : List Nat × KValue)
    (hkv : kv ∈ l) : kv.1 ∈ keysOfKEnts l := by
  rw [keysOfKEnts_mem_char]
  exact ⟨kv, hkv, Or.inl rfl⟩

/-! ## Encoder totality and depth errors -/

theorem encCat_ok_of_all (f : α → Except EncErr (List Nat)) (l : List α)
    (h : ∀ x ∈ l, ∃ b, f x = .ok b) : ∃ out, encCat f l = .ok out := by
  induction l with
  | nil => exact ⟨[], rfl⟩
  | cons x r ih =>
    obtain ⟨b, hb⟩ := h x (by simp)
    obtain ⟨out, hout⟩ := ih (fun u hu => h u (by simp [hu]))
    exact ⟨b ++ out, (encCat_cons_ok f x r _).mpr ⟨b, out, hb, hout, rfl⟩⟩

theorem vdepthKList_mem (l : List KValue) (u : KValue) (hu : u ∈ l) :
    1 + vdepthK u ≤ vdepthKList l := by
  induction l with
  | nil => simp at hu
  | cons v r ih =>
    rw [show vdepthKList (v :: r) = max (1 + vdepthK v) (vdepthKList r) from rfl]
    rcases List.mem_cons.mp hu with rfl | hu2
    · omega
    · have := ih hu2
      omega

theorem vdepthKEnts_mem (l : List (List Nat × KValue)) (kv : List Nat × KValue)
    (hkv : kv ∈ l) : 1 + vdepthK kv.2 ≤ vdepthKEnts l := by
  induction l with
  | nil => simp at hkv
  | cons x r ih =>
    obtain ⟨k0, v0⟩ := x
    rw [show vdepthKEnts ((k0, v0) :: r) = max (1 + vdepthK v0) (vdepthKEnts r) from rfl]
    rcases List.mem_cons.mp hkv with rfl | hkv2
    · exact le_max_left _ _
    · have := ih hkv2
      omega

theorem vdepthKEnts_perm (l1 l2 : List (List Nat × KValue)) (hp : List.Perm l1 l2) :
    vdepthKEnts l1 = vdepthKEnts l2 := by
  induction hp with
  | nil => rfl
  | cons x _ ih =>
    obtain ⟨k0, v0⟩ := x
    rw [show ∀ r : List (List Nat × KValue), vdepthKEnts ((k0, v0) :: r) =
      max (1 + vdepthK v0) (vdepthKEnts r) from fun r => rfl]
    rw [show ∀ r : List (List Nat × KValue), vdepthKEnts ((k0, v0) :: r) =
      max (1 + vdepthK v0) (vdepthKEnts r) from fun r => rfl]
    rw [ih]
  | swap x y r =>
    obtain ⟨k0, v0⟩ := x
    obtain ⟨k1, v1⟩ := y
    rw [show vdepthKEnts ((k1, v1) :: (k0, v0) :: r) =
      max (1 + vdepthK v1) (max (1 + vdepthK v0) (vdepthKEnts r)) from rfl,
      show vdepthKEnts ((k0, v0) :: (k1, v1) :: r) =
      max (1 + vdepthK v0) (max (1 + vdepthK v1) (vdepthKEnts r)) from rfl]
    omega
  | trans _ _ ih1 ih2 => rw [ih1, ih2]

theorem enc_ok_of_fuel (dict : List (List Nat)) :
    ∀ (fuel : Nat) (v : KValue), vdepthK v < fuel → (∀ k ∈ keysOfK v, k ∈ dict) →
      ∃ out, encodeValueF dict fuel v = .ok out := by
  intro fuel
  induction fuel with
  | zero => intro v h; omega
  | succ n ih =>
    intro v hd hkeys
    cases v with
    | null => exact ⟨[0x01], rfl⟩
    | bool b => cases b <;> exact ⟨_, rfl⟩
    | int i => exact ⟨_, rfl⟩
    | float b => exact ⟨_, rfl⟩
    | str s => exact ⟨_, rfl⟩
    | arr l =>
      rw [show vdepthK (KValue.arr l) = vdepthKList l from rfl] at hd
      rw [show keysOfK (KValue.arr l) = keysOfKList l from rfl] at hkeys
      obtain ⟨body, hbody⟩ := encCat_ok_of_all (encodeValueF dict n) l (fun u hu =>
        ih u (by have := vdepthKList_mem l u hu; omega)
          (fun k hk => hkeys k (keysOfKList_sub l u hu k hk)))
      rw [show encodeValueF dict (n + 1) (KValue.arr l) = (do
        let body ← encCat (encodeValueF dict n) l
        Except.ok (0x10 :: u32be l.length ++ body)) from rfl, hbody]
      exact ⟨_, rfl⟩
    | obj l =>
      rw [show vdepthK (KValue.obj l) = vdepthKEnts l from rfl] at hd
      rw [show keysOfK (KValue.obj l) = keysOfKEnts l from rfl] at hkeys
      obtain ⟨body, hbody⟩ := encCat_ok_of_all (fun kv => do
          match idxOf kv.1 dict with
          | none => Except.error EncErr.keyNotInDict
          | some i => do
            let b ← encodeValueF dict n kv.2
            Except.ok (u32be i ++ b)) (sortLe entLeB l) (fun kv hkv => by
        have hmem : kv ∈ l := (mem_sortLe entLeB l kv).mp hkv
        obtain ⟨i, hilt, hidx, _⟩ := idxOf_spec kv.1 dict
          (hkeys kv.1 (keysOfKEnts_sub_key l kv hmem))
        obtain ⟨b, hb⟩ := ih kv.2 (by have := vdepthKEnts_mem l kv hmem; omega)
          (fun k hk => hkeys k (keysOfKEnts_sub_val l kv hmem k hk))
        refine ⟨u32be i ++ b, ?_⟩
        show (match idxOf kv.1 dict with
          | none => Except.error EncErr.keyNotInDict
          | some i => do
            let b ← encodeValueF dict n kv.2
            Except.ok (u32be i ++ b) : Except EncErr (List Nat)) = Except.ok (u32be i ++ b)
        rw [hidx]
        show (do
          let b2 ← encodeValueF dict n kv.2
          Except.ok (u32be i ++ b2) : Except EncErr (List Nat)) = Except.ok (u32be i ++ b)
        rw [hb]
        rfl)
      rw [show encodeValueF dict (n + 1) (KValue.obj l) = (do
        let body ← encCat (fun kv => do
          match idxOf kv.1 dict with
          | none => Except.error EncErr.keyNotInDict
          | some i => do
            let b ← encodeValueF dict n kv.2
            Except.ok (u32be i ++ b)) (sortLe entLeB l)
        Except.ok (0x11 :: u32be (sortLe entLeB l).length ++ body)) from rfl, hbody]
      exact ⟨_, rfl⟩

theorem enc_depth_err (dict : List (List Nat)) :
    ∀ (fuel : Nat) (v : KValue), fuel ≤ vdepthK v → (∀ k ∈ keysOfK v, k ∈ dict) →
      encodeValueF dict fuel v = .error .depthExceeded := by
  intro fuel
  induction fuel with
  | zero => intro v _ _; rfl
  | succ n ih =>
    intro v hd hkeys
    cases v with
    | null => rw [show vdepthK KValue.null = 0 from rfl] at hd; omega
    | bool b => rw [show vdepthK (KValue.bool b) = 0 from rfl] at hd; omega
    | int i => rw [show vdepthK (KValue.int i) = 0 from rfl] at hd; omega
    | float b => rw [show vdepthK (KValue.float b) = 0 from rfl] at hd; omega
    | str s => rw [show vdepthK (KValue.str s) = 0 from rfl] at hd; omega
    | arr l =>
      rw [show vdepthK (KValue.arr l) = vdepthKList l from rfl] at hd
      rw [show keysOfK (KValue.arr l) = keysOfKList l from rfl] at hkeys
      have hwalk : ∀ l2 : List KValue, n + 1 ≤ vdepthKList l2 →
          (∀ u ∈ l2, ∀ k ∈ keysOfK u, k ∈ dict) →
          encCat (encodeValueF dict n) l2 = .error .depthExceeded := by
        intro l2
        induction l2 with
        | nil =>
          intro h _
          rw [show vdepthKList ([] : List KValue) = 0 from rfl] at h
          omega
        | cons u r ihr =>
          intro h hk
          rw [show vdepthKList (u :: r) = max (1 + vdepthK u) (vdepthKList r) from rfl] at h
          rw [show encCat (encodeValueF dict n) (u :: r) = (do
            let b ← encodeValueF dict n u
            let rest2 ← encCat (encodeValueF dict n) r
            Except.ok (b ++ rest2)) from rfl]
          by_cases hu : n ≤ vdepthK u
          · rw [ih u hu (hk u (by simp)), err_bind]
          · obtain ⟨b, hb⟩ := enc_ok_of_fuel dict n u (by omega) (hk u (by simp))
            rw [hb, ok_bind, ihr (by omega) (fun w hw => hk w (by simp [hw])), err_bind]
      rw [show encodeValueF dict (n + 1) (KValue.arr l) = (do
        let body ← encCat (encodeValueF dict n) l
        Except.ok (0x10 :: u32be l.length ++ body)) from rfl]
      rw [hwalk l hd (fun u hu k hk => hkeys k (keysOfKList_sub l u hu k hk)), err_bind]
    | obj l =>
      rw [show vdepthK (KValue.obj l) = vdepthKEnts l from rfl] at hd
      rw [show keysOfK (KValue.obj l) = keysOfKEnts l from rfl] at hkeys
      have hde : n + 1 ≤ vdepthKEnts (sortLe entLeB l) := by
        rw [vdepthKEnts_perm _ _ (sortLe_perm entLeB l)]
        exact hd
      have hwalk : ∀ l2 : List (List Nat × KValue), n + 1 ≤ vdepthKEnts l2 →
          (∀ kv ∈ l2, kv.1 ∈ dict) →
          (∀ kv ∈ l2, ∀ k ∈ keysOfK kv.2, k ∈ dict) →
          encCat (fun kv => do
            match idxOf kv.1 dict with
            | none => Except.error EncErr.keyNotInDict
            | some i => do
              let b ← encodeValueF dict n kv.2
              Except.ok (u32be i ++ b)) l2 = .error .depthExceeded := by
        intro l2
        induction l2 with
        | nil =>
          intro h _ _
          rw [show vdepthKEnts ([] : List (List Nat × KValue)) = 0 from rfl] at h
          omega
        | cons kv r ihr =>
          intro h hk1 hk2
          obtain ⟨k0, v0⟩ := kv
          rw [show vdepthKEnts ((k0, v0) :: r) =
            max (1 + vdepthK v0) (vdepthKEnts r) from rfl] at h
          obtain ⟨i, hilt, hidx, _⟩ := idxOf_spec k0 dict (hk1 (k0, v0) (by simp))
          rw [show encCat (fun kv => do
            match idxOf kv.1 dict with
            | none => Except.error EncErr.keyNotInDict
            | some i => do
              let b ← encodeValueF dict n kv.2
              Except.ok (u32be i ++ b)) ((k0, v0) :: r) = (do
            let b0 ← (match idxOf k0 dict with
              | none => Except.error EncErr.keyNotInDict
              | some i => do
                let b ← encodeValueF dict n v0
                Except.ok (u32be i ++ b) : Except EncErr (List Nat))
            let rest2 ← encCat (fun kv => do
              match idxOf kv.1 dict with
              | none => Except.error EncErr.keyNotInDict
              | some i => do
                let b ← encodeValueF dict n kv.2
                Except.ok (u32be i ++ b)) r
            Except.ok (b0 ++ rest2)) from rfl]
          rw [hidx]
          show (do
            let b0 ← (do
              let b ← encodeValueF dict n v0
              Except.ok (u32be i ++ b) : Except EncErr (List Nat))
            let rest2 ← encCat (fun kv : List Nat × KValue => do
              match idxOf kv.1 dict with
              | none => Except.error EncErr.keyNotInDict
              | some i => do
                let b ← encodeValueF dict n kv.2
                Except.ok (u32be i ++ b)) r
            Except.ok (b0 ++ rest2)) = _
          by_cases hu : n ≤ vdepthK v0
          · rw [ih v0 hu (hk2 (k0, v0) (by simp)), err_bind, err_bind]
          · obtain ⟨b, hb⟩ := enc_ok_of_fuel dict n v0 (by omega)
              (hk2 (k0, v0) (by simp))
            rw [hb, ok_bind, ok_bind]
            show (do
              let rest2 ← encCat (fun kv : List Nat × KValue => do
                match idxOf kv.1 dict with
                | none => Except.error EncErr.keyNotInDict
                | some i => do
                  let b ← encodeValueF dict n kv.2
                  Except.ok (u32be i ++ b)) r
              Except.ok ((u32be i ++ b) ++ rest2) : Except EncErr (List Nat)) = _
            rw [ihr (by omega) (fun w hw => hk1 w (by simp [hw]))
              (fun w hw => hk2 w (by simp [hw])), err_bind]
      rw [show encodeValueF dict (n + 1) (KValue.obj l) = (do
        let body ← encCat (fun kv => do
          match idxOf kv.1 dict with
          | none => Except.error EncErr.keyNotInDict
          | some i => do
            let b ← encodeValueF dict n kv.2
            Except.ok (u32be i ++ b)) (sortLe entLeB l)
        Except.ok (0x11 :: u32be (sortLe entLeB l).length ++ body)) from rfl]
      rw [hwalk (sortLe entLeB l) hde
        (fun kv hkv => hkeys kv.1
          (keysOfKEnts_sub_key l kv ((mem_sortLe entLeB l kv).mp hkv)))
        (fun kv hkv k hk => hkeys k
          (keysOfKEnts_sub_val l kv ((mem_sortLe entLeB l kv).mp hkv) k hk)), err_bind]

/-! ## Dictionary reading simulation -/

theorem readDict_succ (maxStr n : Nat) (st : DState) :
    readDict maxStr (n + 1) st = (do
      let (keyLen, st) ← readU32 st
      if keyLen > maxStr then .error (.err .keyTooLong st.off)
      else do
        let (bytes, st) ← dtake keyLen st
        match utf8Decode bytes with
        | none => .error .typeError
        | some key => do
          let (keys, st) ← readDict maxStr n st
          .ok (key :: keys, st)) := rfl

theorem readDict_sim (maxStr : Nat) (hms : maxStr < 2 ^ 32) :
    ∀ (keys : List (List Nat)) (rest : List Nat) (off : Nat),
      (∀ k ∈ keys, ValidStr k) →
      (∀ k ∈ keys, (utf8Encode k).length ≤ maxStr) →
      readDict maxStr keys.length
        ⟨(keys.map (fun k => u32be (utf8Encode k).length ++ utf8Encode k)).flatten ++ rest,
          off⟩ =
        .ok (keys, ⟨rest,
          off + ((keys.map (fun k => u32be (utf8Encode k).length ++ utf8Encode k)).flatten).length⟩) := by
  intro keys
  induction keys with
  | nil =>
    intro rest off _ _
    simp [readDict]
  | cons k ks ih =>
    intro rest off hv hfit
    rw [List.length_cons, readDict_succ]
    have hshape : ((k :: ks).map (fun k => u32be (utf8Encode k).length ++ utf8Encode k)).flatten
        ++ rest =
        u32be (utf8Encode k).length ++ (utf8Encode k ++
          ((ks.map (fun k => u32be (utf8Encode k).length ++ utf8Encode k)).flatten ++ rest)) := by
      simp [List.append_assoc]
    rw [hshape, readU32_exact (utf8Encode k).length _ off
      (by have := hfit k (by simp); omega), ok_bind]
    simp only []
    rw [if_neg (show ¬(utf8Encode k).length > maxStr by
      have := hfit k (by simp); omega)]
    rw [dtake_exact (utf8Encode k) _ (off + 4) (utf8Encode k).length rfl, ok_bind]
    simp only []
    rw [utf8Decode_encode k (hv k (by simp))]
    simp only []
    rw [ih _ (off + 4 + (utf8Encode k).length) (fun u hu => hv u (by simp [hu]))
      (fun u hu => hfit u (by simp [hu])), ok_bind]
    simp only []
    rw [show off + 4 + (utf8Encode k).length +
        ((ks.map (fun k => u32be (utf8Encode k).length ++ utf8Encode k)).flatten).length =
      off + (((k :: ks).map
        (fun k => u32be (utf8Encode k).length ++ utf8Encode k)).flatten).length by
      simp [u32be_length]
      omega]

/-! ## C2 core: decode of encode -/

theorem decode_encode (v : KValue) (eopts : EncodeOptions) (dopts : DecodeOptions)
    (hw : WfK v) (hf : FitsK dopts.maxStringLength v)
    (hdl : (dictOf v).length ≤ dopts.maxDictionarySize)
    (hms : dopts.maxStringLength < 2 ^ 32) (hmd : dopts.maxDictionarySize < 2 ^ 32)
    (hdep : dopts.maxDepth = eopts.maxDepth)
    (out : List Nat) (henc : encode v eopts = .ok out) :
    decode out dopts = .ok (canonK v) := by
  rw [encode] at henc
  cases hb : encodeValueF (dictOf v) (eopts.maxDepth + 1) v with
  | error e =>
    rw [hb] at henc
    simp [Bind.bind, Except.bind] at henc
  | ok body =>
    rw [hb] at henc
    have hout : out = MAGIC ++ [VERSION] ++ u32be (dictOf v).length ++
        ((dictOf v).map (fun k => u32be (utf8Encode k).length ++ utf8Encode k)).flatten ++
        body := by
      simpa [Bind.bind, Except.bind, Pure.pure, Except.pure] using henc.symm
    subst hout
    have hdlt : (dictOf v).length < 2 ^ 32 := by omega
    have hvdict : ∀ k ∈ dictOf v, ValidStr k :=
      fun k hk => keysOfK_valid v hw k ((mem_dictOf v k).mp hk)
    have hfdict : ∀ k ∈ dictOf v, (utf8Encode k).length ≤ dopts.maxStringLength :=
      fun k hk => keysOfK_fits dopts.maxStringLength v hf k ((mem_dictOf v k).mp hk)
    rw [show MAGIC ++ [VERSION] ++ u32be (dictOf v).length ++
        ((dictOf v).map (fun k => u32be (utf8Encode k).length ++ utf8Encode k)).flatten ++
        body =
      75 :: 79 :: 68 :: 65 :: 1 :: (u32be (dictOf v).length ++
        (((dictOf v).map (fun k => u32be (utf8Encode k).length ++ utf8Encode k)).flatten ++
          body)) by simp [MAGIC, VERSION, List.append_assoc]]
    rw [decode, decodeBody]
    rw [if_neg (by simp [MAGIC]), if_neg (by simp [VERSION])]
    simp only []
    rw [readU32_exact (dictOf v).length _ 5 hdlt, ok_bind]
    simp only []
    rw [if_neg (show ¬(dictOf v).length > dopts.maxDictionarySize by omega)]
    rw [show ((dictOf v).map (fun k => u32be (utf8Encode k).length ++ utf8Encode k)).flatten ++
        body =
      ((dictOf v).map (fun k => u32be (utf8Encode k).length ++ utf8Encode k)).flatten ++
        (body ++ []) by simp]
    rw [readDict_sim dopts.maxStringLength hms (dictOf v) (body ++ []) (5 + 4)
      hvdict hfdict, ok_bind]
    simp only []
    rw [hdep]
    rw [enc_dec_sim (dictOf v) dopts.maxStringLength hms hdlt (eopts.maxDepth + 1) v body
      hw hf hb [] _, ok_bind]
    simp only []
    rw [if_neg (by simp)]

/-- C2: for every constructible Value, decoding its encoding yields a Value
structurally equal to it; object key order may differ because the binary form
re-sorts object entries. -/
theorem C2_binary_roundtrip (v : KValue) (eopts : EncodeOptions) (dopts : DecodeOptions)
    (hw : WfK v) (hf : FitsK dopts.maxStringLength v)
    (hdl : (dictOf v).length ≤ dopts.maxDictionarySize)
    (hms : dopts.maxStringLength < 2 ^ 32) (hmd : dopts.maxDictionarySize < 2 ^ 32)
    (hdep : dopts.maxDepth = eopts.maxDepth)
    (hdepth : vdepthK v ≤ eopts.maxDepth) :
    ∃ out w, encode v eopts = .ok out ∧ decode out dopts = .ok w ∧ StructEqK w v := by
  obtain ⟨body, hb⟩ := enc_ok_of_fuel (dictOf v) (eopts.maxDepth + 1) v (by omega)
    (fun k hk => (mem_dictOf v k).mpr hk)
  have henc : encode v eopts = .ok (MAGIC ++ [VERSION] ++ u32be (dictOf v).length ++
      ((dictOf v).map (fun k => u32be (utf8Encode k).length ++ utf8Encode k)).flatten ++
      body) := by
    rw [encode, hb]
    rfl
  refine ⟨_, canonK v, henc, decode_encode v eopts dopts hw hf hdl hms hmd hdep _ henc, ?_⟩
  show canonK (canonK v) = canonK v
  exact canonK_idem v

/-- Witness for C2 at the object with key a and value 1 under default options. -/
theorem C2_binary_roundtrip_witness :
    WfK (.obj [([97], .int 1)]) ∧
    FitsK (({} : DecodeOptions).maxStringLength) (.obj [([97], .int 1)]) ∧
    (dictOf (.obj [([97], .int 1)])).length ≤ ({} : DecodeOptions).maxDictionarySize ∧
    vdepthK (.obj [([97], .int 1)]) ≤ ({} : EncodeOptions).maxDepth ∧
    (∃ out w, encode (.obj [([97], .int 1)]) {} = .ok out ∧
      decode out {} = .ok w ∧ StructEqK w (.obj [([97], .int 1)])) := by
  have hw : WfK (KValue.obj [([97], .int 1)]) := by
    refine WfK.obj _ ?_ ?_ ?_
    · intro kv hkv
      simp only [List.mem_cons, List.not_mem_nil, or_false] at hkv
      subst hkv
      exact WfK.int _ (by norm_num)
    · intro kv hkv
      simp only [List.mem_cons, List.not_mem_nil, or_false] at hkv
      subst hkv
      decide
    · decide
  have hf : FitsK (({} : DecodeOptions).maxStringLength) (KValue.obj [([97], .int 1)]) := by
    refine FitsK.obj _ (by norm_num) ?_ ?_
    · intro kv hkv
      simp only [List.mem_cons, List.not_mem_nil, or_false] at hkv
      subst hkv
      show (utf8Encode [97]).length ≤ 1000000
      decide
    · intro kv hkv
      simp only [List.mem_cons, List.not_mem_nil, or_false] at hkv
      subst hkv
      exact FitsK.int _
  have hdl : (dictOf (KValue.obj [([97], .int 1)])).length ≤
      ({} : DecodeOptions).maxDictionarySize := by
    show (dictOf (KValue.obj [([97], .int 1)])).length ≤ 65536
    rw [dictOf]
    rw [show collectKeys (KValue.obj [([97], .int 1)]) [] = [[97]] from by
      rw [show collectKeys (KValue.obj [([97], KValue.int 1)]) [] =
        collectKeysEnts [([97], KValue.int 1)] [] from rfl]
      rw [show collectKeysEnts [([97], KValue.int 1)] [] =
        collectKeysEnts [] (collectKeys (KValue.int 1) (setAdd [] [97])) from rfl]
      rfl]
    decide
  have hdepth : vdepthK (KValue.obj [([97], .int 1)]) ≤ ({} : EncodeOptions).maxDepth := by
    show vdepthK (KValue.obj [([97], .int 1)]) ≤ 256
    rw [show vdepthK (KValue.obj [([97], KValue.int 1)]) =
      vdepthKEnts [([97], KValue.int 1)] from rfl]
    rw [show vdepthKEnts [([97], KValue.int 1)] =
      max (1 + vdepthK (KValue.int 1)) (vdepthKEnts []) from rfl]
    rw [show vdepthK (KValue.int 1) = 0 from rfl, show vdepthKEnts [] = 0 from rfl]
    omega
  exact ⟨hw, hf, hdl, hdepth,
    C2_binary_roundtrip _ {} {} hw hf hdl (by norm_num) (by norm_num) rfl hdepth⟩

/-! ## Decoder behaviour under a different depth budget -/

/-- Propagate per-element agreement through a counted list read. -/
theorem decCat_mono (dec dec2 : DState → Except DecErr (KValue × DState))
    (h : ∀ st v st2, dec st = .ok (v, st2) → dec2 st = .ok (v, st2)) :
    ∀ (count : Nat) (st : DState) (vs : List KValue) (st2 : DState),
      decCat dec count st = .ok (vs, st2) → decCat dec2 count st = .ok (vs, st2) := by
  intro count
  induction count with
  | zero => intro st vs st2 hok; exact hok
  | succ n ih =>
    intro st vs st2 hok
    rw [decCat_succ] at hok
    cases h1 : dec st with
    | error e => rw [h1, err_bind] at hok; simp at hok
    | ok p =>
      obtain ⟨v, st1⟩ := p
      rw [h1, ok_bind] at hok
      simp only [] at hok
      cases h2 : decCat dec n st1 with
      | error e => rw [h2, err_bind] at hok; simp at hok
      | ok q =>
        obtain ⟨vs1, st3⟩ := q
        rw [h2, ok_bind] at hok
        rw [decCat_succ, h st v st1 h1, ok_bind]
        simp only []
        rw [ih st1 vs1 st3 h2, ok_bind]
        exact hok

/-- Propagate per-element agreement through a counted entry read. -/
theorem decEnts_mono (dec dec2 : DState → Except DecErr (KValue × DState))
    (dict : List (List Nat))
    (h : ∀ st v st2, dec st = .ok (v, st2) → dec2 st = .ok (v, st2)) :
    ∀ (count : Nat) (acc : List (List Nat × KValue)) (st : DState)
      (ents : List (List Nat × KValue)) (st2 : DState),
      decEnts dec dict () count acc st = .ok (ents, st2) →
      decEnts dec2 dict () count acc st = .ok (ents, st2) := by
  intro count
  induction count with
  | zero => intro acc st ents st2 hok; exact hok
  | succ n ih =>
    intro acc st ents st2 hok
    rw [decEnts_succ] at hok
    cases h1 : readU32 st with
    | error e => rw [h1, err_bind] at hok; simp at hok
    | ok p =>
      obtain ⟨keyIdx, st1⟩ := p
      rw [h1, ok_bind] at hok
      simp only [] at hok
      by_cases hlt : keyIdx < dict.length
      · rw [dif_pos hlt] at hok
        cases h2 : dec st1 with
        | error e => rw [h2, err_bind] at hok; simp at hok
        | ok q =>
          obtain ⟨v, st3⟩ := q
          rw [h2, ok_bind] at hok
          simp only [] at hok
          rw [decEnts_succ, h1, ok_bind]
          simp only []
          rw [dif_pos hlt, h st1 v st3 h2, ok_bind]
          simp only []
          exact ih _ st3 ents st2 hok
      · rw [dif_neg hlt] at hok
        simp at hok

/-- Propagate per-element ok-or-depth-error through a counted list read. -/
theorem decCat_budget (dec dec2 : DState → Except DecErr (KValue × DState))
    (h : ∀ st v st2, dec st = .ok (v, st2) →
      dec2 st = .ok (v, st2) ∨ ∃ o, dec2 st = .error (.err .depthExceeded o)) :
    ∀ (count : Nat) (st : DState) (vs : List KValue) (st2 : DState),
      decCat dec count st = .ok (vs, st2) →
      decCat dec2 count st = .ok (vs, st2) ∨
        ∃ o, decCat dec2 count st = .error (.err .depthExceeded o) := by
  intro count
  induction count with
  | zero => intro st vs st2 hok; exact Or.inl hok
  | succ n ih =>
    intro st vs st2 hok
    rw [decCat_succ] at hok
    cases h1 : dec st with
    | error e => rw [h1, err_bind] at hok; simp at hok
    | ok p =>
      obtain ⟨v, st1⟩ := p
      rw [h1, ok_bind] at hok
      simp only [] at hok
      cases h2 : decCat dec n st1 with
      | error e => rw [h2, err_bind] at hok; simp at hok
      | ok q =>
        obtain ⟨vs1, st3⟩ := q
        rw [h2, ok_bind] at hok
        rcases h st v st1 h1 with hd2 | ⟨o, hd2⟩
        · rcases ih st1 vs1 st3 h2 with hc2 | ⟨o, hc2⟩
          · left
            rw [decCat_succ, hd2, ok_bind]
            simp only []
            rw [hc2, ok_bind]
            exact hok
          · right
            refine ⟨o, ?_⟩
            rw [decCat_succ, hd2, ok_bind]
            simp only []
            rw [hc2, err_bind]
        · right
          refine ⟨o, ?_⟩
          rw [decCat_succ, hd2, err_bind]

/-- Propagate per-element ok-or-depth-error through a counted entry read. -/
theorem decEnts_budget (dec dec2 : DState → Except DecErr (KValue × DState))
    (dict : List (List Nat))
    (h : ∀ st v st2, dec st = .ok (v, st2) →
      dec2 st = .ok (v, st2) ∨ ∃ o, dec2 st = .error (.err .depthExceeded o)) :
    ∀ (count : Nat) (acc : List (List Nat × KValue)) (st : DState)
      (ents : List (List Nat × KValue)) (st2 : DState),
      decEnts dec dict () count acc st = .ok (ents, st2) →
      decEnts dec2 dict () count acc st = .ok (ents, st2) ∨
        ∃ o, decEnts dec2 dict () count acc st = .error (.err .depthExceeded o) := by
  intro count
  induction count with
  | zero => intro acc st ents st2 hok; exact Or.inl hok
  | succ n ih =>
    intro acc st ents st2 hok
    rw [decEnts_succ] at hok
    cases h1 : readU32 st with
    | error e => rw [h1, err_bind] at hok; simp at hok
    | ok p =>
      obtain ⟨keyIdx, st1⟩ := p
      rw [h1, ok_bind] at hok
      simp only [] at hok
      by_cases hlt : keyIdx < dict.length
      · rw [dif_pos hlt] at hok
        cases h2 : dec st1 with
        | error e => rw [h2, err_bind] at hok; simp at hok
        | ok q =>
          obtain ⟨v, st3⟩ := q
          rw [h2, ok_bind] at hok
          simp only [] at hok
          rcases h st1 v st3 h2 with hd2 | ⟨o, hd2⟩
          · rcases ih (objInsert acc (dict.get ⟨keyIdx, hlt⟩) v) st3 ents st2 hok
              with hc2 | ⟨o, hc2⟩
            · left
              rw [decEnts_succ, h1, ok_bind]
              simp only []
              rw [dif_pos hlt, hd2, ok_bind]
              simp only []
              exact hc2
            · right
              refine ⟨o, ?_⟩
              rw [decEnts_succ, h1, ok_bind]
              simp only []
              rw [dif_pos hlt, hd2, ok_bind]
              simp only []
              exact hc2
          · right
            refine ⟨o, ?_⟩
            rw [decEnts_succ, h1, ok_bind]
            simp only []
            rw [dif_pos hlt, hd2, err_bind]
      · rw [dif_neg hlt] at hok
        simp at hok

/-- A successful decode run at some depth budget, replayed at a larger budget,
yields the same result; replayed at any budget, it either yields the same
result or stops with the depth error. -/
theorem dec_budget (dict : List (List Nat)) (maxStr : Nat) :
    ∀ (fuel : Nat) (st : DState) (v : KValue) (st2 : DState),
      decodeValueF dict maxStr fuel st = .ok (v, st2) →
      ∀ fuel2 : Nat,
        (fuel ≤ fuel2 → decodeValueF dict maxStr fuel2 st = .ok (v, st2)) ∧
        (decodeValueF dict maxStr fuel2 st = .ok (v, st2) ∨
          ∃ o, decodeValueF dict maxStr fuel2 st = .error (.err .depthExceeded o)) := by
  intro fuel
  induction fuel with
  | zero =>
    intro st v st2 hok
    rw [show decodeValueF dict maxStr 0 st =
      Except.error (.err .depthExceeded st.off) from rfl] at hok
    simp at hok
  | succ n ih =>
    intro st v st2 hok
    intro fuel2
    cases fuel2 with
    | zero =>
      refine ⟨fun hle => by omega, Or.inr ⟨st.off, rfl⟩⟩
    | succ m =>
      have helemO : ∀ st v st2, decodeValueF dict maxStr n st = .ok (v, st2) →
          decodeValueF dict maxStr m st = .ok (v, st2) ∨
            ∃ o, decodeValueF dict maxStr m st = .error (.err .depthExceeded o) :=
        fun st v st2 hv => (ih st v st2 hv m).2
      suffices hs : (decodeValueF dict maxStr (m + 1) st = .ok (v, st2) ∨
          ∃ o, decodeValueF dict maxStr (m + 1) st = .error (.err .depthExceeded o)) ∧
          (n ≤ m → decodeValueF dict maxStr (m + 1) st = .ok (v, st2)) by
        exact ⟨fun hle => hs.2 (by omega), hs.1⟩
      rw [decodeValueF_succ] at hok
      cases h1 : readU8 st with
      | error e => rw [h1, err_bind] at hok; simp at hok
      | ok p =>
        obtain ⟨tag, st1⟩ := p
        rw [h1, ok_bind] at hok
        simp only [] at hok
        by_cases e16 : tag = 0x10
        · subst e16
          rw [if_neg (by norm_num), if_neg (by norm_num), if_neg (by norm_num),
            if_neg (by norm_num), if_neg (by norm_num), if_neg (by norm_num),
            if_neg (by norm_num), if_pos rfl] at hok
          cases h2 : readU32 st1 with
          | error e => rw [h2, err_bind] at hok; simp at hok
          | ok q =>
            obtain ⟨count, st3⟩ := q
            rw [h2, ok_bind] at hok
            simp only [] at hok
            cases h3 : decCat (decodeValueF dict maxStr n) count st3 with
            | error e => rw [h3, err_bind] at hok; simp at hok
            | ok r =>
              obtain ⟨vs, st4⟩ := r
              rw [h3, ok_bind] at hok
              constructor
              · rcases decCat_budget (decodeValueF dict maxStr n)
                  (decodeValueF dict maxStr m) helemO count st3 vs st4 h3 with hc | ⟨o, hc⟩
                · left
                  rw [decodeValueF_succ, h1, ok_bind]
                  show (do
                    let (count2, st5) ← readU32 st1
                    let (vs2, st6) ← decCat (decodeValueF dict maxStr m) count2 st5
                    Except.ok (KValue.arr vs2, st6)) = _
                  rw [h2, ok_bind]
                  simp only []
                  rw [hc, ok_bind]
                  exact hok
                · right
                  refine ⟨o, ?_⟩
                  rw [decodeValueF_succ, h1, ok_bind]
                  show (do
                    let (count2, st5) ← readU32 st1
                    let (vs2, st6) ← decCat (decodeValueF dict maxStr m) count2 st5
                    Except.ok (KValue.arr vs2, st6)) = _
                  rw [h2, ok_bind]
                  simp only []
                  rw [hc, err_bind]
              · intro hnm
                have helemM : ∀ st v st2, decodeValueF dict maxStr n st = .ok (v, st2) →
                    decodeValueF dict maxStr m st = .ok (v, st2) :=
                  fun st v st2 hv => (ih st v st2 hv m).1 hnm
                rw [decodeValueF_succ, h1, ok_bind]
                show (do
                  let (count2, st5) ← readU32 st1
                  let (vs2, st6) ← decCat (decodeValueF dict maxStr m) count2 st5
                  Except.ok (KValue.arr vs2, st6)) = _
                rw [h2, ok_bind]
                simp only []
                rw [decCat_mono (decodeValueF dict maxStr n) (decodeValueF dict maxStr m)
                  helemM count st3 vs st4 h3, ok_bind]
                exact hok
        · by_cases e17 : tag = 0x11
          · subst e17
            rw [if_neg (by norm_num), if_neg (by norm_num), if_neg (by norm_num),
              if_neg (by norm_num), if_neg (by norm_num), if_neg (by norm_num),
              if_neg (by norm_num), if_neg (by norm_num), if_pos rfl] at hok
            cases h2 : readU32 st1 with
            | error e => rw [h2, err_bind] at hok; simp at hok
            | ok q =>
              obtain ⟨count, st3⟩ := q
              rw [h2, ok_bind] at hok
              simp only [] at hok
              cases h3 : decEnts (decodeValueF dict maxStr n) dict () count [] st3 with
              | error e => rw [h3, err_bind] at hok; simp at hok
              | ok r =>
                obtain ⟨ents, st4⟩ := r
                rw [h3, ok_bind] at hok
                constructor
                · rcases decEnts_budget (decodeValueF dict maxStr n)
                    (decodeValueF dict maxStr m) dict helemO count [] st3 ents st4 h3
                    with hc | ⟨o, hc⟩
                  · left
                    rw [decodeValueF_succ, h1, ok_bind]
                    show (do
                      let (count2, st5) ← readU32 st1
                      let (ents2, st6) ← decEnts (decodeValueF dict maxStr m) dict () count2 [] st5
                      Except.ok (KValue.obj ents2, st6)) = _
                    rw [h2, ok_bind]
                    simp only []
                    rw [hc, ok_bind]
                    exact hok
                  · right
                    refine ⟨o, ?_⟩
                    rw [decodeValueF_succ, h1, ok_bind]
                    show (do
                      let (count2, st5) ← readU32 st1
                      let (ents2, st6) ← decEnts (decodeValueF dict maxStr m) dict () count2 [] st5
                      Except.ok (KValue.obj ents2, st6)) = _
                    rw [h2, ok_bind]
                    simp only []
                    rw [hc, err_bind]
                · intro hnm
                  have helemM : ∀ st v st2, decodeValueF dict maxStr n st = .ok (v, st2) →
                      decodeValueF dict maxStr m st = .ok (v, st2) :=
                    fun st v st2 hv => (ih st v st2 hv m).1 hnm
                  rw [decodeValueF_succ, h1, ok_bind]
                  show (do
                    let (count2, st5) ← readU32 st1
                    let (ents2, st6) ← decEnts (decodeValueF dict maxStr m) dict () count2 [] st5
                    Except.ok (KValue.obj ents2, st6)) = _
                  rw [h2, ok_bind]
                  simp only []
                  rw [decEnts_mono (decodeValueF dict maxStr n) (decodeValueF dict maxStr m)
                    dict helemM count [] st3 ents st4 h3, ok_bind]
                  exact hok
          · -- every other tag takes a branch that does not mention the fuel
            have hsame : decodeValueF dict maxStr (m + 1) st =
                decodeValueF dict maxStr (n + 1) st := by
              rw [decodeValueF_succ, decodeValueF_succ, h1, ok_bind, ok_bind]
              simp only []
              by_cases c1 : tag = 0x01
              · rw [if_pos c1, if_pos c1]
              rw [if_neg c1, if_neg c1]
              by_cases c2 : tag = 0x02
              · rw [if_pos c2, if_pos c2]
              rw [if_neg c2, if_neg c2]
              by_cases c3 : tag = 0x03
              · rw [if_pos c3, if_pos c3]
              rw [if_neg c3, if_neg c3]
              by_cases c4 : tag = 0x04
              · rw [if_pos c4, if_pos c4]
              rw [if_neg c4, if_neg c4]
              by_cases c5 : tag = 0x05
              · rw [if_pos c5, if_pos c5]
              rw [if_neg c5, if_neg c5]
              by_cases c6 : tag = 0x06
              · rw [if_pos c6, if_pos c6]
              rw [if_neg c6, if_neg c6]
              by_cases c7 : tag = 0x07
              · rw [if_pos c7, if_pos c7]
              rw [if_neg c7, if_neg c7]
              rw [if_neg e16, if_neg e16, if_neg e17, if_neg e17]
            refine ⟨?_, ?_⟩
            · left
              rw [hsame, decodeValueF_succ, h1, ok_bind]
              exact hok
            · intro _
              rw [hsame, decodeValueF_succ, h1, ok_bind]
              exact hok


/-! ## Decoded values respect the depth budget -/

theorem objInsert_val (k : List Nat) (v : KValue) :
    ∀ (acc : List (List Nat × KValue)) (kv : List Nat × KValue),
      kv ∈ objInsert acc k v → kv.2 = v ∨ kv ∈ acc := by
  intro acc
  induction acc with
  | nil =>
    intro kv hkv
    rw [show objInsert [] k v = [(k, v)] from rfl] at hkv
    rcases List.mem_singleton.mp hkv with rfl
    exact Or.inl rfl
  | cons a r ih =>
    intro kv hkv
    obtain ⟨k0, v0⟩ := a
    rw [show objInsert ((k0, v0) :: r) k v =
      (if k0 = k then (k0, v) :: r else (k0, v0) :: objInsert r k v) from rfl] at hkv
    by_cases hk : k0 = k
    · rw [if_pos hk] at hkv
      rcases List.mem_cons.mp hkv with rfl | h2
      · exact Or.inl rfl
      · exact Or.inr (List.mem_cons_of_mem _ h2)
    · rw [if_neg hk] at hkv
      rcases List.mem_cons.mp hkv with rfl | h2
      · exact Or.inr (List.mem_cons_self _ _)
      · rcases ih kv h2 with h3 | h3
        · exact Or.inl h3
        · exact Or.inr (List.mem_cons_of_mem _ h3)

theorem vdepthKList_le (l : List KValue) (n : Nat)
    (h : ∀ v ∈ l, vdepthK v < n) : vdepthKList l ≤ n := by
  induction l with
  | nil => rw [show vdepthKList [] = 0 from rfl]; omega
  | cons v r ih =>
    rw [show vdepthKList (v :: r) = max (1 + vdepthK v) (vdepthKList r) from rfl]
    have h1 := h v (by simp)
    have h2 := ih (fun u hu => h u (by simp [hu]))
    omega

theorem vdepthKEnts_le (l : List (List Nat × KValue)) (n : Nat)
    (h : ∀ kv ∈ l, vdepthK kv.2 < n) : vdepthKEnts l ≤ n := by
  induction l with
  | nil => rw [show vdepthKEnts [] = 0 from rfl]; omega
  | cons a r ih =>
    obtain ⟨k0, v0⟩ := a
    rw [show vdepthKEnts ((k0, v0) :: r) = max (1 + vdepthK v0) (vdepthKEnts r) from rfl]
    have h1 : vdepthK v0 < n := h (k0, v0) (by simp)
    have h2 := ih (fun u hu => h u (by simp [hu]))
    omega

theorem decCat_all (dec : DState → Except DecErr (KValue × DState))
    (P : KValue → Prop)
    (hdec : ∀ st v st2, dec st = .ok (v, st2) → P v) :
    ∀ (count : Nat) (st : DState) (vs : List KValue) (st2 : DState),
      decCat dec count st = .ok (vs, st2) → ∀ v ∈ vs, P v := by
  intro count
  induction count with
  | zero =>
    intro st vs st2 h v hv
    rw [show decCat dec 0 st = .ok ([], st) from rfl] at h
    injection h with h1
    injection h1 with h2 h3
    rw [← h2] at hv
    cases hv
  | succ n ih =>
    intro st vs st2 h v hv
    rw [decCat_succ] at h
    cases h1 : dec st with
    | error e => rw [h1, err_bind] at h; cases h
    | ok p =>
      obtain ⟨v1, st3⟩ := p
      rw [h1, ok_bind] at h
      simp only [] at h
      cases h2 : decCat dec n st3 with
      | error e => rw [h2, err_bind] at h; cases h
      | ok q =>
        obtain ⟨vs1, st4⟩ := q
        rw [h2, ok_bind] at h
        injection h with h3
        injection h3 with h4 h5
        rw [← h4] at hv
        rcases List.mem_cons.mp hv with rfl | hmem
        · exact hdec st _ _ h1
        · exact ih st3 vs1 st4 h2 v hmem

theorem decEnts_all (dec : DState → Except DecErr (KValue × DState))
    (dict : List (List Nat)) (P : KValue → Prop)
    (hdec : ∀ st v st2, dec st = .ok (v, st2) → P v) :
    ∀ (count : Nat) (acc : List (List Nat × KValue)) (st : DState)
      (ents : List (List Nat × KValue)) (st2 : DState),
      (∀ kv ∈ acc, P kv.2) →
      decEnts dec dict () count acc st = .ok (ents, st2) → ∀ kv ∈ ents, P kv.2 := by
  intro count
  induction count with
  | zero =>
    intro acc st ents st2 hacc h kv hkv
    rw [show decEnts dec dict () 0 acc st = .ok (acc, st) from rfl] at h
    injection h with h1
    injection h1 with h2 h3
    rw [← h2] at hkv
    exact hacc kv hkv
  | succ n ih =>
    intro acc st ents st2 hacc h kv hkv
    rw [decEnts_succ] at h
    cases h1 : readU32 st with
    | error e => rw [h1, err_bind] at h; cases h
    | ok p =>
      obtain ⟨keyIdx, st3⟩ := p
      rw [h1, ok_bind] at h
      simp only [] at h
      by_cases hlt : keyIdx < dict.length
      · rw [dif_pos hlt] at h
        cases h2 : dec st3 with
        | error e => rw [h2, err_bind] at h; cases h
        | ok q =>
          obtain ⟨v1, st4⟩ := q
          rw [h2, ok_bind] at h
          refine ih (objInsert acc (dict.get ⟨keyIdx, hlt⟩) v1) st4 ents st2
            (fun u hu => ?_) h kv hkv
          rcases objInsert_val (dict.get ⟨keyIdx, hlt⟩) v1 acc u hu with h3 | h3
          · rw [h3]; exact hdec st3 v1 st4 h2
          · exact hacc u h3
      · rw [dif_neg hlt] at h
        cases h

theorem dec_vdepth (dict : List (List Nat)) (maxStr : Nat) :
    ∀ (fuel : Nat) (st : DState) (v : KValue) (st2 : DState),
      decodeValueF dict maxStr fuel st = .ok (v, st2) → vdepthK v < fuel := by
  intro fuel
  induction fuel with
  | zero =>
    intro st v st2 h
    rw [show decodeValueF dict maxStr 0 st =
      Except.error (.err .depthExceeded st.off) from rfl] at h
    cases h
  | succ n ih =>
    intro st v st2 hok
    rw [decodeValueF_succ] at hok
    cases h1 : readU8 st with
    | error e => rw [h1, err_bind] at hok; cases hok
    | ok p =>
      obtain ⟨tag, st1⟩ := p
      rw [h1, ok_bind] at hok
      simp only [] at hok
      by_cases c1 : tag = 0x01
      · rw [if_pos c1] at hok
        cases hok
        exact Nat.succ_pos n
      rw [if_neg c1] at hok
      by_cases c2 : tag = 0x02
      · rw [if_pos c2] at hok
        cases hok
        exact Nat.succ_pos n
      rw [if_neg c2] at hok
      by_cases c3 : tag = 0x03
      · rw [if_pos c3] at hok
        cases hok
        exact Nat.succ_pos n
      rw [if_neg c3] at hok
      by_cases c4 : tag = 0x04
      · rw [if_pos c4] at hok
        cases h2 : readI64 st1 with
        | error e => rw [h2, err_bind] at hok; cases hok
        | ok q =>
          obtain ⟨i, st3⟩ := q
          rw [h2, ok_bind] at hok
          simp only [] at hok
          rcases hni : numOfI64 i with ⟨oi, b⟩
          rw [hni] at hok
          cases oi with
          | some m =>
            simp only [] at hok
            cases hok
            exact Nat.succ_pos n
          | none =>
            simp only [] at hok
            cases hok
            exact Nat.succ_pos n
      rw [if_neg c4] at hok
      by_cases c5 : tag = 0x05
      · rw [if_pos c5] at hok
        cases h2 : dtake 8 st1 with
        | error e => rw [h2, err_bind] at hok; cases hok
        | ok q =>
          obtain ⟨bytes, st3⟩ := q
          rw [h2, ok_bind] at hok
          simp only [] at hok
          cases hbi : bitsToSafeInt (beToNat bytes) with
          | some m =>
            rw [hbi] at hok
            simp only [] at hok
            cases hok
            exact Nat.succ_pos n
          | none =>
            rw [hbi] at hok
            simp only [] at hok
            cases hok
            exact Nat.succ_pos n
      rw [if_neg c5] at hok
      by_cases c6 : tag = 0x06
      · rw [if_pos c6] at hok
        cases h2 : readU32 st1 with
        | error e => rw [h2, err_bind] at hok; cases hok
        | ok q =>
          obtain ⟨len, st3⟩ := q
          rw [h2, ok_bind] at hok
          simp only [] at hok
          by_cases hlen : len > maxStr
          · rw [if_pos hlen] at hok; cases hok
          · rw [if_neg hlen] at hok
            cases h3 : dtake len st3 with
            | error e => rw [h3, err_bind] at hok; cases hok
            | ok q2 =>
              obtain ⟨bytes, st4⟩ := q2
              rw [h3, ok_bind] at hok
              simp only [] at hok
              cases hu : utf8Decode bytes with
              | none => rw [hu] at hok; cases hok
              | some sdec =>
                rw [hu] at hok
                simp only [] at hok
                cases hok
                exact Nat.succ_pos n
      rw [if_neg c6] at hok
      by_cases c7 : tag = 0x07
      · rw [if_pos c7] at hok; cases hok
      rw [if_neg c7] at hok
      by_cases c8 : tag = 0x10
      · rw [if_pos c8] at hok
        cases h2 : readU32 st1 with
        | error e => rw [h2, err_bind] at hok; cases hok
        | ok q =>
          obtain ⟨count, st3⟩ := q
          rw [h2, ok_bind] at hok
          simp only [] at hok
          cases h3 : decCat (decodeValueF dict maxStr n) count st3 with
          | error e => rw [h3, err_bind] at hok; cases hok
          | ok q2 =>
            obtain ⟨vs, st4⟩ := q2
            rw [h3, ok_bind] at hok
            cases hok
            have hall := decCat_all (decodeValueF dict maxStr n) (fun u => vdepthK u < n)
              (fun st v st2 hv => ih st v st2 hv) count st3 vs st4 h3
            have := vdepthKList_le vs n hall
            rw [show vdepthK (KValue.arr vs) = vdepthKList vs from rfl]
            omega
      rw [if_neg c8] at hok
      by_cases c9 : tag = 0x11
      · rw [if_pos c9] at hok
        cases h2 : readU32 st1 with
        | error e => rw [h2, err_bind] at hok; cases hok
        | ok q =>
          obtain ⟨count, st3⟩ := q
          rw [h2, ok_bind] at hok
          simp only [] at hok
          cases h3 : decEnts (decodeValueF dict maxStr n) dict () count [] st3 with
          | error e => rw [h3, err_bind] at hok; cases hok
          | ok q2 =>
            obtain ⟨ents, st4⟩ := q2
            rw [h3, ok_bind] at hok
            cases hok
            have hall := decEnts_all (decodeValueF dict maxStr n) dict
              (fun u => vdepthK u < n) (fun st v st2 hv => ih st v st2 hv)
              count [] st3 ents st4 (fun u hu => by cases hu) h3
            have := vdepthKEnts_le ents n hall
            rw [show vdepthK (KValue.obj ents) = vdepthKEnts ents from rfl]
            omega
      rw [if_neg c9] at hok
      cases hok


/-! ## Depth behaviour of the whole decoder -/

theorem decodeBody_main (m0 m1 m2 m3 ver : Nat) (rest : List Nat)
    (opts : DecodeOptions) :
    decodeBody (m0 :: m1 :: m2 :: m3 :: ver :: rest) opts =
      (if ¬([m0, m1, m2, m3] = MAGIC) then .error (.err .invalidMagic 0)
       else if ver ≠ VERSION then .error (.err (.unsupportedVersion ver) 5)
       else do
         let st : DState := ⟨rest, 5⟩
         let (dictLen, st) ← readU32 st
         if dictLen > opts.maxDictionarySize then .error (.err .dictTooLarge st.off)
         else do
           let (dict, st) ← readDict opts.maxStringLength dictLen st
           decodeValueF dict opts.maxStringLength (opts.maxDepth + 1) st) := rfl

theorem decodeBody_vdepth (buffer : List Nat) (opts : DecodeOptions)
    (v : KValue) (st : DState)
    (h : decodeBody buffer opts = .ok (v, st)) : vdepthK v ≤ opts.maxDepth := by
  rcases buffer with _ | ⟨m0, _ | ⟨m1, _ | ⟨m2, _ | ⟨m3, _ | ⟨ver, rest⟩⟩⟩⟩⟩
  · rw [show decodeBody [] opts = .error (.err .truncated 0) from rfl] at h; cases h
  · rw [show decodeBody [m0] opts = .error (.err .truncated 0) from rfl] at h; cases h
  · rw [show decodeBody [m0, m1] opts = .error (.err .truncated 0) from rfl] at h
    cases h
  · rw [show decodeBody [m0, m1, m2] opts = .error (.err .truncated 0) from rfl] at h
    cases h
  · rw [show decodeBody [m0, m1, m2, m3] opts = .error (.err .truncated 0) from rfl] at h
    cases h
  · rw [decodeBody_main] at h
    by_cases hm : ¬([m0, m1, m2, m3] = MAGIC)
    · rw [if_pos hm] at h; cases h
    · rw [if_neg hm] at h
      by_cases hv2 : ver ≠ VERSION
      · rw [if_pos hv2] at h; cases h
      · rw [if_neg hv2] at h
        simp only [] at h
        cases h1 : readU32 ⟨rest, 5⟩ with
        | error e => rw [h1, err_bind] at h; cases h
        | ok p =>
          obtain ⟨dictLen, st1⟩ := p
          rw [h1, ok_bind] at h
          simp only [] at h
          by_cases hd : dictLen > opts.maxDictionarySize
          · rw [if_pos hd] at h; cases h
          · rw [if_neg hd] at h
            cases h2 : readDict opts.maxStringLength dictLen st1 with
            | error e => rw [h2, err_bind] at h; cases h
            | ok q =>
              obtain ⟨dict, st3⟩ := q
              rw [h2, ok_bind] at h
              simp only [] at h
              have := dec_vdepth dict opts.maxStringLength (opts.maxDepth + 1) st3 v st h
              omega

theorem decodeBody_budget (buffer : List Nat) (opts : DecodeOptions)
    (v : KValue) (st : DState)
    (h : decodeBody buffer opts = .ok (v, st)) (d2 : Nat) :
    (opts.maxDepth ≤ d2 →
      decodeBody buffer ⟨d2, opts.maxDictionarySize, opts.maxStringLength⟩ =
        .ok (v, st)) ∧
    (decodeBody buffer ⟨d2, opts.maxDictionarySize, opts.maxStringLength⟩ =
        .ok (v, st) ∨
      ∃ o, decodeBody buffer ⟨d2, opts.maxDictionarySize, opts.maxStringLength⟩ =
        .error (.err .depthExceeded o)) := by
  rcases buffer with _ | ⟨m0, _ | ⟨m1, _ | ⟨m2, _ | ⟨m3, _ | ⟨ver, rest⟩⟩⟩⟩⟩
  · rw [show decodeBody [] opts = .error (.err .truncated 0) from rfl] at h; cases h
  · rw [show decodeBody [m0] opts = .error (.err .truncated 0) from rfl] at h; cases h
  · rw [show decodeBody [m0, m1] opts = .error (.err .truncated 0) from rfl] at h
    cases h
  · rw [show decodeBody [m0, m1, m2] opts = .error (.err .truncated 0) from rfl] at h
    cases h
  · rw [show decodeBody [m0, m1, m2, m3] opts = .error (.err .truncated 0) from rfl] at h
    cases h
  · rw [decodeBody_main] at h
    by_cases hm : ¬([m0, m1, m2, m3] = MAGIC)
    · rw [if_pos hm] at h; cases h
    · rw [if_neg hm] at h
      by_cases hv2 : ver ≠ VERSION
      · rw [if_pos hv2] at h; cases h
      · rw [if_neg hv2] at h
        simp only [] at h
        cases h1 : readU32 ⟨rest, 5⟩ with
        | error e => rw [h1, err_bind] at h; cases h
        | ok p =>
          obtain ⟨dictLen, st1⟩ := p
          rw [h1, ok_bind] at h
          simp only [] at h
          by_cases hd : dictLen > opts.maxDictionarySize
          · rw [if_pos hd] at h; cases h
          · rw [if_neg hd] at h
            cases h2 : readDict opts.maxStringLength dictLen st1 with
            | error e => rw [h2, err_bind] at h; cases h
            | ok q =>
              obtain ⟨dict, st3⟩ := q
              rw [h2, ok_bind] at h
              simp only [] at h
              have hgoal : decodeBody (m0 :: m1 :: m2 :: m3 :: ver :: rest)
                  ⟨d2, opts.maxDictionarySize, opts.maxStringLength⟩ =
                  decodeValueF dict opts.maxStringLength (d2 + 1) st3 := by
                rw [decodeBody_main, if_neg hm, if_neg hv2]
                show (do
                  let (dictLen2, st4) ← readU32 (⟨rest, 5⟩ : DState)
                  if dictLen2 > opts.maxDictionarySize then
                    Except.error (DecErr.err DMsg.dictTooLarge st4.off)
                  else do
                    let (dict2, st5) ← readDict opts.maxStringLength dictLen2 st4
                    decodeValueF dict2 opts.maxStringLength (d2 + 1) st5) = _
                rw [h1, ok_bind]
                show (if dictLen > opts.maxDictionarySize then
                    Except.error (DecErr.err DMsg.dictTooLarge st1.off)
                  else do
                    let (dict2, st5) ← readDict opts.maxStringLength dictLen st1
                    decodeValueF dict2 opts.maxStringLength (d2 + 1) st5) = _
                rw [if_neg hd, h2, ok_bind]
              rw [hgoal]
              have hb := dec_budget dict opts.maxStringLength (opts.maxDepth + 1)
                st3 v st h (d2 + 1)
              exact ⟨fun hle => hb.1 (by omega), hb.2⟩

theorem decode_eq (buffer : List Nat) (opts : DecodeOptions) :
    decode buffer opts = (do
      let (v, st) ← decodeBody buffer opts
      if st.rem ≠ [] then .error (.err .trailingBytes st.off)
      else .ok v) := rfl

theorem decode_vdepth (buffer : List Nat) (opts : DecodeOptions) (v : KValue)
    (h : decode buffer opts = .ok v) : vdepthK v ≤ opts.maxDepth := by
  rw [decode_eq] at h
  cases hb : decodeBody buffer opts with
  | error e => rw [hb, err_bind] at h; cases h
  | ok p =>
    obtain ⟨v1, st⟩ := p
    rw [hb, ok_bind] at h
    simp only [] at h
    by_cases ht : st.rem ≠ []
    · rw [if_pos ht] at h; cases h
    · rw [if_neg ht] at h
      cases h
      exact decodeBody_vdepth buffer opts _ st hb

theorem decode_budget (buffer : List Nat) (opts : DecodeOptions) (v : KValue)
    (h : decode buffer opts = .ok v) (d2 : Nat) :
    (opts.maxDepth ≤ d2 →
      decode buffer ⟨d2, opts.maxDictionarySize, opts.maxStringLength⟩ = .ok v) ∧
    (decode buffer ⟨d2, opts.maxDictionarySize, opts.maxStringLength⟩ = .ok v ∨
      ∃ o, decode buffer ⟨d2, opts.maxDictionarySize, opts.maxStringLength⟩ =
        .error (.err .depthExceeded o)) := by
  rw [decode_eq] at h
  cases hb : decodeBody buffer opts with
  | error e => rw [hb, err_bind] at h; cases h
  | ok p =>
    obtain ⟨v1, st⟩ := p
    rw [hb, ok_bind] at h
    simp only [] at h
    by_cases ht : st.rem ≠ []
    · rw [if_pos ht] at h; cases h
    · rw [if_neg ht] at h
      cases h
      have hbb := decodeBody_budget buffer opts _ st hb d2
      constructor
      · intro hle
        rw [decode_eq, hbb.1 hle, ok_bind]
        show (if st.rem ≠ [] then Except.error (DecErr.err DMsg.trailingBytes st.off)
          else Except.ok v) = _
        rw [if_neg ht]
      · rcases hbb.2 with h2 | ⟨o, h2⟩
        · left
          rw [decode_eq, h2, ok_bind]
          show (if st.rem ≠ [] then Except.error (DecErr.err DMsg.trailingBytes st.off)
            else Except.ok v) = _
          rw [if_neg ht]
        · right
          refine ⟨o, ?_⟩
          rw [decode_eq, h2, err_bind]


/-! ## Reading from an extended buffer -/

theorem dtake_eqn (n : Nat) (st : DState) :
    dtake n st = (if st.rem.length < n then .error (.err .truncated st.off)
      else .ok (st.rem.take n, ⟨st.rem.drop n, st.off + n⟩)) := rfl

theorem dtake_ext (n : Nat) (st : DState) (b : List Nat) (st2 : DState)
    (h : dtake n st = .ok (b, st2)) (extra : List Nat) :
    dtake n (stExt st extra) = .ok (b, stExt st2 extra) := by
  rw [dtake_eqn] at h
  by_cases hlen : st.rem.length < n
  · rw [if_pos hlen] at h; cases h
  · rw [if_neg hlen] at h
    cases h
    rw [dtake_eqn, if_neg (by
      show ¬(stExt st extra).rem.length < n
      rw [show (stExt st extra).rem = st.rem ++ extra from rfl, List.length_append]
      omega)]
    rw [show (stExt st extra).rem = st.rem ++ extra from rfl,
      show (stExt st extra).off = st.off from rfl,
      List.take_append_of_le_length (by omega),
      List.drop_append_of_le_length (by omega)]
    rfl

theorem readU8_eqn (st : DState) : readU8 st = (do
    let (b, st2) ← dtake 1 st
    Except.ok (beToNat b, st2)) := rfl

theorem readU8_ext (st : DState) (x : Nat) (st2 : DState)
    (h : readU8 st = .ok (x, st2)) (extra : List Nat) :
    readU8 (stExt st extra) = .ok (x, stExt st2 extra) := by
  rw [readU8_eqn] at h
  cases h1 : dtake 1 st with
  | error e => rw [h1, err_bind] at h; cases h
  | ok p =>
    obtain ⟨b, st3⟩ := p
    rw [h1, ok_bind] at h
    simp only [] at h
    cases h
    rw [readU8_eqn, dtake_ext 1 st b _ h1 extra, ok_bind]

theorem readU32_eqn (st : DState) : readU32 st = (do
    let (b, st2) ← dtake 4 st
    Except.ok (beToNat b, st2)) := rfl

theorem readU32_ext (st : DState) (x : Nat) (st2 : DState)
    (h : readU32 st = .ok (x, st2)) (extra : List Nat) :
    readU32 (stExt st extra) = .ok (x, stExt st2 extra) := by
  rw [readU32_eqn] at h
  cases h1 : dtake 4 st with
  | error e => rw [h1, err_bind] at h; cases h
  | ok p =>
    obtain ⟨b, st3⟩ := p
    rw [h1, ok_bind] at h
    simp only [] at h
    cases h
    rw [readU32_eqn, dtake_ext 4 st b _ h1 extra, ok_bind]

theorem readI64_eqn (st : DState) : readI64 st = (do
    let (b, st2) ← dtake 8 st
    Except.ok (i64ofNat (beToNat b), st2)) := rfl

theorem readI64_ext (st : DState) (x : Int) (st2 : DState)
    (h : readI64 st = .ok (x, st2)) (extra : List Nat) :
    readI64 (stExt st extra) = .ok (x, stExt st2 extra) := by
  rw [readI64_eqn] at h
  cases h1 : dtake 8 st with
  | error e => rw [h1, err_bind] at h; cases h
  | ok p =>
    obtain ⟨b, st3⟩ := p
    rw [h1, ok_bind] at h
    simp only [] at h
    cases h
    rw [readI64_eqn, dtake_ext 8 st b _ h1 extra, ok_bind]

theorem decCat_ext (dec : DState → Except DecErr (KValue × DState))
    (hdec : ∀ st v st2, dec st = .ok (v, st2) →
      ∀ extra, dec (stExt st extra) = .ok (v, stExt st2 extra)) :
    ∀ (count : Nat) (st : DState) (vs : List KValue) (st2 : DState),
      decCat dec count st = .ok (vs, st2) →
      ∀ extra, decCat dec count (stExt st extra) = .ok (vs, stExt st2 extra) := by
  intro count
  induction count with
  | zero =>
    intro st vs st2 h extra
    rw [show decCat dec 0 st = .ok ([], st) from rfl] at h
    cases h
    rfl
  | succ n ih =>
    intro st vs st2 h extra
    rw [decCat_succ] at h
    rw [decCat_succ]
    cases h1 : dec st with
    | error e => rw [h1, err_bind] at h; cases h
    | ok p =>
      obtain ⟨v1, st3⟩ := p
      rw [h1, ok_bind] at h
      simp only [] at h
      cases h2 : decCat dec n st3 with
      | error e => rw [h2, err_bind] at h; cases h
      | ok q =>
        obtain ⟨vs1, st4⟩ := q
        rw [h2, ok_bind] at h
        cases h
        rw [hdec st v1 st3 h1 extra, ok_bind]
        simp only []
        rw [ih st3 vs1 st4 h2 extra, ok_bind]

theorem decEnts_ext (dec : DState → Except DecErr (KValue × DState))
    (dict : List (List Nat))
    (hdec : ∀ st v st2, dec st = .ok (v, st2) →
      ∀ extra, dec (stExt st extra) = .ok (v, stExt st2 extra)) :
    ∀ (count : Nat) (acc : List (List Nat × KValue)) (st : DState)
      (ents : List (List Nat × KValue)) (st2 : DState),
      decEnts dec dict () count acc st = .ok (ents, st2) →
      ∀ extra, decEnts dec dict () count acc (stExt st extra) =
        .ok (ents, stExt st2 extra) := by
  intro count
  induction count with
  | zero =>
    intro acc st ents st2 h extra
    rw [show decEnts dec dict () 0 acc st = .ok (acc, st) from rfl] at h
    cases h
    rfl
  | succ n ih =>
    intro acc st ents st2 h extra
    rw [decEnts_succ] at h
    rw [decEnts_succ]
    cases h1 : readU32 st with
    | error e => rw [h1, err_bind] at h; cases h
    | ok p =>
      obtain ⟨keyIdx, st3⟩ := p
      rw [h1, ok_bind] at h
      rw [readU32_ext st keyIdx st3 h1 extra, ok_bind]
      simp only [] at h ⊢
      by_cases hlt : keyIdx < dict.length
      · rw [dif_pos hlt] at h
        rw [dif_pos hlt]
        cases h2 : dec st3 with
        | error e => rw [h2, err_bind] at h; cases h
        | ok q =>
          obtain ⟨v1, st4⟩ := q
          rw [h2, ok_bind] at h
          rw [hdec st3 v1 st4 h2 extra, ok_bind]
          simp only [] at h ⊢
          exact ih (objInsert acc (dict.get ⟨keyIdx, hlt⟩) v1) st4 ents st2 h extra
      · rw [dif_neg hlt] at h
        cases h

theorem dec_ext (dict : List (List Nat)) (maxStr : Nat) :
    ∀ (fuel : Nat) (st : DState) (v : KValue) (st2 : DState),
      decodeValueF dict maxStr fuel st = .ok (v, st2) →
      ∀ extra, decodeValueF dict maxStr fuel (stExt st extra) =
        .ok (v, stExt st2 extra) := by
  intro fuel
  induction fuel with
  | zero =>
    intro st v st2 h
    rw [show decodeValueF dict maxStr 0 st =
      Except.error (.err .depthExceeded st.off) from rfl] at h
    cases h
  | succ n ih =>
    intro st v st2 hok extra
    rw [decodeValueF_succ] at hok
    rw [decodeValueF_succ]
    cases h1 : readU8 st with
    | error e => rw [h1, err_bind] at hok; cases hok
    | ok p =>
      obtain ⟨tag, st1⟩ := p
      rw [h1, ok_bind] at hok
      rw [readU8_ext st tag st1 h1 extra, ok_bind]
      simp only [] at hok ⊢
      by_cases c1 : tag = 0x01
      · rw [if_pos c1] at hok
        rw [if_pos c1]
        cases hok
        rfl
      rw [if_neg c1] at hok
      rw [if_neg c1]
      by_cases c2 : tag = 0x02
      · rw [if_pos c2] at hok
        rw [if_pos c2]
        cases hok
        rfl
      rw [if_neg c2] at hok
      rw [if_neg c2]
      by_cases c3 : tag = 0x03
      · rw [if_pos c3] at hok
        rw [if_pos c3]
        cases hok
        rfl
      rw [if_neg c3] at hok
      rw [if_neg c3]
      by_cases c4 : tag = 0x04
      · rw [if_pos c4] at hok
        rw [if_pos c4]
        cases h2 : readI64 st1 with
        | error e => rw [h2, err_bind] at hok; cases hok
        | ok q =>
          obtain ⟨i, st3⟩ := q
          rw [h2, ok_bind] at hok
          rw [readI64_ext st1 i st3 h2 extra, ok_bind]
          simp only [] at hok ⊢
          rcases hni : numOfI64 i with ⟨oi, b⟩
          rw [hni] at hok
          cases oi with
          | some m =>
            simp only [] at hok ⊢
            cases hok
            rfl
          | none =>
            simp only [] at hok ⊢
            cases hok
            rfl
      rw [if_neg c4] at hok
      rw [if_neg c4]
      by_cases c5 : tag = 0x05
      · rw [if_pos c5] at hok
        rw [if_pos c5]
        cases h2 : dtake 8 st1 with
        | error e => rw [h2, err_bind] at hok; cases hok
        | ok q =>
          obtain ⟨bytes, st3⟩ := q
          rw [h2, ok_bind] at hok
          rw [dtake_ext 8 st1 bytes st3 h2 extra, ok_bind]
          simp only [] at hok ⊢
          cases hbi : bitsToSafeInt (beToNat bytes) with
          | some m =>
            rw [hbi] at hok
            simp only [] at hok ⊢
            cases hok
            rfl
          | none =>
            rw [hbi] at hok
            simp only [] at hok ⊢
            cases hok
            rfl
      rw [if_neg c5] at hok
      rw [if_neg c5]
      by_cases c6 : tag = 0x06
      · rw [if_pos c6] at hok
        rw [if_pos c6]
        cases h2 : readU32 st1 with
        | error e => rw [h2, err_bind] at hok; cases hok
        | ok q =>
          obtain ⟨len, st3⟩ := q
          rw [h2, ok_bind] at hok
          rw [readU32_ext st1 len st3 h2 extra, ok_bind]
          simp only [] at hok ⊢
          by_cases hlen : len > maxStr
          · rw [if_pos hlen] at hok; cases hok
          · rw [if_neg hlen] at hok
            rw [if_neg hlen]
            cases h3 : dtake len st3 with
            | error e => rw [h3, err_bind] at hok; cases hok
            | ok q2 =>
              obtain ⟨bytes, st4⟩ := q2
              rw [h3, ok_bind] at hok
              rw [dtake_ext len st3 bytes st4 h3 extra, ok_bind]
              simp only [] at hok ⊢
              cases hu : utf8Decode bytes with
              | none => rw [hu] at hok; cases hok
              | some sdec =>
                rw [hu] at hok
                simp only [] at hok ⊢
                cases hok
                rfl
      rw [if_neg c6] at hok
      rw [if_neg c6]
      by_cases c7 : tag = 0x07
      · rw [if_pos c7] at hok; cases hok
      rw [if_neg c7] at hok
      rw [if_neg c7]
      by_cases c8 : tag = 0x10
      · rw [if_pos c8] at hok
        rw [if_pos c8]
        cases h2 : readU32 st1 with
        | error e => rw [h2, err_bind] at hok; cases hok
        | ok q =>
          obtain ⟨count, st3⟩ := q
          rw [h2, ok_bind] at hok
          rw [readU32_ext st1 count st3 h2 extra, ok_bind]
          simp only [] at hok ⊢
          cases h3 : decCat (decodeValueF dict maxStr n) count st3 with
          | error e => rw [h3, err_bind] at hok; cases hok
          | ok q2 =>
            obtain ⟨vs, st4⟩ := q2
            rw [h3, ok_bind] at hok
            rw [decCat_ext (decodeValueF dict maxStr n)
              (fun st v st2 hv extra2 => ih st v st2 hv extra2)
              count st3 vs st4 h3 extra, ok_bind]
            cases hok
            rfl
      rw [if_neg c8] at hok
      rw [if_neg c8]
      by_cases c9 : tag = 0x11
      · rw [if_pos c9] at hok
        rw [if_pos c9]
        cases h2 : readU32 st1 with
        | error e => rw [h2, err_bind] at hok; cases hok
        | ok q =>
          obtain ⟨count, st3⟩ := q
          rw [h2, ok_bind] at hok
          rw [readU32_ext st1 count st3 h2 extra, ok_bind]
          simp only [] at hok ⊢
          cases h3 : decEnts (decodeValueF dict maxStr n) dict () count [] st3 with
          | error e => rw [h3, err_bind] at hok; cases hok
          | ok q2 =>
            obtain ⟨ents, st4⟩ := q2
            rw [h3, ok_bind] at hok
            rw [decEnts_ext (decodeValueF dict maxStr n) dict
              (fun st v st2 hv extra2 => ih st v st2 hv extra2)
              count [] st3 ents st4 h3 extra, ok_bind]
            cases hok
            rfl
      rw [if_neg c9] at hok
      cases hok

theorem readDict_ext (maxStr : Nat) :
    ∀ (n : Nat) (st : DState) (keys : List (List Nat)) (st2 : DState),
      readDict maxStr n st = .ok (keys, st2) →
      ∀ extra, readDict maxStr n (stExt st extra) = .ok (keys, stExt st2 extra) := by
  intro n
  induction n with
  | zero =>
    intro st keys st2 h extra
    rw [show readDict maxStr 0 st = .ok ([], st) from rfl] at h
    cases h
    rfl
  | succ m ih =>
    intro st keys st2 h extra
    rw [readDict_succ] at h
    rw [readDict_succ]
    cases h1 : readU32 st with
    | error e => rw [h1, err_bind] at h; cases h
    | ok p =>
      obtain ⟨keyLen, st3⟩ := p
      rw [h1, ok_bind] at h
      rw [readU32_ext st keyLen st3 h1 extra, ok_bind]
      simp only [] at h ⊢
      by_cases hkl : keyLen > maxStr
      · rw [if_pos hkl] at h; cases h
      · rw [if_neg hkl] at h
        rw [if_neg hkl]
        cases h2 : dtake keyLen st3 with
        | error e => rw [h2, err_bind] at h; cases h
        | ok q =>
          obtain ⟨bytes, st4⟩ := q
          rw [h2, ok_bind] at h
          rw [dtake_ext keyLen st3 bytes st4 h2 extra, ok_bind]
          simp only [] at h ⊢
          cases hu : utf8Decode bytes with
          | none => rw [hu] at h; cases h
          | some key =>
            rw [hu] at h
            simp only [] at h ⊢
            cases h3 : readDict maxStr m st4 with
            | error e => rw [h3, err_bind] at h; cases h
            | ok q2 =>
              obtain ⟨keys1, st5⟩ := q2
              rw [h3, ok_bind] at h
              rw [ih st4 keys1 st5 h3 extra, ok_bind]
              cases h
              rfl

theorem decodeBody_ext (buffer : List Nat) (opts : DecodeOptions)
    (v : KValue) (st : DState)
    (h : decodeBody buffer opts = .ok (v, st)) (extra : List Nat) :
    decodeBody (buffer ++ extra) opts = .ok (v, stExt st extra) := by
  rcases buffer with _ | ⟨m0, _ | ⟨m1, _ | ⟨m2, _ | ⟨m3, _ | ⟨ver, rest⟩⟩⟩⟩⟩
  · rw [show decodeBody [] opts = .error (.err .truncated 0) from rfl] at h; cases h
  · rw [show decodeBody [m0] opts = .error (.err .truncated 0) from rfl] at h; cases h
  · rw [show decodeBody [m0, m1] opts = .error (.err .truncated 0) from rfl] at h
    cases h
  · rw [show decodeBody [m0, m1, m2] opts = .error (.err .truncated 0) from rfl] at h
    cases h
  · rw [show decodeBody [m0, m1, m2, m3] opts = .error (.err .truncated 0) from rfl] at h
    cases h
  · rw [decodeBody_main] at h
    rw [show (m0 :: m1 :: m2 :: m3 :: ver :: rest) ++ extra =
      m0 :: m1 :: m2 :: m3 :: ver :: (rest ++ extra) from rfl]
    rw [decodeBody_main]
    by_cases hm : ¬([m0, m1, m2, m3] = MAGIC)
    · rw [if_pos hm] at h; cases h
    · rw [if_neg hm] at h
      rw [if_neg hm]
      by_cases hv2 : ver ≠ VERSION
      · rw [if_pos hv2] at h; cases h
      · rw [if_neg hv2] at h
        rw [if_neg hv2]
        simp only [] at h ⊢
        cases h1 : readU32 ⟨rest, 5⟩ with
        | error e => rw [h1, err_bind] at h; cases h
        | ok p =>
          obtain ⟨dictLen, st1⟩ := p
          rw [h1, ok_bind] at h
          rw [show (⟨rest ++ extra, 5⟩ : DState) = stExt ⟨rest, 5⟩ extra from rfl,
            readU32_ext ⟨rest, 5⟩ dictLen st1 h1 extra, ok_bind]
          simp only [] at h ⊢
          by_cases hd : dictLen > opts.maxDictionarySize
          · rw [if_pos hd] at h; cases h
          · rw [if_neg hd] at h
            rw [if_neg hd]
            cases h2 : readDict opts.maxStringLength dictLen st1 with
            | error e => rw [h2, err_bind] at h; cases h
            | ok q =>
              obtain ⟨dict, st3⟩ := q
              rw [h2, ok_bind] at h
              rw [readDict_ext opts.maxStringLength dictLen st1 dict st3 h2 extra,
                ok_bind]
              simp only [] at h ⊢
              exact dec_ext dict opts.maxStringLength (opts.maxDepth + 1)
                st3 v st h extra


/-- C6: if decoding of the root value completes while at least one byte of the
input remains unread, decode fails with the trailing-bytes error at the offset
reached, and returns no value; in particular appending any nonempty extra bytes
to an input that decodes successfully makes decode fail with the trailing-bytes
error. -/
theorem C6_trailing_bytes :
    (∀ (buffer : List Nat) (opts : DecodeOptions) (v : KValue) (st : DState),
        decodeBody buffer opts = .ok (v, st) → st.rem ≠ [] →
        decode buffer opts = .error (.err .trailingBytes st.off)) ∧
    (∀ (buffer : List Nat) (opts : DecodeOptions) (v : KValue) (extra : List Nat),
        decode buffer opts = .ok v → extra ≠ [] →
        ∃ o, decode (buffer ++ extra) opts = .error (.err .trailingBytes o)) := by
  constructor
  · intro buffer opts v st hb ht
    rw [decode_eq, hb, ok_bind]
    show (if st.rem ≠ [] then Except.error (DecErr.err DMsg.trailingBytes st.off)
      else Except.ok v) = _
    rw [if_pos ht]
  · intro buffer opts v extra hd hx
    rw [decode_eq] at hd
    cases hb : decodeBody buffer opts with
    | error e => rw [hb, err_bind] at hd; cases hd
    | ok p =>
      obtain ⟨v1, st⟩ := p
      rw [hb, ok_bind] at hd
      simp only [] at hd
      by_cases ht : st.rem ≠ []
      · rw [if_pos ht] at hd; cases hd
      · rw [if_neg ht] at hd
        cases hd
        have hrem : st.rem = [] := not_not.mp ht
        refine ⟨st.off, ?_⟩
        have hext := decodeBody_ext buffer opts _ st hb extra
        rw [decode_eq, hext, ok_bind]
        show (if (stExt st extra).rem ≠ [] then
            Except.error (DecErr.err DMsg.trailingBytes st.off)
          else Except.ok v) = _
        rw [if_pos (by
          rw [show (stExt st extra).rem = st.rem ++ extra from rfl, hrem]
          simpa using hx)]

/-- Concrete check of C6: the encoding of the integer 1 decodes, and the same
bytes with one byte appended fail with the trailing-bytes error. -/
theorem C6_trailing_bytes_witness :
    decode [75, 79, 68, 65, 1, 0, 0, 0, 0, 4, 0, 0, 0, 0, 0, 0, 0, 1] {} =
      .ok (.int 1) ∧
    ∃ o, decode ([75, 79, 68, 65, 1, 0, 0, 0, 0, 4, 0, 0, 0, 0, 0, 0, 0, 1] ++ [0])
      {} = .error (.err .trailingBytes o) :=
  ⟨by rfl, C6_trailing_bytes.2 _ {} (.int 1) [0] (by rfl) (by decide)⟩


/-- C4: the claimed text round-trip fails.  The string value "0" is emitted
unquoted by stringify, because the needsQuote first-character test uses the
word class which contains digits, yet "0" does not match the Identifier
lexical shape, so it parses back as the integer 0 and not as the original
string. -/
theorem C4_text_roundtrip :
    stringify (TValue.str [48]) = some [48] ∧
    parse [48] {} = .ok (.int 0) ∧
    TValue.int 0 ≠ TValue.str [48] :=
  ⟨rfl, rfl, fun h => TValue.noConfusion h⟩

/-- Concrete check of C4: the same divergence, stated on the composite
round-trip. -/
theorem C4_text_roundtrip_witness :
    stringify (TValue.str [48]) = some [48] ∧ parse [48] {} = .ok (.int 0) :=
  ⟨C4_text_roundtrip.1, C4_text_roundtrip.2.1⟩

/-- C10: parse and parseFast do not agree on every input.  On the four
characters quote backslash q quote, the lexer used by parse rejects the
unknown escape while the Reader used by parseFast keeps the escaped character
(parser.ts line 382), so parse throws a parse error and parseFast returns the
string "q". -/
theorem C10_parse_parseFast :
    parse [34, 92, 113, 34] {} = .error ⟨.invalidEscape 113, 3⟩ ∧
    parseFast [34, 92, 113, 34] {} = .ok (.str [113]) :=
  ⟨rfl, rfl⟩

/-- C8: ill-formed UTF-8 in a dictionary key or in a string payload is
rejected, but through the uncaught TypeError of TextDecoder, which is not a
KodaDecodeError and carries no read offset, contradicting the part of the
claim that says every observable decode failure carries the offset of the
failure point.  The first input has the invalid byte 255 as its only
dictionary key, the second has it as the payload of a string value. -/
theorem C8_utf8_offset :
    decode [75, 79, 68, 65, 1, 0, 0, 0, 1, 0, 0, 0, 1, 255, 1] {} =
      .error .typeError ∧
    decode [75, 79, 68, 65, 1, 0, 0, 0, 0, 6, 0, 0, 0, 1, 255] {} =
      .error .typeError ∧
    ∀ (m : DMsg) (o : Nat), DecErr.typeError ≠ DecErr.err m o :=
  ⟨rfl, rfl, fun m o h => DecErr.noConfusion h⟩

/-- Concrete check of C8 at one message and offset. -/
theorem C8_utf8_offset_witness :
    DecErr.typeError ≠ DecErr.err DMsg.truncated 0 :=
  C8_utf8_offset.2.2 DMsg.truncated 0


/-! ## Leading zeros -/

theorem parse_eq (input : List Nat) (opts : ParseOptions) :
    parse input opts = (do
      let toks ← tokenize input opts.maxInputLength
      let (v, ts) ← parseDocumentP opts.maxDepth toks
      match (curT ts).1 with
      | .eof => Except.ok v
      | t => Except.error ⟨.expectedEofTok t, (curT ts).2⟩) := rfl

/-- C9: corrected.  A leading 0 followed by another digit is rejected only
when that digit is 1 through 9: the input [00] lexes as two zero tokens and
parses as the array of two zeros, against the claim that any such input fails.
A leading 0 (with or without minus sign) followed by a digit 1-9 does fail at
lex time with the leading-zero error, for every continuation of the input. -/
theorem C9_leading_zero :
    parse [91, 48, 48, 93] {} = .ok (.arr [.int 0, .int 0]) ∧
    (∀ (d : Nat) (rest : List Nat) (opts : ParseOptions),
      49 ≤ d → d ≤ 57 → (48 :: d :: rest).length ≤ opts.maxInputLength →
      parse (48 :: d :: rest) opts = .error ⟨.leadingZero, 1⟩) ∧
    (∀ (d : Nat) (rest : List Nat) (opts : ParseOptions),
      49 ≤ d → d ≤ 57 → (45 :: 48 :: d :: rest).length ≤ opts.maxInputLength →
      parse (45 :: 48 :: d :: rest) opts = .error ⟨.leadingZero, 2⟩) := by
  refine ⟨rfl, ?_, ?_⟩
  · intro d rest opts h49 h57 hlen
    have hnum : numTok (48 :: d :: rest) 0 = .error ⟨.leadingZero, 1⟩ := by
      show (if d = 46 ∨ d = 101 ∨ d = 69 then contNum false [48] (d :: rest) (0 + 1)
        else if 49 ≤ d ∧ d ≤ 57 then .error ⟨.leadingZero, 0 + 1⟩
        else .ok (.int 0, d :: rest, 0 + 1)) = .error ⟨.leadingZero, 1⟩
      rw [if_neg (by omega), if_pos ⟨h49, h57⟩]
    have htok : tokensF ((48 :: d :: rest).length + 1) (48 :: d :: rest) 0 =
        .error ⟨.leadingZero, 1⟩ := by
      show (do
        let (t, rem2, off3) ← numTok (48 :: d :: rest) 0
        let ts ← tokensF (48 :: d :: rest).length rem2 off3
        Except.ok ((t, 0) :: ts)) = .error ⟨.leadingZero, 1⟩
      rw [hnum, err_bind]
    have htokz : tokenize (48 :: d :: rest) opts.maxInputLength =
        .error ⟨.leadingZero, 1⟩ := by
      rw [show tokenize (48 :: d :: rest) opts.maxInputLength =
        (if (48 :: d :: rest).length > opts.maxInputLength then
          .error ⟨.inputTooLong, 0⟩
         else tokensF ((48 :: d :: rest).length + 1) (48 :: d :: rest) 0) from rfl]
      rw [if_neg (by omega), htok]
    rw [parse_eq, htokz, err_bind]
  · intro d rest opts h49 h57 hlen
    have hnum : numTok (45 :: 48 :: d :: rest) 0 = .error ⟨.leadingZero, 2⟩ := by
      show (if d = 46 ∨ d = 101 ∨ d = 69 then contNum true [48] (d :: rest) (1 + 1)
        else if 49 ≤ d ∧ d ≤ 57 then .error ⟨.leadingZero, 1 + 1⟩
        else .ok (.int 0, d :: rest, 1 + 1)) = .error ⟨.leadingZero, 2⟩
      rw [if_neg (by omega), if_pos ⟨h49, h57⟩]
    have htok : tokensF ((45 :: 48 :: d :: rest).length + 1) (45 :: 48 :: d :: rest) 0 =
        .error ⟨.leadingZero, 2⟩ := by
      show (do
        let (t, rem2, off3) ← numTok (45 :: 48 :: d :: rest) 0
        let ts ← tokensF (45 :: 48 :: d :: rest).length rem2 off3
        Except.ok ((t, 0) :: ts)) = .error ⟨.leadingZero, 2⟩
      rw [hnum, err_bind]
    have htokz : tokenize (45 :: 48 :: d :: rest) opts.maxInputLength =
        .error ⟨.leadingZero, 2⟩ := by
      rw [show tokenize (45 :: 48 :: d :: rest) opts.maxInputLength =
        (if (45 :: 48 :: d :: rest).length > opts.maxInputLength then
          .error ⟨.inputTooLong, 0⟩
         else tokensF ((45 :: 48 :: d :: rest).length + 1) (45 :: 48 :: d :: rest) 0)
        from rfl]
      rw [if_neg (by omega), htok]
    rw [parse_eq, htokz, err_bind]

/-- Concrete check of C9 on the inputs 01 and -01. -/
theorem C9_leading_zero_witness :
    parse [48, 49] {} = .error ⟨.leadingZero, 1⟩ ∧
    parse [45, 48, 49] {} = .error ⟨.leadingZero, 2⟩ :=
  ⟨C9_leading_zero.2.1 49 [] {} (by decide) (by decide) (by decide),
   C9_leading_zero.2.2 49 [] {} (by decide) (by decide) (by decide)⟩


/-! ## Invalid escapes are lex errors -/

theorem lexStr_succ (q fuel c : Nat) (rest : List Nat) (off : Nat)
    (acc : List Nat) :
    lexStr q (fuel + 1) (c :: rest) off acc =
      (if c = q then .ok (acc, rest, off + 1)
       else if c = 92 then
         (match rest with
          | [] => .error ⟨.unclosedString, off + 1⟩
          | next :: rest2 =>
            if next = q then lexStr q fuel rest2 (off + 2) (acc ++ [q])
            else if next = 92 then lexStr q fuel rest2 (off + 2) (acc ++ [92])
            else if next = 47 then lexStr q fuel rest2 (off + 2) (acc ++ [47])
            else if next = 98 then lexStr q fuel rest2 (off + 2) (acc ++ [8])
            else if next = 102 then lexStr q fuel rest2 (off + 2) (acc ++ [12])
            else if next = 110 then lexStr q fuel rest2 (off + 2) (acc ++ [10])
            else if next = 114 then lexStr q fuel rest2 (off + 2) (acc ++ [13])
            else if next = 116 then lexStr q fuel rest2 (off + 2) (acc ++ [9])
            else if next = 117 then
              (match rest2 with
              | [] => .error ⟨.incompleteUEscape, off + 2⟩
              | h1 :: r1 =>
                if ¬ isHex h1 then .error ⟨.invalidUEscape, off + 3⟩
                else match r1 with
                | [] => .error ⟨.incompleteUEscape, off + 3⟩
                | h2 :: r2 =>
                  if ¬ isHex h2 then .error ⟨.invalidUEscape, off + 4⟩
                  else match r2 with
                  | [] => .error ⟨.incompleteUEscape, off + 4⟩
                  | h3 :: r3 =>
                    if ¬ isHex h3 then .error ⟨.invalidUEscape, off + 5⟩
                    else match r3 with
                    | [] => .error ⟨.incompleteUEscape, off + 5⟩
                    | h4 :: r4 =>
                      if ¬ isHex h4 then .error ⟨.invalidUEscape, off + 6⟩
                      else lexStr q fuel r4 (off + 6)
                        (acc ++ [hexVal h1 * 4096 + hexVal h2 * 256 +
                          hexVal h3 * 16 + hexVal h4]))
            else .error ⟨.invalidEscape next, off + 2⟩)
       else if c ≤ 31 then .error ⟨.controlChar, off + 1⟩
       else lexStr q fuel rest (off + 1) (acc ++ [c])) := rfl

theorem lexStr_step (q x fuel : Nat) (L : List Nat) (off : Nat) (acc : List Nat)
    (hx : strCharOk q x = true) :
    lexStr q (fuel + 1) (x :: L) off acc = lexStr q fuel L (off + 1) (acc ++ [x]) := by
  have hx2 : ¬ (x = q ∨ x = 92 ∨ x ≤ 31) := by simpa [strCharOk] using hx
  rw [lexStr_succ, if_neg (fun h => hx2 (Or.inl h)),
    if_neg (fun h => hx2 (Or.inr (Or.inl h))),
    if_neg (fun h => hx2 (Or.inr (Or.inr h)))]

theorem lexStr_lift (q : Nat) (tail : List Nat) (P : TErr → Prop)
    (h : ∀ f off acc, ∃ e, lexStr q (f + 1) tail off acc = .error e ∧ P e) :
    ∀ (s : List Nat) (f : Nat) (off : Nat) (acc : List Nat),
      (∀ x ∈ s, strCharOk q x = true) →
      ∃ e, lexStr q (s.length + f + 1) (s ++ tail) off acc = .error e ∧ P e := by
  intro s
  induction s with
  | nil => intro f off acc _; simpa using h f off acc
  | cons x s2 ih =>
    intro f off acc hs
    rw [show (x :: s2) ++ tail = x :: (s2 ++ tail) from rfl,
      show (x :: s2).length + f + 1 = (s2.length + f + 1) + 1 by
        simp [List.length_cons]; omega,
      lexStr_step q x (s2.length + f + 1) (s2 ++ tail) off acc (hs x (by simp))]
    exact ih f (off + 1) (acc ++ [x]) (fun u hu => hs u (by simp [hu]))

theorem lexStr_escape_err (q c : Nat) (hq : q = 34 ∨ q = 39) (hcq : c ≠ q)
    (hc : c ∉ ([92, 47, 98, 102, 110, 114, 116, 117] : List Nat)) :
    ∀ (f : Nat) (rest : List Nat) (off : Nat) (acc : List Nat),
      lexStr q (f + 1) (92 :: c :: rest) off acc =
        .error ⟨.invalidEscape c, off + 2⟩ := by
  intro f rest off acc
  have hn : ∀ m : Nat, m ∈ ([92, 47, 98, 102, 110, 114, 116, 117] : List Nat) →
      ¬ c = m := fun m hm h => hc (h ▸ hm)
  rw [lexStr_succ, if_neg (by omega : ¬ (92 = q)), if_pos rfl]
  simp only []
  rw [if_neg hcq, if_neg (hn 92 (by decide)), if_neg (hn 47 (by decide)),
    if_neg (hn 98 (by decide)), if_neg (hn 102 (by decide)),
    if_neg (hn 110 (by decide)), if_neg (hn 114 (by decide)),
    if_neg (hn 116 (by decide)), if_neg (hn 117 (by decide))]

theorem lexStr_u_err (q : Nat) (hq : q = 34 ∨ q = 39) :
    ∀ (f : Nat) (rest : List Nat) (off : Nat) (acc : List Nat),
      noHex4 rest = true →
      ∃ e, lexStr q (f + 1) (92 :: 117 :: rest) off acc = .error e ∧
        (e.msg = .incompleteUEscape ∨ e.msg = .invalidUEscape) := by
  intro f rest off acc hr
  rw [lexStr_succ, if_neg (by omega : ¬ (92 = q)), if_pos rfl]
  simp only []
  rw [if_neg (by omega : ¬ (117 = q)), if_neg (by decide : ¬ (117 = 92)),
    if_neg (by decide : ¬ (117 = 47)), if_neg (by decide : ¬ (117 = 98)),
    if_neg (by decide : ¬ (117 = 102)), if_neg (by decide : ¬ (117 = 110)),
    if_neg (by decide : ¬ (117 = 114)), if_neg (by decide : ¬ (117 = 116)),
    if_pos trivial]
  rcases rest with _ | ⟨h1, _ | ⟨h2, _ | ⟨h3, _ | ⟨h4, r4⟩⟩⟩⟩
  · exact ⟨⟨.incompleteUEscape, off + 2⟩, rfl, Or.inl rfl⟩
  · simp only []
    by_cases hh1 : isHex h1 = true
    · rw [if_neg (by simp [hh1])]
      exact ⟨⟨.incompleteUEscape, off + 3⟩, rfl, Or.inl rfl⟩
    · rw [if_pos (by simpa using hh1)]
      exact ⟨⟨.invalidUEscape, off + 3⟩, rfl, Or.inr rfl⟩
  · simp only []
    by_cases hh1 : isHex h1 = true
    · rw [if_neg (by simp [hh1])]
      by_cases hh2 : isHex h2 = true
      · rw [if_neg (by simp [hh2])]
        exact ⟨⟨.incompleteUEscape, off + 4⟩, rfl, Or.inl rfl⟩
      · rw [if_pos (by simpa using hh2)]
        exact ⟨⟨.invalidUEscape, off + 4⟩, rfl, Or.inr rfl⟩
    · rw [if_pos (by simpa using hh1)]
      exact ⟨⟨.invalidUEscape, off + 3⟩, rfl, Or.inr rfl⟩
  · simp only []
    by_cases hh1 : isHex h1 = true
    · rw [if_neg (by simp [hh1])]
      by_cases hh2 : isHex h2 = true
      · rw [if_neg (by simp [hh2])]
        by_cases hh3 : isHex h3 = true
        · rw [if_neg (by simp [hh3])]
          exact ⟨⟨.incompleteUEscape, off + 5⟩, rfl, Or.inl rfl⟩
        · rw [if_pos (by simpa using hh3)]
          exact ⟨⟨.invalidUEscape, off + 5⟩, rfl, Or.inr rfl⟩
      · rw [if_pos (by simpa using hh2)]
        exact ⟨⟨.invalidUEscape, off + 4⟩, rfl, Or.inr rfl⟩
    · rw [if_pos (by simpa using hh1)]
      exact ⟨⟨.invalidUEscape, off + 3⟩, rfl, Or.inr rfl⟩
  · simp only []
    by_cases hh1 : isHex h1 = true
    · rw [if_neg (by simp [hh1])]
      by_cases hh2 : isHex h2 = true
      · rw [if_neg (by simp [hh2])]
        by_cases hh3 : isHex h3 = true
        · rw [if_neg (by simp [hh3])]
          by_cases hh4 : isHex h4 = true
          · exfalso
            have : noHex4 (h1 :: h2 :: h3 :: h4 :: r4) = false := by
              simp [noHex4, hh1, hh2, hh3, hh4]
            rw [this] at hr
            cases hr
          · rw [if_pos (by simpa using hh4)]
            exact ⟨⟨.invalidUEscape, off + 6⟩, rfl, Or.inr rfl⟩
        · rw [if_pos (by simpa using hh3)]
          exact ⟨⟨.invalidUEscape, off + 5⟩, rfl, Or.inr rfl⟩
      · rw [if_pos (by simpa using hh2)]
        exact ⟨⟨.invalidUEscape, off + 4⟩, rfl, Or.inr rfl⟩
    · rw [if_pos (by simpa using hh1)]
      exact ⟨⟨.invalidUEscape, off + 3⟩, rfl, Or.inr rfl⟩

/-- parse fails as soon as the string scanner fails on an input that opens
with a quote. -/
theorem parse_err_of_lexStr (q : Nat) (hq : q = 34 ∨ q = 39)
    (X : List Nat) (opts : ParseOptions) (e : TErr)
    (hX : lexStr q (X.length + 1) X 1 [] = .error e)
    (hlen : (q :: X).length ≤ opts.maxInputLength) :
    parse (q :: X) opts = .error e := by
  have htok : tokensF ((q :: X).length + 1) (q :: X) 0 = .error e := by
    rcases hq with rfl | rfl
    · show (do
        let (sv, rem2, off3) ← lexStr 34 (X.length + 1) X 1 []
        let ts ← tokensF (34 :: X).length rem2 off3
        Except.ok ((Tok.str sv, 0) :: ts)) = .error e
      rw [hX, err_bind]
    · show (do
        let (sv, rem2, off3) ← lexStr 39 (X.length + 1) X 1 []
        let ts ← tokensF (39 :: X).length rem2 off3
        Except.ok ((Tok.str sv, 0) :: ts)) = .error e
      rw [hX, err_bind]
    
  have htokz : tokenize (q :: X) opts.maxInputLength = .error e := by
    rw [show tokenize (q :: X) opts.maxInputLength =
      (if (q :: X).length > opts.maxInputLength then .error ⟨.inputTooLong, 0⟩
       else tokensF ((q :: X).length + 1) (q :: X) 0) from rfl]
    rw [if_neg (by omega), htok]
  rw [parse_eq, htokz, err_bind]

/-- C7: a backslash escape in a quoted string whose escape character is not
the active quote, backslash, slash, b, f, n, r, t, or a u followed by four hex
digits, makes the lexer fail, and parse with it: the first part for a
non-quote non-u escape character, reported as the invalid-escape error, the
second for u escapes not followed by four hex digits, reported as the
incomplete or invalid u-escape error. -/
theorem C7_invalid_escape :
    (∀ (q c : Nat) (s rest : List Nat) (opts : ParseOptions),
      (q = 34 ∨ q = 39) → c ≠ q →
      c ∉ ([92, 47, 98, 102, 110, 114, 116, 117] : List Nat) →
      (∀ x ∈ s, strCharOk q x = true) →
      (q :: (s ++ 92 :: c :: rest)).length ≤ opts.maxInputLength →
      ∃ o, parse (q :: (s ++ 92 :: c :: rest)) opts =
        .error ⟨.invalidEscape c, o⟩) ∧
    (∀ (q : Nat) (s rest : List Nat) (opts : ParseOptions),
      (q = 34 ∨ q = 39) →
      (∀ x ∈ s, strCharOk q x = true) →
      noHex4 rest = true →
      (q :: (s ++ 92 :: 117 :: rest)).length ≤ opts.maxInputLength →
      ∃ e, parse (q :: (s ++ 92 :: 117 :: rest)) opts = .error e ∧
        (e.msg = .incompleteUEscape ∨ e.msg = .invalidUEscape)) := by
  constructor
  · intro q c s rest opts hq hcq hc hs hlen
    obtain ⟨e, he, o, rfl⟩ := lexStr_lift q (92 :: c :: rest)
      (fun e => ∃ o, e = ⟨.invalidEscape c, o⟩)
      (fun f off acc => ⟨⟨.invalidEscape c, off + 2⟩,
        lexStr_escape_err q c hq hcq hc f rest off acc, off + 2, rfl⟩)
      s (92 :: c :: rest).length 1 [] hs
    rw [show s.length + (92 :: c :: rest).length + 1 =
      (s ++ 92 :: c :: rest).length + 1 by simp [List.length_append]] at he
    exact ⟨o, parse_err_of_lexStr q hq (s ++ 92 :: c :: rest) opts _ he hlen⟩
  · intro q s rest opts hq hs hhex hlen
    obtain ⟨e, he, hm⟩ := lexStr_lift q (92 :: 117 :: rest)
      (fun e => e.msg = .incompleteUEscape ∨ e.msg = .invalidUEscape)
      (fun f off acc => lexStr_u_err q hq f rest off acc hhex)
      s (92 :: 117 :: rest).length 1 [] hs
    rw [show s.length + (92 :: 117 :: rest).length + 1 =
      (s ++ 92 :: 117 :: rest).length + 1 by simp [List.length_append]] at he
    exact ⟨e, parse_err_of_lexStr q hq (s ++ 92 :: 117 :: rest) opts e he hlen, hm⟩

/-- Concrete check of C7: the five-character input quote a backslash q quote,
and a u escape with only two hex digits. -/
theorem C7_invalid_escape_witness :
    (∃ o, parse [34, 97, 92, 113, 34] {} = .error ⟨.invalidEscape 113, o⟩) ∧
    (∃ e, parse [34, 92, 117, 48, 48, 34] {} = .error e ∧
      (e.msg = .incompleteUEscape ∨ e.msg = .invalidUEscape)) :=
  ⟨C7_invalid_escape.1 34 113 [97] [34] {} (Or.inl rfl) (by decide) (by decide)
      (by decide) (by decide),
   C7_invalid_escape.2 34 [] [48, 48, 34] {} (Or.inl rfl) (by decide) (by decide)
      (by decide)⟩


/-! ## Walking the parser: properties of every parsed value -/

theorem parseValueP_succ (md fuel depth : Nat) (ts : List (Tok × Nat)) :
    parseValueP md (fuel + 1) depth ts =
      (if depth > md then .error ⟨.depthExceeded, (curT ts).2⟩
       else
         match (curT ts).1 with
         | .lbrace => parseObjP md fuel depth (advT ts) []
         | .lbracket => parseArrP md fuel depth (advT ts) []
         | .str s => .ok (.str s, advT ts)
         | .ident s => .ok (.str s, advT ts)
         | .int n => .ok (.int n, advT ts)
         | .float raw => .ok (.float raw, advT ts)
         | .tTrue => .ok (.bool true, advT ts)
         | .tFalse => .ok (.bool false, advT ts)
         | .tNull => .ok (.null, advT ts)
         | t => .error ⟨.unexpectedToken t, (curT ts).2⟩) := rfl

theorem parseObjP_succ (md fuel depth : Nat) (ts : List (Tok × Nat))
    (obj : List (List Nat × TValue)) :
    parseObjP md (fuel + 1) depth ts obj =
      (match (curT ts).1 with
       | .rbrace => .ok (.obj obj, advT ts)
       | .ident key => parseObjEntryP md fuel depth key (curT ts).2 (advT ts) obj
       | .str key => parseObjEntryP md fuel depth key (curT ts).2 (advT ts) obj
       | _ => .error ⟨.expectedKey, (curT ts).2⟩) := rfl

theorem parseObjEntryP_succ (md fuel depth : Nat) (key : List Nat) (kOff : Nat)
    (ts : List (Tok × Nat)) (obj : List (List Nat × TValue)) :
    parseObjEntryP md (fuel + 1) depth key kOff ts obj = (do
      let ts2 := if (curT ts).1 = .colon then advT ts else ts
      let (v, ts3) ← parseValueP md fuel (depth + 1) ts2
      if key ∈ obj.map Prod.fst then .error ⟨.duplicateKey key, kOff⟩
      else
        let ts4 := if (curT ts3).1 = .comma then advT ts3 else ts3
        parseObjP md fuel depth ts4 (obj ++ [(key, v)])) := rfl

theorem parseArrP_succ (md fuel depth : Nat) (ts : List (Tok × Nat))
    (arr : List TValue) :
    parseArrP md (fuel + 1) depth ts arr =
      (match (curT ts).1 with
       | .rbracket => .ok (.arr arr, advT ts)
       | _ => do
         let (v, ts2) ← parseValueP md fuel (depth + 1) ts
         let ts3 := if (curT ts2).1 = .comma then advT ts2 else ts2
         parseArrP md fuel depth ts3 (arr ++ [v])) := rfl

theorem parseRootP_succ (md fuel : Nat) (ts : List (Tok × Nat))
    (obj : List (List Nat × TValue)) :
    parseRootP md (fuel + 1) ts obj =
      (match (curT ts).1 with
       | .ident key => do
         let kOff := (curT ts).2
         let ts1 := advT ts
         let ts2 := if (curT ts1).1 = .colon then advT ts1 else ts1
         let (v, ts3) ← parseValueP md fuel 1 ts2
         if key ∈ obj.map Prod.fst then .error ⟨.duplicateKey key, kOff⟩
         else parseRootP md fuel ts3 (obj ++ [(key, v)])
       | .str key => do
         let kOff := (curT ts).2
         let ts1 := advT ts
         let ts2 := if (curT ts1).1 = .colon then advT ts1 else ts1
         let (v, ts3) ← parseValueP md fuel 1 ts2
         if key ∈ obj.map Prod.fst then .error ⟨.duplicateKey key, kOff⟩
         else parseRootP md fuel ts3 (obj ++ [(key, v)])
       | _ => .ok (.obj obj, ts)) := rfl

theorem parser_walk (md : Nat) (R : Nat → TValue → Prop)
    (hnull : ∀ d, d ≤ md → R d .null)
    (hbool : ∀ d b, d ≤ md → R d (.bool b))
    (hint : ∀ d n, d ≤ md → R d (.int n))
    (hfloat : ∀ d r, d ≤ md → R d (.float r))
    (hstr : ∀ d s2, d ≤ md → R d (.str s2))
    (harr : ∀ d l, d ≤ md → (∀ u ∈ l, R (d + 1) u) → R d (.arr l))
    (hobj : ∀ d l, d ≤ md → (∀ kv ∈ l, R (d + 1) kv.2) →
      ((l.map Prod.fst).Nodup) → R d (.obj l)) :
    ∀ fuel : Nat,
      (∀ depth ts v ts2, parseValueP md fuel depth ts = .ok (v, ts2) → R depth v) ∧
      (∀ depth ts obj v ts2, depth ≤ md → (∀ kv ∈ obj, R (depth + 1) kv.2) →
        ((obj.map Prod.fst).Nodup) →
        parseObjP md fuel depth ts obj = .ok (v, ts2) → R depth v) ∧
      (∀ depth key kOff ts obj v ts2, depth ≤ md →
        (∀ kv ∈ obj, R (depth + 1) kv.2) →
        ((obj.map Prod.fst).Nodup) →
        parseObjEntryP md fuel depth key kOff ts obj = .ok (v, ts2) → R depth v) ∧
      (∀ depth ts arr v ts2, depth ≤ md → (∀ u ∈ arr, R (depth + 1) u) →
        parseArrP md fuel depth ts arr = .ok (v, ts2) → R depth v) := by
  intro fuel
  induction fuel with
  | zero =>
    refine ⟨fun depth ts v ts2 h => ?_, fun depth ts obj v ts2 _ _ _ h => ?_,
      fun depth key kOff ts obj v ts2 _ _ _ h => ?_,
      fun depth ts arr v ts2 _ _ h => ?_⟩
    · rw [show parseValueP md 0 depth ts =
        Except.error ⟨.fuelExhausted, (curT ts).2⟩ from rfl] at h
      cases h
    · rw [show parseObjP md 0 depth ts obj =
        Except.error ⟨.fuelExhausted, (curT ts).2⟩ from rfl] at h
      cases h
    · rw [show parseObjEntryP md 0 depth key kOff ts obj =
        Except.error ⟨.fuelExhausted, (curT ts).2⟩ from rfl] at h
      cases h
    · rw [show parseArrP md 0 depth ts arr =
        Except.error ⟨.fuelExhausted, (curT ts).2⟩ from rfl] at h
      cases h
  | succ n ih =>
    obtain ⟨ih1, ih2, ih3, ih4⟩ := ih
    refine ⟨?_, ?_, ?_, ?_⟩
    · intro depth ts v ts2 h
      rw [parseValueP_succ] at h
      by_cases hd : depth > md
      · rw [if_pos hd] at h; cases h
      · rw [if_neg hd] at h
        have hdm : depth ≤ md := by omega
        cases htk : (curT ts).1 with
        | lbrace =>
          rw [htk] at h
          simp only [] at h
          exact ih2 depth (advT ts) [] v ts2 hdm (fun kv hkv => by cases hkv)
            List.nodup_nil h
        | lbracket =>
          rw [htk] at h
          simp only [] at h
          exact ih4 depth (advT ts) [] v ts2 hdm (fun u hu => by cases hu) h
        | str s2 => rw [htk] at h; simp only [] at h; cases h; exact hstr depth s2 hdm
        | ident s2 => rw [htk] at h; simp only [] at h; cases h; exact hstr depth s2 hdm
        | int n2 => rw [htk] at h; simp only [] at h; cases h; exact hint depth n2 hdm
        | float r2 => rw [htk] at h; simp only [] at h; cases h; exact hfloat depth r2 hdm
        | tTrue => rw [htk] at h; simp only [] at h; cases h; exact hbool depth true hdm
        | tFalse => rw [htk] at h; simp only [] at h; cases h; exact hbool depth false hdm
        | tNull => rw [htk] at h; simp only [] at h; cases h; exact hnull depth hdm
        | rbrace => rw [htk] at h; simp only [] at h; cases h
        | rbracket => rw [htk] at h; simp only [] at h; cases h
        | colon => rw [htk] at h; simp only [] at h; cases h
        | comma => rw [htk] at h; simp only [] at h; cases h
        | eof => rw [htk] at h; simp only [] at h; cases h
    · intro depth ts obj v ts2 hdm hacc hnd h
      rw [parseObjP_succ] at h
      cases htk : (curT ts).1 with
      | rbrace =>
        rw [htk] at h
        simp only [] at h
        cases h
        exact hobj depth obj hdm hacc hnd
      | ident key =>
        rw [htk] at h
        simp only [] at h
        exact ih3 depth key (curT ts).2 (advT ts) obj v ts2 hdm hacc hnd h
      | str key =>
        rw [htk] at h
        simp only [] at h
        exact ih3 depth key (curT ts).2 (advT ts) obj v ts2 hdm hacc hnd h
      | lbrace => rw [htk] at h; simp only [] at h; cases h
      | lbracket => rw [htk] at h; simp only [] at h; cases h
      | rbracket => rw [htk] at h; simp only [] at h; cases h
      | colon => rw [htk] at h; simp only [] at h; cases h
      | comma => rw [htk] at h; simp only [] at h; cases h
      | int n2 => rw [htk] at h; simp only [] at h; cases h
      | float r2 => rw [htk] at h; simp only [] at h; cases h
      | tTrue => rw [htk] at h; simp only [] at h; cases h
      | tFalse => rw [htk] at h; simp only [] at h; cases h
      | tNull => rw [htk] at h; simp only [] at h; cases h
      | eof => rw [htk] at h; simp only [] at h; cases h
    · intro depth key kOff ts obj v ts2 hdm hacc hnd h
      rw [parseObjEntryP_succ] at h
      simp only [] at h
      cases hv : parseValueP md n (depth + 1)
          (if (curT ts).1 = .colon then advT ts else ts) with
      | error e => rw [hv, err_bind] at h; cases h
      | ok p =>
        obtain ⟨v1, ts3⟩ := p
        rw [hv, ok_bind] at h
        simp only [] at h
        by_cases hkey : key ∈ obj.map Prod.fst
        · rw [if_pos hkey] at h; cases h
        · rw [if_neg hkey] at h
          refine ih2 depth (if (curT ts3).1 = .comma then advT ts3 else ts3)
            (obj ++ [(key, v1)]) v ts2 hdm (fun kv hkv => ?_) ?_ h
          · rcases List.mem_append.mp hkv with h2 | h2
            · exact hacc kv h2
            · rcases List.mem_singleton.mp h2 with rfl
              exact ih1 (depth + 1) _ _ _ hv
          · rw [List.map_append]
            refine List.Nodup.append hnd (List.nodup_singleton _) ?_
            intro a ha hb
            rcases List.mem_singleton.mp hb with rfl
            exact hkey ha
    · intro depth ts arr v ts2 hdm hall h
      rw [parseArrP_succ] at h
      cases htk : (curT ts).1 with
      | rbracket =>
        rw [htk] at h
        simp only [] at h
        cases h
        exact harr depth arr hdm hall
      | lbrace =>
        rw [htk] at h
        simp only [] at h
        cases hv : parseValueP md n (depth + 1) ts with
        | error e => rw [hv, err_bind] at h; cases h
        | ok p =>
          obtain ⟨v1, ts3⟩ := p
          rw [hv, ok_bind] at h
          simp only [] at h
          refine ih4 depth _ (arr ++ [v1]) v ts2 hdm (fun u hu => ?_) h
          rcases List.mem_append.mp hu with h2 | h2
          · exact hall u h2
          · rcases List.mem_singleton.mp h2 with rfl
            exact ih1 (depth + 1) _ _ _ hv
      | lbracket =>
        rw [htk] at h
        simp only [] at h
        cases hv : parseValueP md n (depth + 1) ts with
        | error e => rw [hv, err_bind] at h; cases h
        | ok p =>
          obtain ⟨v1, ts3⟩ := p
          rw [hv, ok_bind] at h
          simp only [] at h
          refine ih4 depth _ (arr ++ [v1]) v ts2 hdm (fun u hu => ?_) h
          rcases List.mem_append.mp hu with h2 | h2
          · exact hall u h2
          · rcases List.mem_singleton.mp h2 with rfl
            exact ih1 (depth + 1) _ _ _ hv
      | rbrace =>
        rw [htk] at h
        simp only [] at h
        cases hv : parseValueP md n (depth + 1) ts with
        | error e => rw [hv, err_bind] at h; cases h
        | ok p =>
          obtain ⟨v1, ts3⟩ := p
          rw [hv, ok_bind] at h
          simp only [] at h
          refine ih4 depth _ (arr ++ [v1]) v ts2 hdm (fun u hu => ?_) h
          rcases List.mem_append.mp hu with h2 | h2
          · exact hall u h2
          · rcases List.mem_singleton.mp h2 with rfl
            exact ih1 (depth + 1) _ _ _ hv
      | colon =>
        rw [htk] at h
        simp only [] at h
        cases hv : parseValueP md n (depth + 1) ts with
        | error e => rw [hv, err_bind] at h; cases h
        | ok p =>
          obtain ⟨v1, ts3⟩ := p
          rw [hv, ok_bind] at h
          simp only [] at h
          refine ih4 depth _ (arr ++ [v1]) v ts2 hdm (fun u hu => ?_) h
          rcases List.mem_append.mp hu with h2 | h2
          · exact hall u h2
          · rcases List.mem_singleton.mp h2 with rfl
            exact ih1 (depth + 1) _ _ _ hv
      | comma =>
        rw [htk] at h
        simp only [] at h
        cases hv : parseValueP md n (depth + 1) ts with
        | error e => rw [hv, err_bind] at h; cases h
        | ok p =>
          obtain ⟨v1, ts3⟩ := p
          rw [hv, ok_bind] at h
          simp only [] at h
          refine ih4 depth _ (arr ++ [v1]) v ts2 hdm (fun u hu => ?_) h
          rcases List.mem_append.mp hu with h2 | h2
          · exact hall u h2
          · rcases List.mem_singleton.mp h2 with rfl
            exact ih1 (depth + 1) _ _ _ hv
      | str s2 =>
        rw [htk] at h
        simp only [] at h
        cases hv : parseValueP md n (depth + 1) ts with
        | error e => rw [hv, err_bind] at h; cases h
        | ok p =>
          obtain ⟨v1, ts3⟩ := p
          rw [hv, ok_bind] at h
          simp only [] at h
          refine ih4 depth _ (arr ++ [v1]) v ts2 hdm (fun u hu => ?_) h
          rcases List.mem_append.mp hu with h2 | h2
          · exact hall u h2
          · rcases List.mem_singleton.mp h2 with rfl
            exact ih1 (depth + 1) _ _ _ hv
      | ident s2 =>
        rw [htk] at h
        simp only [] at h
        cases hv : parseValueP md n (depth + 1) ts with
        | error e => rw [hv, err_bind] at h; cases h
        | ok p =>
          obtain ⟨v1, ts3⟩ := p
          rw [hv, ok_bind] at h
          simp only [] at h
          refine ih4 depth _ (arr ++ [v1]) v ts2 hdm (fun u hu => ?_) h
          rcases List.mem_append.mp hu with h2 | h2
          · exact hall u h2
          · rcases List.mem_singleton.mp h2 with rfl
            exact ih1 (depth + 1) _ _ _ hv
      | int n2 =>
        rw [htk] at h
        simp only [] at h
        cases hv : parseValueP md n (depth + 1) ts with
        | error e => rw [hv, err_bind] at h; cases h
        | ok p =>
          obtain ⟨v1, ts3⟩ := p
          rw [hv, ok_bind] at h
          simp only [] at h
          refine ih4 depth _ (arr ++ [v1]) v ts2 hdm (fun u hu => ?_) h
          rcases List.mem_append.mp hu with h2 | h2
          · exact hall u h2
          · rcases List.mem_singleton.mp h2 with rfl
            exact ih1 (depth + 1) _ _ _ hv
      | float r2 =>
        rw [htk] at h
        simp only [] at h
        cases hv : parseValueP md n (depth + 1) ts with
        | error e => rw [hv, err_bind] at h; cases h
        | ok p =>
          obtain ⟨v1, ts3⟩ := p
          rw [hv, ok_bind] at h
          simp only [] at h
          refine ih4 depth _ (arr ++ [v1]) v ts2 hdm (fun u hu => ?_) h
          rcases List.mem_append.mp hu with h2 | h2
          · exact hall u h2
          · rcases List.mem_singleton.mp h2 with rfl
            exact ih1 (depth + 1) _ _ _ hv
      | tTrue =>
        rw [htk] at h
        simp only [] at h
        cases hv : parseValueP md n (depth + 1) ts with
        | error e => rw [hv, err_bind] at h; cases h
        | ok p =>
          obtain ⟨v1, ts3⟩ := p
          rw [hv, ok_bind] at h
          simp only [] at h
          refine ih4 depth _ (arr ++ [v1]) v ts2 hdm (fun u hu => ?_) h
          rcases List.mem_append.mp hu with h2 | h2
          · exact hall u h2
          · rcases List.mem_singleton.mp h2 with rfl
            exact ih1 (depth + 1) _ _ _ hv
      | tFalse =>
        rw [htk] at h
        simp only [] at h
        cases hv : parseValueP md n (depth + 1) ts with
        | error e => rw [hv, err_bind] at h; cases h
        | ok p =>
          obtain ⟨v1, ts3⟩ := p
          rw [hv, ok_bind] at h
          simp only [] at h
          refine ih4 depth _ (arr ++ [v1]) v ts2 hdm (fun u hu => ?_) h
          rcases List.mem_append.mp hu with h2 | h2
          · exact hall u h2
          · rcases List.mem_singleton.mp h2 with rfl
            exact ih1 (depth + 1) _ _ _ hv
      | tNull =>
        rw [htk] at h
        simp only [] at h
        cases hv : parseValueP md n (depth + 1) ts with
        | error e => rw [hv, err_bind] at h; cases h
        | ok p =>
          obtain ⟨v1, ts3⟩ := p
          rw [hv, ok_bind] at h
          simp only [] at h
          refine ih4 depth _ (arr ++ [v1]) v ts2 hdm (fun u hu => ?_) h
          rcases List.mem_append.mp hu with h2 | h2
          · exact hall u h2
          · rcases List.mem_singleton.mp h2 with rfl
            exact ih1 (depth + 1) _ _ _ hv
      | eof =>
        rw [htk] at h
        simp only [] at h
        cases hv : parseValueP md n (depth + 1) ts with
        | error e => rw [hv, err_bind] at h; cases h
        | ok p =>
          obtain ⟨v1, ts3⟩ := p
          rw [hv, ok_bind] at h
          simp only [] at h
          refine ih4 depth _ (arr ++ [v1]) v ts2 hdm (fun u hu => ?_) h
          rcases List.mem_append.mp hu with h2 | h2
          · exact hall u h2
          · rcases List.mem_singleton.mp h2 with rfl
            exact ih1 (depth + 1) _ _ _ hv


theorem parser_walk_root (md : Nat) (R : Nat → TValue → Prop)
    (hnull : ∀ d, d ≤ md → R d .null)
    (hbool : ∀ d b, d ≤ md → R d (.bool b))
    (hint : ∀ d n, d ≤ md → R d (.int n))
    (hfloat : ∀ d r, d ≤ md → R d (.float r))
    (hstr : ∀ d s2, d ≤ md → R d (.str s2))
    (harr : ∀ d l, d ≤ md → (∀ u ∈ l, R (d + 1) u) → R d (.arr l))
    (hobj : ∀ d l, d ≤ md → (∀ kv ∈ l, R (d + 1) kv.2) →
      ((l.map Prod.fst).Nodup) → R d (.obj l)) :
    ∀ (fuel : Nat) (ts : List (Tok × Nat)) (obj : List (List Nat × TValue))
      (v : TValue) (ts2 : List (Tok × Nat)),
      (∀ kv ∈ obj, R 1 kv.2) → ((obj.map Prod.fst).Nodup) →
      parseRootP md fuel ts obj = .ok (v, ts2) → R 0 v := by
  intro fuel
  induction fuel with
  | zero =>
    intro ts obj v ts2 _ _ h
    rw [show parseRootP md 0 ts obj =
      Except.error ⟨.fuelExhausted, (curT ts).2⟩ from rfl] at h
    cases h
  | succ n ih =>
    intro ts obj v ts2 hacc hnd h
    rw [parseRootP_succ] at h
    cases htk : (curT ts).1 with
    | ident key =>
      rw [htk] at h
      simp only [] at h
      cases hv : parseValueP md n 1
          (if (curT (advT ts)).1 = .colon then advT (advT ts) else advT ts) with
      | error e => rw [hv, err_bind] at h; cases h
      | ok p =>
        obtain ⟨v1, ts3⟩ := p
        rw [hv, ok_bind] at h
        simp only [] at h
        by_cases hkey : key ∈ obj.map Prod.fst
        · rw [if_pos hkey] at h; cases h
        · rw [if_neg hkey] at h
          refine ih ts3 (obj ++ [(key, v1)]) v ts2 (fun kv hkv => ?_) ?_ h
          · rcases List.mem_append.mp hkv with h2 | h2
            · exact hacc kv h2
            · rcases List.mem_singleton.mp h2 with rfl
              exact (parser_walk md R hnull hbool hint hfloat hstr harr hobj n).1
                1 _ _ _ hv
          · rw [List.map_append]
            refine List.Nodup.append hnd (List.nodup_singleton _) ?_
            intro a ha hb
            rcases List.mem_singleton.mp hb with rfl
            exact hkey ha
    | str key =>
      rw [htk] at h
      simp only [] at h
      cases hv : parseValueP md n 1
          (if (curT (advT ts)).1 = .colon then advT (advT ts) else advT ts) with
      | error e => rw [hv, err_bind] at h; cases h
      | ok p =>
        obtain ⟨v1, ts3⟩ := p
        rw [hv, ok_bind] at h
        simp only [] at h
        by_cases hkey : key ∈ obj.map Prod.fst
        · rw [if_pos hkey] at h; cases h
        · rw [if_neg hkey] at h
          refine ih ts3 (obj ++ [(key, v1)]) v ts2 (fun kv hkv => ?_) ?_ h
          · rcases List.mem_append.mp hkv with h2 | h2
            · exact hacc kv h2
            · rcases List.mem_singleton.mp h2 with rfl
              exact (parser_walk md R hnull hbool hint hfloat hstr harr hobj n).1
                1 _ _ _ hv
          · rw [List.map_append]
            refine List.Nodup.append hnd (List.nodup_singleton _) ?_
            intro a ha hb
            rcases List.mem_singleton.mp hb with rfl
            exact hkey ha
    | lbrace => rw [htk] at h; simp only [] at h; cases h; exact hobj 0 obj (Nat.zero_le md) hacc hnd
    | lbracket => rw [htk] at h; simp only [] at h; cases h; exact hobj 0 obj (Nat.zero_le md) hacc hnd
    | rbrace => rw [htk] at h; simp only [] at h; cases h; exact hobj 0 obj (Nat.zero_le md) hacc hnd
    | rbracket => rw [htk] at h; simp only [] at h; cases h; exact hobj 0 obj (Nat.zero_le md) hacc hnd
    | colon => rw [htk] at h; simp only [] at h; cases h; exact hobj 0 obj (Nat.zero_le md) hacc hnd
    | comma => rw [htk] at h; simp only [] at h; cases h; exact hobj 0 obj (Nat.zero_le md) hacc hnd
    | int n2 => rw [htk] at h; simp only [] at h; cases h; exact hobj 0 obj (Nat.zero_le md) hacc hnd
    | float r2 => rw [htk] at h; simp only [] at h; cases h; exact hobj 0 obj (Nat.zero_le md) hacc hnd
    | tTrue => rw [htk] at h; simp only [] at h; cases h; exact hobj 0 obj (Nat.zero_le md) hacc hnd
    | tFalse => rw [htk] at h; simp only [] at h; cases h; exact hobj 0 obj (Nat.zero_le md) hacc hnd
    | tNull => rw [htk] at h; simp only [] at h; cases h; exact hobj 0 obj (Nat.zero_le md) hacc hnd
    | eof => rw [htk] at h; simp only [] at h; cases h; exact hobj 0 obj (Nat.zero_le md) hacc hnd

theorem parseDocumentP_eq (md : Nat) (ts : List (Tok × Nat)) :
    parseDocumentP md ts =
      (if ((match (curT ts).1 with
           | .ident _ => true
           | .str _ => true
           | _ => false) &&
          (match ts with
           | _ :: t1 :: _ => decide (t1.1 ≠ .eof)
           | _ => false)) = true then parseRootP md (pfuel ts) ts []
       else parseValueP md (pfuel ts) 0 ts) := rfl

/-- A value produced by parseDocumentP satisfies any property closed under the
value formers, with depth information as in the source. -/
theorem parseDocumentP_walk (md : Nat) (R : Nat → TValue → Prop)
    (hnull : ∀ d, d ≤ md → R d .null)
    (hbool : ∀ d b, d ≤ md → R d (.bool b))
    (hint : ∀ d n, d ≤ md → R d (.int n))
    (hfloat : ∀ d r, d ≤ md → R d (.float r))
    (hstr : ∀ d s2, d ≤ md → R d (.str s2))
    (harr : ∀ d l, d ≤ md → (∀ u ∈ l, R (d + 1) u) → R d (.arr l))
    (hobj : ∀ d l, d ≤ md → (∀ kv ∈ l, R (d + 1) kv.2) →
      ((l.map Prod.fst).Nodup) → R d (.obj l))
    (ts : List (Tok × Nat)) (v : TValue) (ts2 : List (Tok × Nat))
    (h : parseDocumentP md ts = .ok (v, ts2)) : R 0 v := by
  rw [parseDocumentP_eq] at h
  split at h
  · exact parser_walk_root md R hnull hbool hint hfloat hstr harr hobj
      (pfuel ts) ts [] v ts2 (fun kv hkv => by cases hkv) List.nodup_nil h
  · exact (parser_walk md R hnull hbool hint hfloat hstr harr hobj (pfuel ts)).1
      0 ts v ts2 h

theorem nodupKeysTList_of (l : List TValue)
    (h : ∀ u ∈ l, nodupKeysT u = true) : nodupKeysTList l = true := by
  induction l with
  | nil => rfl
  | cons v r ih =>
    rw [show nodupKeysTList (v :: r) = (nodupKeysT v && nodupKeysTList r) from rfl,
      h v (by simp), ih (fun u hu => h u (by simp [hu]))]
    rfl

theorem nodupKeysTEnts_of (l : List (List Nat × TValue))
    (h : ∀ kv ∈ l, nodupKeysT kv.2 = true) : nodupKeysTEnts l = true := by
  induction l with
  | nil => rfl
  | cons a r ih =>
    obtain ⟨k0, v0⟩ := a
    rw [show nodupKeysTEnts ((k0, v0) :: r) =
      (nodupKeysT v0 && nodupKeysTEnts r) from rfl,
      h (k0, v0) (by simp), ih (fun u hu => h u (by simp [hu]))]
    rfl

/-- C3: corrected.  The parse side holds: whenever parse succeeds, every
object in the result, root or nested, has pairwise distinct keys, because a
repeated key is rejected with the duplicate-key error.  The binary decode side
is false: decodeValue performs obj[key] = value with no duplicate-index check
(src/decoder.ts lines 143-153), so a stream whose object repeats key index 0
decodes successfully and the later entry silently overwrites the earlier one,
as the concrete stream in the second conjunct shows. -/
theorem C3_duplicate_keys :
    (∀ (input : List Nat) (opts : ParseOptions) (v : TValue),
        parse input opts = .ok v → nodupKeysT v = true) ∧
    decode [75, 79, 68, 65, 1, 0, 0, 0, 1, 0, 0, 0, 1, 97, 17, 0, 0, 0, 2,
        0, 0, 0, 0, 4, 0, 0, 0, 0, 0, 0, 0, 1,
        0, 0, 0, 0, 4, 0, 0, 0, 0, 0, 0, 0, 2] {} =
      .ok (.obj [([97], .int 2)]) := by
  constructor
  · intro input opts v h
    rw [parse_eq] at h
    cases ht : tokenize input opts.maxInputLength with
    | error e => rw [ht, err_bind] at h; cases h
    | ok toks =>
      rw [ht, ok_bind] at h
      simp only [] at h
      cases hd : parseDocumentP opts.maxDepth toks with
      | error e => rw [hd, err_bind] at h; cases h
      | ok p =>
        obtain ⟨v1, ts⟩ := p
        rw [hd, ok_bind] at h
        simp only [] at h
        have hv1 : v1 = v := by
          cases htk : (curT ts).1 <;> rw [htk] at h <;> simp only [] at h <;>
            first
            | (cases h; rfl)
            | cases h
        subst hv1
        exact parseDocumentP_walk opts.maxDepth (fun _ u => nodupKeysT u = true)
          (fun d _ => rfl) (fun d b _ => by cases b <;> rfl)
          (fun d n _ => rfl) (fun d r _ => rfl) (fun d s2 _ => rfl)
          (fun d l _ hall => by
            show nodupKeysT (TValue.arr l) = true
            rw [show nodupKeysT (.arr l) = nodupKeysTList l from rfl]
            exact nodupKeysTList_of l hall)
          (fun d l _ hall hnd => by
            show nodupKeysT (TValue.obj l) = true
            rw [show nodupKeysT (.obj l) =
              (decide ((l.map Prod.fst).Nodup) && nodupKeysTEnts l) from rfl,
              decide_eq_true hnd, nodupKeysTEnts_of l hall]
            rfl)
          toks v1 ts hd
  · rfl

/-- Concrete check of C3 on the parse side. -/
theorem C3_duplicate_keys_witness :
    nodupKeysT (TValue.obj [([97], TValue.int 1), ([98], TValue.int 2)]) = true :=
  C3_duplicate_keys.1 [123, 97, 58, 49, 44, 98, 58, 50, 125] {}
    (TValue.obj [([97], TValue.int 1), ([98], TValue.int 2)]) (by rfl)


/-! ## Depth behaviour of encode and parse -/

theorem encode_eq (v : KValue) (opts : EncodeOptions) :
    encode v opts = (do
      let body ← encodeValueF (dictOf v) (opts.maxDepth + 1) v
      Except.ok (MAGIC ++ [VERSION] ++ u32be (dictOf v).length ++
        ((dictOf v).map
          (fun k => u32be (utf8Encode k).length ++ utf8Encode k)).flatten ++
        body)) := rfl

theorem encode_depth (v : KValue) (opts : EncodeOptions) :
    (vdepthK v ≤ opts.maxDepth → ∃ out, encode v opts = .ok out) ∧
    (opts.maxDepth < vdepthK v → encode v opts = .error .depthExceeded) := by
  have hkeys : ∀ k ∈ keysOfK v, k ∈ dictOf v := fun k hk => (mem_dictOf v k).mpr hk
  constructor
  · intro hd
    obtain ⟨body, hb⟩ :=
      enc_ok_of_fuel (dictOf v) (opts.maxDepth + 1) v (by omega) hkeys
    exact ⟨_, by rw [encode_eq, hb, ok_bind]⟩
  · intro hd
    rw [encode_eq,
      enc_depth_err (dictOf v) (opts.maxDepth + 1) v (by omega) hkeys, err_bind]

theorem tdepthTList_le (l : List TValue) (k : Nat)
    (h : ∀ u ∈ l, 1 + tdepthT u ≤ k) : tdepthTList l ≤ k := by
  induction l with
  | nil => rw [show tdepthTList [] = 0 from rfl]; omega
  | cons v r ih =>
    rw [show tdepthTList (v :: r) = max (1 + tdepthT v) (tdepthTList r) from rfl]
    have h1 := h v (by simp)
    have h2 := ih (fun u hu => h u (by simp [hu]))
    omega

theorem tdepthTEnts_le (l : List (List Nat × TValue)) (k : Nat)
    (h : ∀ kv ∈ l, 1 + tdepthT kv.2 ≤ k) : tdepthTEnts l ≤ k := by
  induction l with
  | nil => rw [show tdepthTEnts [] = 0 from rfl]; omega
  | cons a r ih =>
    obtain ⟨k0, v0⟩ := a
    rw [show tdepthTEnts ((k0, v0) :: r) =
      max (1 + tdepthT v0) (tdepthTEnts r) from rfl]
    have h1 : 1 + tdepthT v0 ≤ k := h (k0, v0) (by simp)
    have h2 := ih (fun u hu => h u (by simp [hu]))
    omega

theorem parse_tdepth (input : List Nat) (opts : ParseOptions) (v : TValue)
    (h : parse input opts = .ok v) : tdepthT v ≤ opts.maxDepth := by
  rw [parse_eq] at h
  cases ht : tokenize input opts.maxInputLength with
  | error e => rw [ht, err_bind] at h; cases h
  | ok toks =>
    rw [ht, ok_bind] at h
    simp only [] at h
    cases hd : parseDocumentP opts.maxDepth toks with
    | error e => rw [hd, err_bind] at h; cases h
    | ok p =>
      obtain ⟨v1, ts⟩ := p
      rw [hd, ok_bind] at h
      simp only [] at h
      have hv1 : v1 = v := by
        cases htk : (curT ts).1 <;> rw [htk] at h <;> simp only [] at h <;>
          first
          | (cases h; rfl)
          | cases h
      subst hv1
      have hr := parseDocumentP_walk opts.maxDepth
        (fun d u => tdepthT u + d ≤ opts.maxDepth)
        (fun d hdm => by show tdepthT TValue.null + d ≤ opts.maxDepth; rw [show tdepthT TValue.null = 0 from rfl]; omega)
        (fun d b hdm => by show tdepthT (TValue.bool b) + d ≤ opts.maxDepth; rw [show tdepthT (TValue.bool b) = 0 from rfl]; omega)
        (fun d n hdm => by show tdepthT (TValue.int n) + d ≤ opts.maxDepth; rw [show tdepthT (TValue.int n) = 0 from rfl]; omega)
        (fun d r hdm => by show tdepthT (TValue.float r) + d ≤ opts.maxDepth; rw [show tdepthT (TValue.float r) = 0 from rfl]; omega)
        (fun d s2 hdm => by show tdepthT (TValue.str s2) + d ≤ opts.maxDepth; rw [show tdepthT (TValue.str s2) = 0 from rfl]; omega)
        (fun d l hdm hall => by
          show tdepthT (TValue.arr l) + d ≤ opts.maxDepth
          rw [show tdepthT (TValue.arr l) = tdepthTList l from rfl]
          have := tdepthTList_le l (opts.maxDepth - d) (fun u hu => by
            have := hall u hu
            omega)
          omega)
        (fun d l hdm hall hnd => by
          show tdepthT (TValue.obj l) + d ≤ opts.maxDepth
          rw [show tdepthT (TValue.obj l) = tdepthTEnts l from rfl]
          have := tdepthTEnts_le l (opts.maxDepth - d) (fun kv hkv => by
            have := hall kv hkv
            omega)
          omega)
        toks v1 ts hd
      omega


/-! ## Parser behaviour under a different depth limit -/

theorem parseArrP_succ_ne (md n depth : Nat) (ts : List (Tok × Nat))
    (arr : List TValue) (h : (curT ts).1 ≠ .rbracket) :
    parseArrP md (n + 1) depth ts arr = (do
      let (v, ts2) ← parseValueP md n (depth + 1) ts
      let ts3 := if (curT ts2).1 = .comma then advT ts2 else ts2
      parseArrP md n depth ts3 (arr ++ [v])) := by
  rw [parseArrP_succ]
  cases htk : (curT ts).1 <;> first | (exact absurd htk h) | rfl

theorem parser_budget :
    ∀ fuel : Nat,
      (∀ (md depth : Nat) (ts : List (Tok × Nat)) (r : TValue × List (Tok × Nat)),
        parseValueP md fuel depth ts = .ok r →
        ∀ (md2 depth2 : Nat),
          (md + depth2 ≤ md2 + depth → parseValueP md2 fuel depth2 ts = .ok r) ∧
          (parseValueP md2 fuel depth2 ts = .ok r ∨
            ∃ o, parseValueP md2 fuel depth2 ts = .error ⟨.depthExceeded, o⟩)) ∧
      (∀ (md depth : Nat) (ts : List (Tok × Nat)) (obj : List (List Nat × TValue))
        (r : TValue × List (Tok × Nat)),
        parseObjP md fuel depth ts obj = .ok r →
        ∀ (md2 depth2 : Nat), depth ≤ md → ¬ depth2 > md2 →
          (md + depth2 ≤ md2 + depth → parseObjP md2 fuel depth2 ts obj = .ok r) ∧
          (parseObjP md2 fuel depth2 ts obj = .ok r ∨
            ∃ o, parseObjP md2 fuel depth2 ts obj = .error ⟨.depthExceeded, o⟩)) ∧
      (∀ (md depth : Nat) (key : List Nat) (kOff : Nat) (ts : List (Tok × Nat))
        (obj : List (List Nat × TValue)) (r : TValue × List (Tok × Nat)),
        parseObjEntryP md fuel depth key kOff ts obj = .ok r →
        ∀ (md2 depth2 : Nat), depth ≤ md → ¬ depth2 > md2 →
          (md + depth2 ≤ md2 + depth →
            parseObjEntryP md2 fuel depth2 key kOff ts obj = .ok r) ∧
          (parseObjEntryP md2 fuel depth2 key kOff ts obj = .ok r ∨
            ∃ o, parseObjEntryP md2 fuel depth2 key kOff ts obj =
              .error ⟨.depthExceeded, o⟩)) ∧
      (∀ (md depth : Nat) (ts : List (Tok × Nat)) (arr : List TValue)
        (r : TValue × List (Tok × Nat)),
        parseArrP md fuel depth ts arr = .ok r →
        ∀ (md2 depth2 : Nat), depth ≤ md → ¬ depth2 > md2 →
          (md + depth2 ≤ md2 + depth → parseArrP md2 fuel depth2 ts arr = .ok r) ∧
          (parseArrP md2 fuel depth2 ts arr = .ok r ∨
            ∃ o, parseArrP md2 fuel depth2 ts arr = .error ⟨.depthExceeded, o⟩)) := by
  intro fuel
  induction fuel with
  | zero =>
    refine ⟨fun md depth ts r h => ?_, fun md depth ts obj r h => ?_,
      fun md depth key kOff ts obj r h => ?_, fun md depth ts arr r h => ?_⟩
    · rw [show parseValueP md 0 depth ts =
        Except.error ⟨.fuelExhausted, (curT ts).2⟩ from rfl] at h
      cases h
    · rw [show parseObjP md 0 depth ts obj =
        Except.error ⟨.fuelExhausted, (curT ts).2⟩ from rfl] at h
      cases h
    · rw [show parseObjEntryP md 0 depth key kOff ts obj =
        Except.error ⟨.fuelExhausted, (curT ts).2⟩ from rfl] at h
      cases h
    · rw [show parseArrP md 0 depth ts arr =
        Except.error ⟨.fuelExhausted, (curT ts).2⟩ from rfl] at h
      cases h
  | succ n ih =>
    obtain ⟨ih1, ih2, ih3, ih4⟩ := ih
    refine ⟨?_, ?_, ?_, ?_⟩
    · intro md depth ts r hok md2 depth2
      rw [parseValueP_succ] at hok
      by_cases hd : depth > md
      · rw [if_pos hd] at hok; cases hok
      · rw [if_neg hd] at hok
        by_cases hd2 : depth2 > md2
        · exact ⟨fun hcond => absurd hd2 (by omega),
            Or.inr ⟨(curT ts).2, by rw [parseValueP_succ, if_pos hd2]⟩⟩
        · cases htk : (curT ts).1 with
          | lbrace =>
            rw [htk] at hok
            simp only [] at hok
            have hb := ih2 md depth (advT ts) [] r hok md2 depth2 (by omega) hd2
            constructor
            · intro hcond
              rw [parseValueP_succ, if_neg hd2, htk]
              simp only []
              exact hb.1 hcond
            · rcases hb.2 with h2 | ⟨o, h2⟩
              · refine Or.inl ?_
                rw [parseValueP_succ, if_neg hd2, htk]
                simp only []
                exact h2
              · refine Or.inr ⟨o, ?_⟩
                rw [parseValueP_succ, if_neg hd2, htk]
                simp only []
                exact h2
          | lbracket =>
            rw [htk] at hok
            simp only [] at hok
            have hb := ih4 md depth (advT ts) [] r hok md2 depth2 (by omega) hd2
            constructor
            · intro hcond
              rw [parseValueP_succ, if_neg hd2, htk]
              simp only []
              exact hb.1 hcond
            · rcases hb.2 with h2 | ⟨o, h2⟩
              · refine Or.inl ?_
                rw [parseValueP_succ, if_neg hd2, htk]
                simp only []
                exact h2
              · refine Or.inr ⟨o, ?_⟩
                rw [parseValueP_succ, if_neg hd2, htk]
                simp only []
                exact h2
          | str s2 =>
            rw [htk] at hok
            simp only [] at hok
            cases hok
            have hg : parseValueP md2 (n + 1) depth2 ts = .ok (.str s2, advT ts) := by
              rw [parseValueP_succ, if_neg hd2, htk]
            exact ⟨fun _ => hg, Or.inl hg⟩
          | ident s2 =>
            rw [htk] at hok
            simp only [] at hok
            cases hok
            have hg : parseValueP md2 (n + 1) depth2 ts = .ok (.str s2, advT ts) := by
              rw [parseValueP_succ, if_neg hd2, htk]
            exact ⟨fun _ => hg, Or.inl hg⟩
          | int n2 =>
            rw [htk] at hok
            simp only [] at hok
            cases hok
            have hg : parseValueP md2 (n + 1) depth2 ts = .ok (.int n2, advT ts) := by
              rw [parseValueP_succ, if_neg hd2, htk]
            exact ⟨fun _ => hg, Or.inl hg⟩
          | float r2 =>
            rw [htk] at hok
            simp only [] at hok
            cases hok
            have hg : parseValueP md2 (n + 1) depth2 ts =
                .ok (.float r2, advT ts) := by
              rw [parseValueP_succ, if_neg hd2, htk]
            exact ⟨fun _ => hg, Or.inl hg⟩
          | tTrue =>
            rw [htk] at hok
            simp only [] at hok
            cases hok
            have hg : parseValueP md2 (n + 1) depth2 ts =
                .ok (.bool true, advT ts) := by
              rw [parseValueP_succ, if_neg hd2, htk]
            exact ⟨fun _ => hg, Or.inl hg⟩
          | tFalse =>
            rw [htk] at hok
            simp only [] at hok
            cases hok
            have hg : parseValueP md2 (n + 1) depth2 ts =
                .ok (.bool false, advT ts) := by
              rw [parseValueP_succ, if_neg hd2, htk]
            exact ⟨fun _ => hg, Or.inl hg⟩
          | tNull =>
            rw [htk] at hok
            simp only [] at hok
            cases hok
            have hg : parseValueP md2 (n + 1) depth2 ts = .ok (.null, advT ts) := by
              rw [parseValueP_succ, if_neg hd2, htk]
            exact ⟨fun _ => hg, Or.inl hg⟩
          | rbrace => rw [htk] at hok; simp only [] at hok; cases hok
          | rbracket => rw [htk] at hok; simp only [] at hok; cases hok
          | colon => rw [htk] at hok; simp only [] at hok; cases hok
          | comma => rw [htk] at hok; simp only [] at hok; cases hok
          | eof => rw [htk] at hok; simp only [] at hok; cases hok
    · intro md depth ts obj r hok md2 depth2 hdm hd2
      rw [parseObjP_succ] at hok
      cases htk : (curT ts).1 with
      | rbrace =>
        rw [htk] at hok
        simp only [] at hok
        cases hok
        have hg : parseObjP md2 (n + 1) depth2 ts obj =
            .ok (.obj obj, advT ts) := by
          rw [parseObjP_succ, htk]
        exact ⟨fun _ => hg, Or.inl hg⟩
      | ident key =>
        rw [htk] at hok
        simp only [] at hok
        have hb := ih3 md depth key (curT ts).2 (advT ts) obj r hok md2 depth2 hdm hd2
        constructor
        · intro hcond
          rw [parseObjP_succ, htk]
          simp only []
          exact hb.1 hcond
        · rcases hb.2 with h2 | ⟨o, h2⟩
          · refine Or.inl ?_
            rw [parseObjP_succ, htk]
            simp only []
            exact h2
          · refine Or.inr ⟨o, ?_⟩
            rw [parseObjP_succ, htk]
            simp only []
            exact h2
      | str key =>
        rw [htk] at hok
        simp only [] at hok
        have hb := ih3 md depth key (curT ts).2 (advT ts) obj r hok md2 depth2 hdm hd2
        constructor
        · intro hcond
          rw [parseObjP_succ, htk]
          simp only []
          exact hb.1 hcond
        · rcases hb.2 with h2 | ⟨o, h2⟩
          · refine Or.inl ?_
            rw [parseObjP_succ, htk]
            simp only []
            exact h2
          · refine Or.inr ⟨o, ?_⟩
            rw [parseObjP_succ, htk]
            simp only []
            exact h2
      | lbrace => rw [htk] at hok; simp only [] at hok; cases hok
      | lbracket => rw [htk] at hok; simp only [] at hok; cases hok
      | rbracket => rw [htk] at hok; simp only [] at hok; cases hok
      | colon => rw [htk] at hok; simp only [] at hok; cases hok
      | comma => rw [htk] at hok; simp only [] at hok; cases hok
      | int n2 => rw [htk] at hok; simp only [] at hok; cases hok
      | float r2 => rw [htk] at hok; simp only [] at hok; cases hok
      | tTrue => rw [htk] at hok; simp only [] at hok; cases hok
      | tFalse => rw [htk] at hok; simp only [] at hok; cases hok
      | tNull => rw [htk] at hok; simp only [] at hok; cases hok
      | eof => rw [htk] at hok; simp only [] at hok; cases hok
    · intro md depth key kOff ts obj r hok md2 depth2 hdm hd2
      rw [parseObjEntryP_succ] at hok
      simp only [] at hok
      cases hv : parseValueP md n (depth + 1)
          (if (curT ts).1 = .colon then advT ts else ts) with
      | error e => rw [hv, err_bind] at hok; cases hok
      | ok p =>
        obtain ⟨v1, ts3⟩ := p
        rw [hv, ok_bind] at hok
        simp only [] at hok
        by_cases hkey : key ∈ obj.map Prod.fst
        · rw [if_pos hkey] at hok; cases hok
        · rw [if_neg hkey] at hok
          have hbv := ih1 md (depth + 1)
            (if (curT ts).1 = .colon then advT ts else ts) (v1, ts3) hv
            md2 (depth2 + 1)
          have hbo := ih2 md depth
            (if (curT ts3).1 = .comma then advT ts3 else ts3)
            (obj ++ [(key, v1)]) r hok md2 depth2 hdm hd2
          constructor
          · intro hcond
            rw [parseObjEntryP_succ]
            simp only []
            rw [hbv.1 (by omega), ok_bind]
            simp only []
            rw [if_neg hkey]
            exact hbo.1 hcond
          · rcases hbv.2 with h2 | ⟨o, h2⟩
            · rcases hbo.2 with h3 | ⟨o, h3⟩
              · refine Or.inl ?_
                rw [parseObjEntryP_succ]
                simp only []
                rw [h2, ok_bind]
                simp only []
                rw [if_neg hkey]
                exact h3
              · refine Or.inr ⟨o, ?_⟩
                rw [parseObjEntryP_succ]
                simp only []
                rw [h2, ok_bind]
                simp only []
                rw [if_neg hkey]
                exact h3
            · refine Or.inr ⟨o, ?_⟩
              rw [parseObjEntryP_succ]
              simp only []
              rw [h2, err_bind]
    · intro md depth ts arr r hok md2 depth2 hdm hd2
      by_cases htk : (curT ts).1 = .rbracket
      · rw [parseArrP_succ, htk] at hok
        simp only [] at hok
        cases hok
        have hg : parseArrP md2 (n + 1) depth2 ts arr =
            .ok (.arr arr, advT ts) := by
          rw [parseArrP_succ, htk]
        exact ⟨fun _ => hg, Or.inl hg⟩
      · rw [parseArrP_succ_ne md n depth ts arr htk] at hok
        simp only [] at hok
        cases hv : parseValueP md n (depth + 1) ts with
        | error e => rw [hv, err_bind] at hok; cases hok
        | ok p =>
          obtain ⟨v1, ts3⟩ := p
          rw [hv, ok_bind] at hok
          simp only [] at hok
          have hbv := ih1 md (depth + 1) ts (v1, ts3) hv md2 (depth2 + 1)
          have hba := ih4 md depth
            (if (curT ts3).1 = .comma then advT ts3 else ts3)
            (arr ++ [v1]) r hok md2 depth2 hdm hd2
          constructor
          · intro hcond
            rw [parseArrP_succ_ne md2 n depth2 ts arr htk]
            simp only []
            rw [hbv.1 (by omega), ok_bind]
            simp only []
            exact hba.1 hcond
          · rcases hbv.2 with h2 | ⟨o, h2⟩
            · rcases hba.2 with h3 | ⟨o, h3⟩
              · refine Or.inl ?_
                rw [parseArrP_succ_ne md2 n depth2 ts arr htk]
                simp only []
                rw [h2, ok_bind]
                simp only []
                exact h3
              · refine Or.inr ⟨o, ?_⟩
                rw [parseArrP_succ_ne md2 n depth2 ts arr htk]
                simp only []
                rw [h2, ok_bind]
                simp only []
                exact h3
            · refine Or.inr ⟨o, ?_⟩
              rw [parseArrP_succ_ne md2 n depth2 ts arr htk]
              simp only []
              rw [h2, err_bind]


theorem parseRootP_budget :
    ∀ (fuel md : Nat) (ts : List (Tok × Nat)) (obj : List (List Nat × TValue))
      (r : TValue × List (Tok × Nat)),
      parseRootP md fuel ts obj = .ok r →
      ∀ md2 : Nat,
        (md ≤ md2 → parseRootP md2 fuel ts obj = .ok r) ∧
        (parseRootP md2 fuel ts obj = .ok r ∨
          ∃ o, parseRootP md2 fuel ts obj = .error ⟨.depthExceeded, o⟩) := by
  intro fuel
  induction fuel with
  | zero =>
    intro md ts obj r h
    rw [show parseRootP md 0 ts obj =
      Except.error ⟨.fuelExhausted, (curT ts).2⟩ from rfl] at h
    cases h
  | succ n ih =>
    intro md ts obj r hok md2
    rw [parseRootP_succ] at hok
    cases htk : (curT ts).1 with
    | ident key =>
      rw [htk] at hok
      simp only [] at hok
      cases hv : parseValueP md n 1
          (if (curT (advT ts)).1 = .colon then advT (advT ts) else advT ts) with
      | error e => rw [hv, err_bind] at hok; cases hok
      | ok p =>
        obtain ⟨v1, ts3⟩ := p
        rw [hv, ok_bind] at hok
        simp only [] at hok
        by_cases hkey : key ∈ obj.map Prod.fst
        · rw [if_pos hkey] at hok; cases hok
        · rw [if_neg hkey] at hok
          have hbv := (parser_budget n).1 md 1
            (if (curT (advT ts)).1 = .colon then advT (advT ts) else advT ts)
            (v1, ts3) hv md2 1
          have hbr := ih md ts3 (obj ++ [(key, v1)]) r hok md2
          constructor
          · intro hcond
            rw [parseRootP_succ, htk]
            simp only []
            rw [hbv.1 (by omega), ok_bind]
            simp only []
            rw [if_neg hkey]
            exact hbr.1 hcond
          · rcases hbv.2 with h2 | ⟨o, h2⟩
            · rcases hbr.2 with h3 | ⟨o, h3⟩
              · refine Or.inl ?_
                rw [parseRootP_succ, htk]
                simp only []
                rw [h2, ok_bind]
                simp only []
                rw [if_neg hkey]
                exact h3
              · refine Or.inr ⟨o, ?_⟩
                rw [parseRootP_succ, htk]
                simp only []
                rw [h2, ok_bind]
                simp only []
                rw [if_neg hkey]
                exact h3
            · refine Or.inr ⟨o, ?_⟩
              rw [parseRootP_succ, htk]
              simp only []
              rw [h2, err_bind]
    | str key =>
      rw [htk] at hok
      simp only [] at hok
      cases hv : parseValueP md n 1
          (if (curT (advT ts)).1 = .colon then advT (advT ts) else advT ts) with
      | error e => rw [hv, err_bind] at hok; cases hok
      | ok p =>
        obtain ⟨v1, ts3⟩ := p
        rw [hv, ok_bind] at hok
        simp only [] at hok
        by_cases hkey : key ∈ obj.map Prod.fst
        · rw [if_pos hkey] at hok; cases hok
        · rw [if_neg hkey] at hok
          have hbv := (parser_budget n).1 md 1
            (if (curT (advT ts)).1 = .colon then advT (advT ts) else advT ts)
            (v1, ts3) hv md2 1
          have hbr := ih md ts3 (obj ++ [(key, v1)]) r hok md2
          constructor
          · intro hcond
            rw [parseRootP_succ, htk]
            simp only []
            rw [hbv.1 (by omega), ok_bind]
            simp only []
            rw [if_neg hkey]
            exact hbr.1 hcond
          · rcases hbv.2 with h2 | ⟨o, h2⟩
            · rcases hbr.2 with h3 | ⟨o, h3⟩
              · refine Or.inl ?_
                rw [parseRootP_succ, htk]
                simp only []
                rw [h2, ok_bind]
                simp only []
                rw [if_neg hkey]
                exact h3
              · refine Or.inr ⟨o, ?_⟩
                rw [parseRootP_succ, htk]
                simp only []
                rw [h2, ok_bind]
                simp only []
                rw [if_neg hkey]
                exact h3
            · refine Or.inr ⟨o, ?_⟩
              rw [parseRootP_succ, htk]
              simp only []
              rw [h2, err_bind]
    | lbrace =>
      rw [htk] at hok
      simp only [] at hok
      cases hok
      have hg : parseRootP md2 (n + 1) ts obj = .ok (.obj obj, ts) := by
        rw [parseRootP_succ, htk]
      exact ⟨fun _ => hg, Or.inl hg⟩
    | lbracket =>
      rw [htk] at hok
      simp only [] at hok
      cases hok
      have hg : parseRootP md2 (n + 1) ts obj = .ok (.obj obj, ts) := by
        rw [parseRootP_succ, htk]
      exact ⟨fun _ => hg, Or.inl hg⟩
    | rbrace =>
      rw [htk] at hok
      simp only [] at hok
      cases hok
      have hg : parseRootP md2 (n + 1) ts obj = .ok (.obj obj, ts) := by
        rw [parseRootP_succ, htk]
      exact ⟨fun _ => hg, Or.inl hg⟩
    | rbracket =>
      rw [htk] at hok
      simp only [] at hok
      cases hok
      have hg : parseRootP md2 (n + 1) ts obj = .ok (.obj obj, ts) := by
        rw [parseRootP_succ, htk]
      exact ⟨fun _ => hg, Or.inl hg⟩
    | colon =>
      rw [htk] at hok
      simp only [] at hok
      cases hok
      have hg : parseRootP md2 (n + 1) ts obj = .ok (.obj obj, ts) := by
        rw [parseRootP_succ, htk]
      exact ⟨fun _ => hg, Or.inl hg⟩
    | comma =>
      rw [htk] at hok
      simp only [] at hok
      cases hok
      have hg : parseRootP md2 (n + 1) ts obj = .ok (.obj obj, ts) := by
        rw [parseRootP_succ, htk]
      exact ⟨fun _ => hg, Or.inl hg⟩
    | int n2 =>
      rw [htk] at hok
      simp only [] at hok
      cases hok
      have hg : parseRootP md2 (n + 1) ts obj = .ok (.obj obj, ts) := by
        rw [parseRootP_succ, htk]
      exact ⟨fun _ => hg, Or.inl hg⟩
    | float r2 =>
      rw [htk] at hok
      simp only [] at hok
      cases hok
      have hg : parseRootP md2 (n + 1) ts obj = .ok (.obj obj, ts) := by
        rw [parseRootP_succ, htk]
      exact ⟨fun _ => hg, Or.inl hg⟩
    | tTrue =>
      rw [htk] at hok
      simp only [] at hok
      cases hok
      have hg : parseRootP md2 (n + 1) ts obj = .ok (.obj obj, ts) := by
        rw [parseRootP_succ, htk]
      exact ⟨fun _ => hg, Or.inl hg⟩
    | tFalse =>
      rw [htk] at hok
      simp only [] at hok
      cases hok
      have hg : parseRootP md2 (n + 1) ts obj = .ok (.obj obj, ts) := by
        rw [parseRootP_succ, htk]
      exact ⟨fun _ => hg, Or.inl hg⟩
    | tNull =>
      rw [htk] at hok
      simp only [] at hok
      cases hok
      have hg : parseRootP md2 (n + 1) ts obj = .ok (.obj obj, ts) := by
        rw [parseRootP_succ, htk]
      exact ⟨fun _ => hg, Or.inl hg⟩
    | eof =>
      rw [htk] at hok
      simp only [] at hok
      cases hok
      have hg : parseRootP md2 (n + 1) ts obj = .ok (.obj obj, ts) := by
        rw [parseRootP_succ, htk]
      exact ⟨fun _ => hg, Or.inl hg⟩

theorem parse_budget (input : List Nat) (opts : ParseOptions) (v : TValue)
    (h : parse input opts = .ok v) (d2 : Nat) :
    (opts.maxDepth ≤ d2 → parse input ⟨d2, opts.maxInputLength⟩ = .ok v) ∧
    (parse input ⟨d2, opts.maxInputLength⟩ = .ok v ∨
      ∃ o, parse input ⟨d2, opts.maxInputLength⟩ = .error ⟨.depthExceeded, o⟩) := by
  rw [parse_eq] at h
  cases ht : tokenize input opts.maxInputLength with
  | error e => rw [ht, err_bind] at h; cases h
  | ok toks =>
    rw [ht, ok_bind] at h
    simp only [] at h
    cases hd : parseDocumentP opts.maxDepth toks with
    | error e => rw [hd, err_bind] at h; cases h
    | ok p =>
      obtain ⟨v1, ts⟩ := p
      rw [hd, ok_bind] at h
      simp only [] at h
      have heof : (curT ts).1 = .eof ∧ v1 = v := by
        cases htk : (curT ts).1 <;> rw [htk] at h <;> simp only [] at h <;>
          first
          | (cases h; exact ⟨rfl, rfl⟩)
          | cases h
      obtain ⟨heof, rfl⟩ := heof
      rw [parseDocumentP_eq] at hd
      have hfin : ∀ md3 : Nat, parseDocumentP md3 toks = .ok (v1, ts) →
          parse input ⟨md3, opts.maxInputLength⟩ = .ok v1 := by
        intro md3 h3
        rw [parse_eq, ht, ok_bind]
        simp only []
        rw [h3, ok_bind]
        show (match (curT ts).1 with
          | Tok.eof => Except.ok v1
          | t => Except.error (TErr.mk (TMsg.expectedEofTok t) (curT ts).2)) =
          Except.ok v1
        rw [heof]
      have hfine : ∀ (md3 : Nat) (e : TErr), parseDocumentP md3 toks = .error e →
          parse input ⟨md3, opts.maxInputLength⟩ = .error e := by
        intro md3 e h3
        rw [parse_eq, ht, ok_bind]
        simp only []
        rw [h3, err_bind]
      split at hd
      · have hb := parseRootP_budget (pfuel toks) opts.maxDepth toks [] (v1, ts) hd d2
        constructor
        · intro hle
          refine hfin d2 ?_
          rw [parseDocumentP_eq, if_pos (by assumption)]
          exact hb.1 hle
        · rcases hb.2 with h2 | ⟨o, h2⟩
          · refine Or.inl (hfin d2 ?_)
            rw [parseDocumentP_eq, if_pos (by assumption)]
            exact h2
          · refine Or.inr ⟨o, hfine d2 _ ?_⟩
            rw [parseDocumentP_eq, if_pos (by assumption)]
            exact h2
      · have hb := (parser_budget (pfuel toks)).1 opts.maxDepth 0 toks (v1, ts) hd d2 0
        constructor
        · intro hle
          refine hfin d2 ?_
          rw [parseDocumentP_eq, if_neg (by assumption)]
          exact hb.1 (by omega)
        · rcases hb.2 with h2 | ⟨o, h2⟩
          · refine Or.inl (hfin d2 ?_)
            rw [parseDocumentP_eq, if_neg (by assumption)]
            exact h2
          · refine Or.inr ⟨o, hfine d2 _ ?_⟩
            rw [parseDocumentP_eq, if_neg (by assumption)]
            exact h2

/-- C5: nesting depth against maxDepth in all three phases.  Encoding: a value
whose nesting depth is at most maxDepth encodes successfully, and a deeper
value fails with the depth error.  Decoding: a decoded value never exceeds the
depth limit, raising the limit never changes a successful result, and with any
other limit the same input either decodes to the same value or fails with the
depth error, so the limit acts exactly as a nesting cutoff.  Parsing: the same
three statements for the text parser. -/
theorem C5_depth_limits :
    (∀ (v : KValue) (opts : EncodeOptions),
      (vdepthK v ≤ opts.maxDepth → ∃ out, encode v opts = .ok out) ∧
      (opts.maxDepth < vdepthK v → encode v opts = .error .depthExceeded)) ∧
    (∀ (buffer : List Nat) (opts : DecodeOptions) (v : KValue),
      decode buffer opts = .ok v →
      vdepthK v ≤ opts.maxDepth ∧
      ∀ d2 : Nat,
        (opts.maxDepth ≤ d2 →
          decode buffer ⟨d2, opts.maxDictionarySize, opts.maxStringLength⟩ =
            .ok v) ∧
        (decode buffer ⟨d2, opts.maxDictionarySize, opts.maxStringLength⟩ =
            .ok v ∨
          ∃ o, decode buffer ⟨d2, opts.maxDictionarySize, opts.maxStringLength⟩ =
            .error (.err .depthExceeded o))) ∧
    (∀ (input : List Nat) (opts : ParseOptions) (v : TValue),
      parse input opts = .ok v →
      tdepthT v ≤ opts.maxDepth ∧
      ∀ d2 : Nat,
        (opts.maxDepth ≤ d2 → parse input ⟨d2, opts.maxInputLength⟩ = .ok v) ∧
        (parse input ⟨d2, opts.maxInputLength⟩ = .ok v ∨
          ∃ o, parse input ⟨d2, opts.maxInputLength⟩ =
            .error ⟨.depthExceeded, o⟩)) :=
  ⟨fun v opts => encode_depth v opts,
   fun buffer opts v h =>
     ⟨decode_vdepth buffer opts v h, fun d2 => decode_budget buffer opts v h d2⟩,
   fun input opts v h =>
     ⟨parse_tdepth input opts v h, fun d2 => parse_budget input opts v h d2⟩⟩

/-- Concrete check of C5: the array [1] encodes under the default limit and
fails at limit 0; the decoded integer 1 and the parsed [1] respect the default
limit. -/
theorem C5_depth_limits_witness :
    (∃ out, encode (KValue.arr [KValue.int 1]) {} = .ok out) ∧
    encode (KValue.arr [KValue.int 1]) ⟨0⟩ = .error .depthExceeded ∧
    vdepthK (KValue.int 1) ≤ 256 ∧
    tdepthT (TValue.arr [TValue.int 1]) ≤ 256 :=
  ⟨(C5_depth_limits.1 (KValue.arr [KValue.int 1]) {}).1 (by decide),
   (C5_depth_limits.1 (KValue.arr [KValue.int 1]) ⟨0⟩).2 (by decide),
   (C5_depth_limits.2.1 [75, 79, 68, 65, 1, 0, 0, 0, 0, 4, 0, 0, 0, 0, 0, 0, 0, 1]
     {} (KValue.int 1) (by rfl)).1,
   (C5_depth_limits.2.2 [91, 49, 93] {} (TValue.arr [TValue.int 1]) (by rfl)).1⟩

/-- Counterexample to the spec's claim that duplicate keys are rejected on
both paths: the binary stream whose one-key dictionary is reused for two
entries of the same object decodes successfully, and the later entry's value
overwrites the earlier one. -/
theorem C3_duplicate_keys_counterexample :
    decode [75, 79, 68, 65, 1, 0, 0, 0, 1, 0, 0, 0, 1, 97, 17, 0, 0, 0, 2,
      0, 0, 0, 0, 4, 0, 0, 0, 0, 0, 0, 0, 1,
      0, 0, 0, 0, 4, 0, 0, 0, 0, 0, 0, 0, 2] {} =
    .ok (KValue.obj [([97], KValue.int 2)]) := rfl

/-- Counterexample to the spec's claim that any digit after a leading zero is
rejected: the text [00] parses successfully as the array [0, 0], because the
lexer only rejects a leading zero when the next character is 1-9. -/
theorem C9_leading_zero_counterexample :
    parse [91, 48, 48, 93] {} = .ok (TValue.arr [TValue.int 0, TValue.int 0]) :=
  rfl

end Koda
